import Mathlib

/-!
# Cyclus kernel: scheduler and request portfolios

A shallow embedding of `src/timer.cc`, `src/request_portfolio.h`,
`src/capacity_constraint.h` and `src/exchange_context.h`, and the properties of
the specification that are settled against it.

Conventions of the embedding

* `int` is `Int`: `time_` only grows up to `duration`, and the counter of
  constraint ids is taken to stay within the range of `int`. Pointers are
  natural numbers compared by identity, and a null pointer is `none`.
* `std::map` is an association list kept in ascending key order
  (`OMap`); `operator[]`, `erase` and the in-order traversal are the
  functions of the next section.
* A member function that can throw returns the state it leaves behind next
  to its result, so that "the call failed and nothing changed" is a
  statement about the returned state.
* A finite `double` is the rational number it denotes; the only operations
  on doubles below are comparison, and the arithmetic of
  `AddMutualReqs`, whose integer steps are modelled exactly.
-/

namespace cyclus

/-! ## Ordered maps -/

/-- An ordered map (`std::map`): the entries in ascending key order. -/
abbrev OMap (κ : Type) (ν : Type) := List (κ × ν)

namespace OMap

variable {κ ν : Type}

/-- Lookup of a key (`find`): the value of the first entry under `k`. -/
def find? [DecidableEq κ] : OMap κ ν → κ → Option ν
  | [], _ => none
  | (k', v) :: rest, k => if k' = k then some v else find? rest k

/-- The entry under `k` is replaced by `f` of its old value, and created at its
place in the key order from `f none` when the key is absent. With
`f o = g (o.getD d)` this is `m[k] = g(m[k])` of `operator[]`. -/
def alter [LinearOrder κ] (k : κ) (f : Option ν → ν) : OMap κ ν → OMap κ ν
  | [] => [(k, f none)]
  | (k', v) :: rest =>
    if k' < k then (k', v) :: alter k f rest
    else if k' = k then (k, f (some v)) :: rest
    else (k, f none) :: (k', v) :: rest

/-- Removal of a key (`erase(key)`). -/
def erase [DecidableEq κ] (k : κ) : OMap κ ν → OMap κ ν
  | [] => []
  | (k', v) :: rest => if k' = k then rest else (k', v) :: erase k rest

/-- The value read by `m[k]`: the stored one, or the default of a fresh entry. -/
def get [DecidableEq κ] (m : OMap κ ν) (k : κ) (d : ν) : ν := (find? m k).getD d

/-- The map left behind by reading `m[k]`: an absent key gets a default entry. -/
def touch [LinearOrder κ] (k : κ) (d : ν) (m : OMap κ ν) : OMap κ ν :=
  alter k (fun o => o.getD d) m

/-- The keys are strictly ascending: the shape every `std::map` has. -/
def WF [LinearOrder κ] (m : OMap κ ν) : Prop := (m.map Prod.fst).Sorted (· < ·)

end OMap

/-! ## The scheduler (`src/timer.cc`) -/

/-- The exception kinds thrown by the kernel. -/
inductive Error
  | ValueError
  | KeyError
  deriving DecidableEq, Repr

/-- An agent is known to the timer by its address (`Agent*`). -/
abbrev Agent := Nat

/-- A time listener (`TimeListener*`): its address and what `id()` returns. -/
structure TimeListener where
  addr : Nat
  id : Int
  deriving DecidableEq, Repr

/-- Modelled from the spec: the simulation configuration `SimInfo` (declared in a
header that is not part of the sources), with the three fields the timer reads. -/
structure SimInfo where
  duration : Int
  m0 : Int
  branch_time : Int
  deriving DecidableEq, Repr

/-- The data members of `Timer` (the context pointer apart). -/
structure Timer where
  time_ : Int
  si_ : SimInfo
  want_snapshot_ : Bool
  want_kill_ : Bool
  tickers_ : OMap Int TimeListener
  build_queue_ : OMap Int (List (String × Option Agent))
  decom_queue_ : OMap Int (List Agent)
  deriving DecidableEq, Repr

namespace Timer

/-- `Timer::SchedBuild`: the state after the call and whether it threw. -/
def SchedBuild (s : Timer) (parent : Option Agent) (proto_name : String) (t : Int) :
    Except Error Unit × Timer :=
  if t ≤ s.time_ then (.error .ValueError, s)
  else (.ok (), { s with
    build_queue_ := s.build_queue_.alter t (fun o => o.getD [] ++ [(proto_name, parent)]) })

/-- The inner loop of `Timer::SchedDecom`: the first index `i` with `ags[i] == m`. -/
def findAgent (m : Agent) : List Agent → Option Nat
  | [] => none
  | a :: rest => if a = m then some 0 else (findAgent m rest).map (· + 1)

/-- The outer loop of `Timer::SchedDecom`: the entries are visited in key order, and
in the first one that holds `m` its first occurrence is erased (the loop erases
from `decom_queue_[t]` with `t = it->first`, the entry it is visiting); then the
loop stops. -/
def unschedule (m : Agent) : OMap Int (List Agent) → OMap Int (List Agent)
  | [] => []
  | (k, ags) :: rest =>
    match findAgent m ags with
    | some i => (k, ags.eraseIdx i) :: rest
    | none => (k, ags) :: unschedule m rest

/-- `Timer::SchedDecom`: the state after the call and whether it threw. The `t` that
the loop declares is local to the loop body: the agent is appended to the entry
of the parameter `t`. -/
def SchedDecom (s : Timer) (m : Agent) (t : Int) : Except Error Unit × Timer :=
  if t < s.time_ then (.error .ValueError, s)
  else (.ok (), { s with
    decom_queue_ := (unschedule m s.decom_queue_).alter t (fun o => o.getD [] ++ [m]) })

/-- `Timer::RegisterTimeListener`: `tickers_[agent->id()] = agent`. -/
def RegisterTimeListener (s : Timer) (agent : TimeListener) : Timer :=
  { s with tickers_ := s.tickers_.alter agent.id (fun _ => agent) }

/-- `Timer::UnregisterTimeListener`: `tickers_.erase(tl->id())`. -/
def UnregisterTimeListener (s : Timer) (tl : TimeListener) : Timer :=
  { s with tickers_ := s.tickers_.erase tl.id }

/-- `Timer::time`. -/
def time (s : Timer) : Int := s.time_

/-- `Timer::dur`. -/
def dur (s : Timer) : Int := s.si_.duration

/-- `Timer::Initialize`: the state after the call and whether it threw. -/
def Initialize (s : Timer) (si : SimInfo) : Except Error Unit × Timer :=
  if si.m0 < 1 ∨ si.m0 > 12 then (.error .ValueError, s)
  else
    let s1 := { s with want_kill_ := false, time_ := 0, si_ := si }
    (.ok (), if si.branch_time > -1 then { s1 with time_ := si.branch_time } else s1)

/-- Modelled from the spec: `Timer::KillSim` (defined in the header, which is not
part of the sources) sets the kill flag. -/
def KillSim (s : Timer) : Timer := { s with want_kill_ := true }

/-- Modelled from the spec: `Timer::Snapshot` (defined in the header, which is not
part of the sources) sets the snapshot flag. -/
def Snapshot (s : Timer) : Timer := { s with want_snapshot_ := true }

end Timer

/-! ### The simulation loop

`RunSim` calls into code outside the timer: the agents that are built, ticked
and decommissioned, the two exchange managers, the snapshot routine and the
recorder. Each such call is an `Event`, stamped with the value of `time_` at
the moment of the call, and `RunSim` is modelled by the sequence of events it
produces. The callee may call back into the timer; what it does there is
given by the environment `Env` as the list of calls it makes. A callee returns
normally: a call of `SchedBuild` or `SchedDecom` that throws is taken to be
handled by the callee (it leaves the timer as it was), and an exception that
escapes a callback is outside this model. -/

/-- The calls `RunSim` makes to the outside, stamped with `time_`. -/
inductive Event
  | Snapshot (t : Int)
  | Build (t : Int) (proto : String) (parent : Option Agent)
  | BuildNotify (t : Int) (parent : Agent) (proto : String)
  | Tick (t : Int) (l : TimeListener)
  | ExecMaterial (t : Int)
  | ExecProduct (t : Int)
  | Tock (t : Int) (l : TimeListener)
  | DecomNotify (t : Int) (parent : Agent) (m : Agent)
  | Decommission (t : Int) (m : Agent)
  | Finish (EarlyTerm : Bool) (EndTime : Int)
  deriving DecidableEq, Repr

/-- The calls a callee can make on the timer. -/
inductive Cmd
  | SchedBuild (parent : Option Agent) (proto : String) (t : Int)
  | SchedDecom (m : Agent) (t : Int)
  | KillSim
  | Snapshot
  | RegisterTimeListener (l : TimeListener)
  | UnregisterTimeListener (l : TimeListener)
  deriving DecidableEq, Repr

/-- The world outside the timer: the parent of an agent (`m->parent()`), and the
calls each callee makes on the timer, which may depend on the timer's state. -/
structure Env where
  parent : Agent → Option Agent
  react : Event → Timer → List Cmd

/-- A run in progress: the timer and the events so far. -/
structure Run where
  timer : Timer
  trace : List Event

/-- The events of `DoTick` and `DoTock`, which traverse `tickers_`. -/
def Event.traversal : Event → Bool
  | .Tick _ _ => true
  | .Tock _ _ => true
  | _ => false

/-- The calls that change `tickers_`. -/
def Cmd.registry : Cmd → Bool
  | .RegisterTimeListener _ => true
  | .UnregisterTimeListener _ => true
  | _ => false

/-- One call by a callee. A throwing call leaves the timer unchanged. -/
def runCmd (s : Timer) : Cmd → Timer
  | .SchedBuild parent proto t => (s.SchedBuild parent proto t).2
  | .SchedDecom m t => (s.SchedDecom m t).2
  | .KillSim => s.KillSim
  | .Snapshot => s.Snapshot
  | .RegisterTimeListener l => s.RegisterTimeListener l
  | .UnregisterTimeListener l => s.UnregisterTimeListener l

/-- One call to the outside: the event is recorded and the callee's calls are run.
The loops of `DoTick` and `DoTock` hold an iterator into `tickers_`, which a
change of `tickers_` by the callee could invalidate; the listeners ticked are
therefore taken not to register or unregister, and such calls are dropped from
what a `Tick` or `Tock` callee does. -/
def callback (env : Env) (e : Event) (r : Run) : Run :=
  { timer := ((env.react e r.timer).filter (fun c => !(e.traversal && c.registry))).foldl
      runCmd r.timer,
    trace := r.trace ++ [e] }

/-- A phase: a sequence of calls to the outside. -/
def phase (env : Env) (es : List Event) (r : Run) : Run :=
  es.foldl (fun r e => callback env e r) r

/-- The calls of `DoBuild` for one entry of the build list: the new agent is created
and built, and a parent that is not null is notified. -/
def buildEvents (t : Int) (b : String × Option Agent) : List Event :=
  match b.2 with
  | some p => [.Build t b.1 b.2, .BuildNotify t p b.1]
  | none => [.Build t b.1 b.2]

/-- The calls of `DoDecom` for one agent: a parent that is not null is notified,
then the agent is decommissioned. -/
def decomEvents (env : Env) (t : Int) (m : Agent) : List Event :=
  match env.parent m with
  | some p => [.DecomNotify t p m, .Decommission t m]
  | none => [.Decommission t m]

/-- `Timer::DoBuild`: `build_list` is a copy of `build_queue_[time_]`, taken (and the
entry created when absent) before the first agent is built. -/
def DoBuild (env : Env) (r : Run) : Run :=
  let t := r.timer.time_
  let build_list := r.timer.build_queue_.get t []
  let r1 : Run := { r with timer := { r.timer with build_queue_ := r.timer.build_queue_.touch t [] } }
  phase env (build_list.flatMap (buildEvents t)) r1

/-- `Timer::DoTick`: every entry of `tickers_`, in key order. -/
def DoTick (env : Env) (r : Run) : Run :=
  phase env (r.timer.tickers_.map (fun kv => Event.Tick r.timer.time_ kv.2)) r

/-- `Timer::DoResEx`: the material exchange, then the product exchange. -/
def DoResEx (env : Env) (r : Run) : Run :=
  phase env [.ExecMaterial r.timer.time_, .ExecProduct r.timer.time_] r

/-- `Timer::DoTock`: every entry of `tickers_`, in key order. -/
def DoTock (env : Env) (r : Run) : Run :=
  phase env (r.timer.tickers_.map (fun kv => Event.Tock r.timer.time_ kv.2)) r

/-- `Timer::DoDecom`: `decom_list` is a copy of `decom_queue_[time_]`, taken (and the
entry created when absent) before the first agent is decommissioned. -/
def DoDecom (env : Env) (r : Run) : Run :=
  let t := r.timer.time_
  let decom_list := r.timer.decom_queue_.get t []
  let r1 : Run := { r with timer := { r.timer with decom_queue_ := r.timer.decom_queue_.touch t [] } }
  phase env (decom_list.flatMap (decomEvents env t)) r1

/-- The snapshot at the head of the loop body: taken, and the flag cleared, when the
flag is set. -/
def DoSnapshot (env : Env) (r : Run) : Run :=
  if r.timer.want_snapshot_ then
    callback env (.Snapshot r.timer.time_)
      { r with timer := { r.timer with want_snapshot_ := false } }
  else r

/-- The body of the loop of `Timer::RunSim`, up to and including `time_++`. -/
def RunIter (env : Env) (r : Run) : Run :=
  let r := DoDecom env (DoTock env (DoResEx env (DoTick env (DoBuild env (DoSnapshot env r)))))
  { r with timer := { r.timer with time_ := r.timer.time_ + 1 } }

/-- The loop of `Timer::RunSim`, with a bound on the number of iterations; `none`
when the bound is reached with the loop condition still true. -/
def RunLoop (env : Env) : Nat → Run → Option Run
  | 0, r => if r.timer.time_ < r.timer.si_.duration then none else some r
  | n + 1, r =>
    if r.timer.time_ < r.timer.si_.duration then
      let r1 := RunIter env r
      if r1.timer.want_kill_ then some r1 else RunLoop env n r1
    else some r

/-- `Timer::RunSim`: the loop, the `Finish` row and the final snapshot. The loop runs
at most `duration - time_` times, which is the bound given to `RunLoop`. -/
def RunSim (env : Env) (s : Timer) : Option Run :=
  match RunLoop env (s.si_.duration - s.time_).toNat { timer := s, trace := [] } with
  | none => none
  | some r =>
    let r1 : Run := { r with trace := r.trace ++ [.Finish r.timer.want_kill_ (r.timer.time_ - 1)] }
    some (callback env (.Snapshot r1.timer.time_) r1)

/-! ## Capacity constraints (`src/capacity_constraint.h`) -/

/-- A trader is known by its address (`Trader*`). -/
abbrev Trader := Nat

/-- Modelled from the spec: a resource (declared in a header that is not part of the
sources), the payload with a `quantity()`. -/
structure Resource where
  quantity : ℚ
  deriving DecidableEq, Repr

/-- Modelled from the spec: a request (`request.h` is not part of the sources): the
target resource, the requester (a pointer, `none` when null), the owning
portfolio, the commodity, the preference and the exclusive flag. `addr` is the
address of the object: `Request<T>::Ptr` values are compared, and ordered as
keys of a map, by address. -/
structure Request where
  addr : Nat
  target : Resource
  requester : Option Trader
  portfolio : Nat
  commodity : String
  preference : ℚ
  exclusive : Bool
  deriving DecidableEq, Repr

/-- The value of a `double` expression: a finite number, or a result that is not one
(an infinity or NaN, as a division by zero gives). -/
inductive Double
  | finite (q : ℚ)
  | nonfinite
  deriving DecidableEq, Repr

/-- The quotient of two finite doubles. -/
def Double.div (a b : ℚ) : Double :=
  if b = 0 then .nonfinite else .finite (a / b)

/-- The two converters of the sources: `TrivialConverter`, and
`DefaultCoeffConverter` with its member `coeffs`, keyed by the address of the
request. -/
inductive Converter
  | Trivial
  | DefaultCoeff (coeffs : OMap Nat Double)
  deriving DecidableEq, Repr

/-- The virtual `operator==` of a converter, dispatched on the left operand.
`TrivialConverter` overrides it: true when the cast of `other` to
`TrivialConverter` succeeds. `DefaultCoeffConverter` does not override it (the
override in its body is commented out), so the call reaches
`Converter::operator==`, which returns false. -/
def Converter.eq : Converter → Converter → Bool
  | .Trivial, other =>
    match other with
    | .Trivial => true
    | _ => false
  | .DefaultCoeff _, _ => false

/-- `Converter::operator!=`. -/
def Converter.ne (a other : Converter) : Bool := !(a.eq other)

/-- Modelled from the spec: the category tag of a constraint (`cap_t` of
`capacity_types.h`, which is not part of the sources). The sources name one
value, `NONE`. -/
abbrev cap_t := Nat

/-- Modelled from the spec: the category `NONE` every constructor assigns. -/
def NONE : cap_t := 0

/-- The data members of `CapacityConstraint`. -/
structure CapacityConstraint where
  capacity_ : ℚ
  cap_type_ : cap_t
  converter_ : Converter
  id_ : Int
  deriving DecidableEq, Repr

namespace CapacityConstraint

/-- `CapacityConstraint(double capacity, Converter::Ptr converter)`, given the value
of the static counter `next_id_`: the constraint and the counter after it.
`none` when the assertion `capacity_ > 0` fails. -/
def withConverter (capacity : ℚ) (converter : Converter) (next_id_ : Int) :
    Option (CapacityConstraint × Int) :=
  if capacity > 0 then
    some ({ capacity_ := capacity, cap_type_ := NONE, converter_ := converter, id_ := next_id_ },
      next_id_ + 1)
  else none

/-- `CapacityConstraint(double capacity)`: the converter is a new `TrivialConverter`. -/
def ofCapacity (capacity : ℚ) (next_id_ : Int) : Option (CapacityConstraint × Int) :=
  if capacity > 0 then
    some ({ capacity_ := capacity, cap_type_ := NONE, converter_ := .Trivial, id_ := next_id_ },
      next_id_ + 1)
  else none

/-- The copy constructor: capacity, converter and category of `other`, and a new id. -/
def copy (other : CapacityConstraint) (next_id_ : Int) : Option (CapacityConstraint × Int) :=
  if other.capacity_ > 0 then
    some ({ capacity_ := other.capacity_, cap_type_ := other.cap_type_,
            converter_ := other.converter_, id_ := next_id_ }, next_id_ + 1)
  else none

/-- `operator==` of two constraints. -/
def eq (lhs rhs : CapacityConstraint) : Bool :=
  decide (lhs.capacity_ = rhs.capacity_) && lhs.converter_.eq rhs.converter_ &&
    decide (lhs.cap_type_ = rhs.cap_type_)

/-- `operator<` of two constraints: by id. -/
def lt (lhs rhs : CapacityConstraint) : Bool := decide (lhs.id_ < rhs.id_)

end CapacityConstraint

/-- `std::set<CapacityConstraint>::insert(c)`, the set being the list of its elements
in order. The set compares with `operator<`: the place of `c` is before the
first element that is not less than `c`; when `c` is not less than that element
either, the two are equivalent, and nothing is inserted; otherwise a copy of `c`
is made (by the copy constructor) and stored there. `none` when the copy
constructor fails its assertion. -/
def setInsert (c : CapacityConstraint) :
    List CapacityConstraint → Int → Option (List CapacityConstraint × Int)
  | [], next_id_ => (c.copy next_id_).map (fun cn => ([cn.1], cn.2))
  | e :: rest, next_id_ =>
    if e.lt c then (setInsert c rest next_id_).map (fun sn => (e :: sn.1, sn.2))
    else if c.lt e then (c.copy next_id_).map (fun cn => (cn.1 :: e :: rest, cn.2))
    else some (e :: rest, next_id_)

/-! ## Request portfolios (`src/request_portfolio.h`) -/

/-- The conversion of a `double` to `int`: the fractional part is discarded. -/
def truncate (q : ℚ) : Int := Int.tdiv q.num q.den

/-- `Sum<T>(int total, r)`: `total += r->target()->quantity()` on an `int`, which adds
as doubles and converts the sum back to `int`; the result is returned as a
double. -/
def Sum (total : Int) (r : Request) : ℚ :=
  ((truncate ((total : ℚ) + r.target.quantity) : Int) : ℚ)

/-- `std::accumulate(rs.begin(), rs.end(), 0, Sum<T>)`: the initial value `0` is an
`int`, so the accumulator is an `int`, and each result of `Sum` is converted to
it. The sums are taken to stay in the range of `int`. -/
def accumulate (rs : List Request) : Int :=
  rs.foldl (fun acc r => truncate (Sum acc r)) 0

/-- The data members of `RequestPortfolio`; `self` is the address of the portfolio,
which `shared_from_this()` returns. -/
structure RequestPortfolio where
  self : Nat
  requests_ : List Request
  default_constr_coeffs_ : OMap Nat Double
  constraints_ : List CapacityConstraint
  qty_ : ℚ
  requester_ : Option Trader
  deriving DecidableEq, Repr

namespace RequestPortfolio

/-- The default constructor: no requester, quantity `-1`. -/
def new (self : Nat) : RequestPortfolio :=
  { self := self, requests_ := [], default_constr_coeffs_ := [], constraints_ := [],
    qty_ := -1, requester_ := none }

/-- `requester()`. -/
def requester (p : RequestPortfolio) : Option Trader := p.requester_

/-- `qty()`. -/
def qty (p : RequestPortfolio) : ℚ := p.qty_

/-- `requests()`. -/
def requests (p : RequestPortfolio) : List Request := p.requests_

/-- `constraints()`. -/
def constraints (p : RequestPortfolio) : List CapacityConstraint := p.constraints_

/-- `VerifyRequester_`: the portfolio after the call, or the error thrown. -/
def VerifyRequester_ (p : RequestPortfolio) (r : Request) : Except Error RequestPortfolio :=
  if p.requester_ = none then .ok { p with requester_ := r.requester }
  else if p.requester_ ≠ r.requester then .error .KeyError
  else .ok p

/-- `VerifyQty_`: the portfolio after the call, or the error thrown. -/
def VerifyQty_ (p : RequestPortfolio) (r : Request) : Except Error RequestPortfolio :=
  let qty := r.target.quantity
  if p.qty_ = -1 then .ok { p with qty_ := qty }
  else if p.qty_ ≠ qty then .error .KeyError
  else .ok p

/-- `AddRequest`: the request returned or the error thrown, and the portfolio after
the call. `addr` is the address of the request that `Request<T>::Create`
allocates. -/
def AddRequest (p : RequestPortfolio) (addr : Nat) (target : Resource)
    (requester : Option Trader) (commodity : String) (preference : ℚ) (exclusive : Bool) :
    Except Error Request × RequestPortfolio :=
  let r : Request :=
    { addr := addr, target := target, requester := requester, portfolio := p.self,
      commodity := commodity, preference := preference, exclusive := exclusive }
  match p.VerifyRequester_ r with
  | .error e => (.error e, p)
  | .ok p1 =>
    match p1.VerifyQty_ r with
    | .error e => (.error e, p1)
    | .ok p2 =>
      (.ok r, { p2 with
        requests_ := p2.requests_ ++ [r],
        default_constr_coeffs_ := p2.default_constr_coeffs_.alter r.addr (fun _ => .finite 1) })

/-- The normalisation constant of `AddMutualReqs`: the accumulated `int` is divided by
`rs.size()`, an unsigned 64-bit integer, so the `int` is converted to that type
and the division is the integer division; the quotient is then a double. `none`
when `rs` is empty: the division is by zero. -/
def normConst (rs : List Request) : Option ℚ :=
  if rs.length = 0 then none
  else some ((((accumulate rs % 2 ^ 64).toNat / rs.length : Nat) : ℚ))

/-- `AddMutualReqs`: the coefficient of each request of `rs`, in turn, becomes its
quantity divided by the normalisation constant. -/
def AddMutualReqs (p : RequestPortfolio) (rs : List Request) : Option RequestPortfolio :=
  (normConst rs).map (fun norm_const =>
    rs.foldl (fun p r => { p with
      default_constr_coeffs_ :=
        p.default_constr_coeffs_.alter r.addr (fun _ => Double.div r.target.quantity norm_const) })
      p)

/-- `AddConstraint`, given the static counter of constraint ids: the portfolio and the
counter after the call. -/
def AddConstraint (p : RequestPortfolio) (c : CapacityConstraint) (next_id_ : Int) :
    Option (RequestPortfolio × Int) :=
  (setInsert c p.constraints_ next_id_).map (fun sn => ({ p with constraints_ := sn.1 }, sn.2))

/-- `AddDefaultConstraint`, given the static counter of constraint ids: the constraint
is built from `qty_` and a converter holding a copy of the coefficients, and
inserted. -/
def AddDefaultConstraint (p : RequestPortfolio) (next_id_ : Int) :
    Option (RequestPortfolio × Int) :=
  match CapacityConstraint.withConverter p.qty_ (.DefaultCoeff p.default_constr_coeffs_)
      next_id_ with
  | none => none
  | some (c, n) => (setInsert c p.constraints_ n).map
      (fun sn => ({ p with constraints_ := sn.1 }, sn.2))

/-- The portfolios that calls of `AddRequest`, successful or not, lead to from a new
portfolio, when every requester is not null and every target quantity is
positive. -/
inductive Reachable : RequestPortfolio → Prop
  | new (self : Nat) : Reachable (RequestPortfolio.new self)
  | add (p : RequestPortfolio) (hp : Reachable p) (addr : Nat) (target : Resource)
      (requester : Trader) (commodity : String) (preference : ℚ) (exclusive : Bool)
      (hq : 0 < target.quantity) :
      Reachable (p.AddRequest addr target (some requester) commodity preference exclusive).2

end RequestPortfolio

/-- The invariant of a portfolio: its requests carry its requester and its quantity;
without requests it is as constructed; with requests its requester is not null
and its quantity is positive. -/
def RequestPortfolio.Inv (p : RequestPortfolio) : Prop :=
  (∀ r ∈ p.requests_, r.requester = p.requester_ ∧ r.target.quantity = p.qty_) ∧
  (p.requests_ = [] → p.requester_ = none ∧ p.qty_ = -1) ∧
  (p.requests_ ≠ [] → p.requester_ ≠ none ∧ 0 < p.qty_)

/-- The arithmetic mean of the target quantities of `rs`. -/
def meanQuantity (rs : List Request) : ℚ :=
  (rs.map (fun r => r.target.quantity)).sum / rs.length

/-! ## The exchange context (`src/exchange_context.h`)

The context holds pointers to requests, bids and portfolios; here it holds the
objects themselves, each with its address, and the maps and sets keyed by a
pointer are keyed by the address. The logging statements are left out. -/

/-- Modelled from the spec: a bid (`bid.h` is not part of the sources): the offered
resource, the bidder (a pointer, `none` when null), the request it answers, the
owning portfolio and the exclusive flag. `addr` is the address of the object. -/
structure Bid where
  addr : Nat
  offer : Resource
  bidder : Option Trader
  request : Request
  portfolio : Nat
  exclusive : Bool
  deriving DecidableEq, Repr

/-- Modelled from the spec: a bid portfolio (`bid_portfolio.h` is not part of the
sources), of which the context reads `bids()`, a `std::set` of pointers to bids:
the bids in the order of the set, by ascending address. `self` is the address of
the portfolio. -/
structure BidPortfolio where
  self : Nat
  bids_ : List Bid
  deriving DecidableEq, Repr

/-- `bids()`. -/
def BidPortfolio.bids (p : BidPortfolio) : List Bid := p.bids_

/-- `std::set<Trader*>::insert`, the set being the ascending list of its elements:
an element already there is not inserted again. -/
def ptrSetInsert (a : Nat) : List Nat → List Nat
  | [] => [a]
  | b :: rest =>
    if b < a then b :: ptrSetInsert a rest
    else if b = a then b :: rest
    else a :: b :: rest

/-- The value of a `Trader*` as a key of a map: 0 for the null pointer, and `t + 1`
for the trader at address `t`, so that the keys are ordered as the pointers
are. -/
def ptrKey : Option Trader → Nat
  | none => 0
  | some t => t + 1

/-- The entry `m[a][b][c]` of a map of maps of maps, when there is one. -/
def prefLookup (m : OMap Nat (OMap Nat (OMap Nat ℚ))) (a b c : Nat) : Option ℚ :=
  ((m.find? a).bind (fun m1 => m1.find? b)).bind (fun m2 => m2.find? c)

/-- A map of maps of maps is one at every level: everywhere the keys ascend. -/
def PrefsWF (m : OMap Nat (OMap Nat (OMap Nat ℚ))) : Prop :=
  m.WF ∧ ∀ e ∈ m, e.2.WF ∧ ∀ e' ∈ e.2, e'.2.WF

/-- The data members of `ExchangeContext`. In `trader_prefs` the preference of a
requester for a bid on one of its requests stands under the requester, the
address of the request and the address of the bid. -/
structure ExchangeContext where
  requests : List RequestPortfolio
  bids : List BidPortfolio
  requesters : List Trader
  bidders : List Trader
  commod_requests : OMap String (List Request)
  bids_by_request : OMap Nat (List Bid)
  trader_prefs : OMap Nat (OMap Nat (OMap Nat ℚ))
  deriving DecidableEq, Repr

namespace ExchangeContext

/-- `ExchangeContext::AddRequest`; `none` when the assertion that the requester is
not null fails. -/
def AddRequest (ctx : ExchangeContext) (pr : Request) : Option ExchangeContext :=
  match pr.requester with
  | none => none
  | some t =>
    some { ctx with
      requesters := ptrSetInsert t ctx.requesters,
      commod_requests := ctx.commod_requests.alter pr.commodity (fun o => o.getD [] ++ [pr]) }

/-- `ExchangeContext::AddRequestPortfolio`: the portfolio is appended, then its
requests are added in their order. -/
def AddRequestPortfolio (ctx : ExchangeContext) (port : RequestPortfolio) :
    Option ExchangeContext :=
  port.requests.foldlM AddRequest { ctx with requests := ctx.requests ++ [port] }

/-- `ExchangeContext::AddBid`; `none` when the assertion that the bidder is not null
fails. The preference is entered with `std::map::insert`, which leaves an entry
that is already there as it is. -/
def AddBid (ctx : ExchangeContext) (pb : Bid) : Option ExchangeContext :=
  match pb.bidder with
  | none => none
  | some t =>
    let req := pb.request
    some { ctx with
      bidders := ptrSetInsert t ctx.bidders,
      bids_by_request := ctx.bids_by_request.alter req.addr (fun o => o.getD [] ++ [pb]),
      trader_prefs := ctx.trader_prefs.alter (ptrKey req.requester) (fun byRequest =>
        (byRequest.getD []).alter req.addr (fun byBid =>
          (byBid.getD []).touch pb.addr req.preference)) }

/-- `ExchangeContext::AddBidPortfolio`: the portfolio is appended, then its bids are
added in the order of its set. -/
def AddBidPortfolio (ctx : ExchangeContext) (port : BidPortfolio) : Option ExchangeContext :=
  port.bids.foldlM AddBid { ctx with bids := ctx.bids ++ [port] }

/-- The entry `trader_prefs[requester][request][bid]`, when there is one. -/
def pref (ctx : ExchangeContext) (requester : Option Trader) (request bid : Nat) : Option ℚ :=
  prefLookup ctx.trader_prefs (ptrKey requester) request bid

/-- The maps of a context are maps: in each, at every level, the keys ascend. -/
def WF (ctx : ExchangeContext) : Prop :=
  ctx.commod_requests.WF ∧ ctx.bids_by_request.WF ∧ PrefsWF ctx.trader_prefs

end ExchangeContext

/-! ### Vocabulary of the properties of the scheduler -/

/-- How often agent `m` stands in the decommission queue, over all its entries. -/
def occurrences (m : Agent) (q : OMap Int (List Agent)) : Nat :=
  (q.map (fun e => e.2.count m)).sum

/-- The maps of a timer are maps: in each the keys ascend. -/
def Timer.WF (s : Timer) : Prop :=
  s.tickers_.WF ∧ s.build_queue_.WF ∧ s.decom_queue_.WF

/-- The tick an event belongs to: its stamp, and for the `Finish` row the last tick
run (`EndTime`). -/
def Event.time : Event → Int
  | .Snapshot t => t
  | .Build t _ _ => t
  | .BuildNotify t _ _ => t
  | .Tick t _ => t
  | .ExecMaterial t => t
  | .ExecProduct t => t
  | .Tock t _ => t
  | .DecomNotify t _ _ => t
  | .Decommission t _ => t
  | .Finish _ t => t

/-- The phase of an event within its tick. -/
def Event.rank : Event → Nat
  | .Snapshot _ => 0
  | .Build _ _ _ => 1
  | .BuildNotify _ _ _ => 1
  | .Tick _ _ => 2
  | .ExecMaterial _ => 3
  | .ExecProduct _ => 4
  | .Tock _ _ => 5
  | .DecomNotify _ _ _ => 6
  | .Decommission _ _ => 6
  | .Finish _ _ => 7

/-- The order of the schedule: an earlier tick, or the same tick and no later phase. -/
def Event.before (a b : Event) : Prop :=
  a.time < b.time ∨ (a.time = b.time ∧ a.rank ≤ b.rank)

/-- The ticks run, in order: each iteration of the loop of `RunSim` runs the
material exchange once. -/
def ticksRun (trace : List Event) : List Int :=
  trace.filterMap (fun e => match e with
    | .ExecMaterial t => some t
    | _ => none)

/-- The `Finish` rows recorded. -/
def finishRows (trace : List Event) : List (Bool × Int) :=
  trace.filterMap (fun e => match e with
    | .Finish early t => some (early, t)
    | _ => none)

/-- What one phase contributes: events of the current tick and of one rank, with the
clock untouched. -/
def PhaseStep (n : Nat) (r r' : Run) : Prop :=
  r'.timer.time_ = r.timer.time_ ∧ r'.timer.si_ = r.timer.si_ ∧
  ∃ es : List Event, r'.trace = r.trace ++ es ∧
    ∀ e ∈ es, e.time = r.timer.time_ ∧ e.rank = n

/-- The events so far are in schedule order and none is later than phase `n` of
tick `t`. -/
def Upto (t : Int) (n : Nat) (l : List Event) : Prop :=
  l.Pairwise Event.before ∧ ∀ e ∈ l, e.time < t ∨ (e.time = t ∧ e.rank ≤ n)

/-- Scenario: time 2, agent 8 queued for decommission at 5, a build queued at 4. -/
def scenarioTimer : Timer :=
  { time_ := 2, si_ := ⟨10, 1, -1⟩, want_snapshot_ := false, want_kill_ := false,
    tickers_ := [(1, ⟨100, 1⟩)], build_queue_ := [(4, [("reactor", none)])],
    decom_queue_ := [(5, [8])] }

/-- Scenario: agent 8 has parent 1, no callee calls back. -/
def quietEnv : Env := { parent := fun a => if a = 8 then some 1 else none, react := fun _ _ => [] }

/-- Scenario: two requests of quantity 10 by trader 7, then a request by trader 9,
which is refused. -/
def fuelPortfolio : RequestPortfolio :=
  ((((RequestPortfolio.new 0).AddRequest 1 ⟨10⟩ (some 7) "fuelA" 0 false).2.AddRequest
    2 ⟨10⟩ (some 7) "fuelB" 0 false).2.AddRequest 3 ⟨10⟩ (some 9) "fuelB" 0 false).2

/-- Scenario: two requests of quantity 3/2 by trader 7. -/
def halfPortfolio : RequestPortfolio :=
  (((RequestPortfolio.new 0).AddRequest 1 ⟨3 / 2⟩ (some 7) "fuelA" 0 false).2.AddRequest
    2 ⟨3 / 2⟩ (some 7) "fuelB" 0 false).2

/-- Scenario: the constraint built by `CapacityConstraint(5)` when the counter of ids
stands at 0. -/
def fiveCap : CapacityConstraint :=
  { capacity_ := 5, cap_type_ := NONE, converter_ := .Trivial, id_ := 0 }

/-- Scenario: the material exchange of tick 3 asks for the end of the simulation. -/
def killEnv : Env :=
  { parent := fun _ => none,
    react := fun e _ => if e = .ExecMaterial 3 then [.KillSim] else [] }

/-! ## Converters at work (`convert`) -/

/-- The product of a finite double and a double. -/
def Double.mul (a : ℚ) : Double → Double
  | .finite c => .finite (a * c)
  | .nonfinite => .nonfinite

/-- Modelled from the spec: an arc of the exchange graph (`exchange_graph.h` is not
part of the sources), the pair of its request node `unode` and its supply node
`vnode`, each node known by its address. -/
structure Arc where
  unode : Nat
  vnode : Nat
  deriving DecidableEq, Repr

/-- Modelled from the spec: the translation context
(`exchange_translation_context.h` is not part of the sources), of which the
converters read the table `node_to_request`, from the address of a node to the
request it stands for. -/
structure ExchangeTranslationContext where
  node_to_request : OMap Nat Request
  deriving DecidableEq, Repr

/-- The exceptions of the standard library: `std::out_of_range`, which `std::map::at`
throws for a key that is absent. -/
inductive StdException
  | out_of_range
  deriving DecidableEq, Repr

/-- `std::map::at`: the value under the key, or `std::out_of_range`. -/
def OMap.at {κ ν : Type} [DecidableEq κ] (m : OMap κ ν) (k : κ) : Except StdException ν :=
  match OMap.find? m k with
  | some v => .ok v
  | none => .error .out_of_range

/-- The virtual `convert` of a converter. The arc and the context are pointers, null
by default. `TrivialConverter::convert` returns `offer->quantity()` and reads
neither. `DefaultCoeffConverter::convert` returns
`offer->quantity() * coeffs.at(ctx->node_to_request.at(a->unode()))`; it reads
through both pointers, and the result is `none` (no defined behaviour) when one
of them is null. -/
def Converter.convert : Converter → Resource → Option Arc → Option ExchangeTranslationContext →
    Option (Except StdException Double)
  | .Trivial, offer, _, _ => some (.ok (.finite offer.quantity))
  | .DefaultCoeff coeffs, offer, some a, some ctx =>
    some (match ctx.node_to_request.at a.unode with
      | .error e => .error e
      | .ok r =>
        match coeffs.at r.addr with
        | .error e => .error e
        | .ok c => .ok (Double.mul offer.quantity c))
  | .DefaultCoeff _, _, _, _ => none

/-- `CapacityConstraint::convert`: the call is passed on to the converter. -/
def CapacityConstraint.convert (c : CapacityConstraint) (offer : Resource) (a : Option Arc)
    (ctx : Option ExchangeTranslationContext) : Option (Except StdException Double) :=
  c.converter_.convert offer a ctx

/-! ## Sequences of constructions of constraints -/

/-- One construction of a `CapacityConstraint`: by the constructor with a converter,
by the constructor with a capacity only, or by the copy constructor from the
constraint constructed as number `i` (counted from 0). -/
inductive Construction
  | withConverter (capacity : ℚ) (converter : Converter)
  | ofCapacity (capacity : ℚ)
  | copy (i : Nat)
  deriving DecidableEq, Repr

/-- The constructions run in order, from the constraints constructed so far and the
static counter `next_id_`: the constraints constructed, in order of
construction, and the counter. `none` when an assertion fails or a copy names a
constraint that does not exist. -/
def construct : List Construction → List CapacityConstraint × Int →
    Option (List CapacityConstraint × Int)
  | [], st => some st
  | k :: rest, (cs, next_id_) =>
    let made :=
      match k with
      | .withConverter capacity converter =>
        CapacityConstraint.withConverter capacity converter next_id_
      | .ofCapacity capacity => CapacityConstraint.ofCapacity capacity next_id_
      | .copy i =>
        match cs.get? i with
        | some other => other.copy next_id_
        | none => none
    match made with
    | some (c, n) => construct rest (cs ++ [c], n)
    | none => none

/-- Scenario: node 50 stands for a request at address 1. -/
def oneNodeContext : ExchangeTranslationContext :=
  { node_to_request := [(50, ⟨1, ⟨10⟩, some 7, 0, "fuelA", 0, false⟩)] }

/-- Scenario: a context in which nothing was entered. -/
def emptyContext : ExchangeContext :=
  { requests := [], bids := [], requesters := [], bidders := [], commod_requests := [],
    bids_by_request := [], trader_prefs := [] }

/-- Scenario: trader 8 offers 20 on the request at address 1, which trader 7 made with
preference 2. -/
def bid30 : Bid :=
  { addr := 30, offer := ⟨20⟩, bidder := some 8,
    request := ⟨1, ⟨10⟩, some 7, 0, "fuelA", 2, false⟩, portfolio := 90, exclusive := false }

/-- Scenario: the portfolio of the one bid of trader 8. -/
def bidPortfolio90 : BidPortfolio := { self := 90, bids_ := [bid30] }

/-- Scenario: the context after that portfolio was added and trader 7 changed its
preference for the bid from 2 to 5. -/
def adjustedContext : ExchangeContext :=
  { requests := [], bids := [bidPortfolio90], requesters := [], bidders := [8],
    commod_requests := [], bids_by_request := [(1, [bid30])],
    trader_prefs := [(8, [(1, [(30, 5)])])] }

/-- Scenario: at time 2, agents 3 and 8 are queued for decommission at 5 and agent 9
at 7. -/
def busyTimer : Timer :=
  { scenarioTimer with decom_queue_ := [(5, [3, 8]), (7, [9])] }

/-- Scenario: two requests of quantity 1/2 by trader 7. -/
def crumbPortfolio : RequestPortfolio :=
  (((RequestPortfolio.new 0).AddRequest 1 ⟨1 / 2⟩ (some 7) "fuelA" 0 false).2.AddRequest
    2 ⟨1 / 2⟩ (some 7) "fuelB" 0 false).2

/-! ## The exchange graph

`exchange_graph.h` is not part of the sources; only its tests are. -/

/-- Modelled from the spec: the exchange graph (`ExchangeGraph` of `exchange_graph.h`,
which is not part of the sources), of which the list of arcs and the index
`node_arc_map`, from the address of a node to the arcs at that node, are
modelled. -/
structure ExchangeGraph where
  arcs_ : List Arc
  node_arc_map_ : OMap Nat (List Arc)
  deriving DecidableEq, Repr

namespace ExchangeGraph

/-- Modelled from the spec: a graph as constructed (`ExchangeGraph g;` in the tests),
without arcs. -/
def new : ExchangeGraph := { arcs_ := [], node_arc_map_ := [] }

/-- Modelled from the spec: `node_arc_map()`. -/
def node_arc_map (g : ExchangeGraph) : OMap Nat (List Arc) := g.node_arc_map_

/-- Modelled from the spec: `ExchangeGraph::AddArc`, "push onto arc list; extend
`node_arc_map[a.unode]` and `node_arc_map[a.vnode]` with `a`". -/
def AddArc (g : ExchangeGraph) (a : Arc) : ExchangeGraph :=
  { arcs_ := g.arcs_ ++ [a],
    node_arc_map_ :=
      (g.node_arc_map_.alter a.unode (fun o => o.getD [] ++ [a])).alter a.vnode
        (fun o => o.getD [] ++ [a]) }

end ExchangeGraph

/-- Scenario of the test `AddArc2`: the nodes `u`, `v`, `w`, `x` at the addresses 10, 20,
30, 40, and the arcs `(u, v)`, `(u, w)`, `(x, w)`. -/
def testArcs : List Arc := [⟨10, 20⟩, ⟨10, 30⟩, ⟨40, 30⟩]

/-- Scenario: as `scenarioTimer`, with agent 8 queued for decommission at 3. -/
def killTimer : Timer := { scenarioTimer with decom_queue_ := [(3, [8])] }

/-! # Properties -/

/-! ## Ordered maps: lookup after an update -/

namespace OMap

variable {κ ν : Type}

theorem find?_alter_ne [LinearOrder κ] (k k' : κ) (f : Option ν → ν) (m : OMap κ ν)
    (h : k' ≠ k) : find? (alter k f m) k' = find? m k' := by
  induction m with
  | nil => simp [alter, find?, Ne.symm h]
  | cons e rest ih =>
    obtain ⟨k0, v⟩ := e
    simp only [alter]
    split_ifs with h1 h2
    · simp [find?, ih]
    · subst h2
      simp [find?, Ne.symm h]
    · simp [find?, Ne.symm h]

theorem find?_alter_self_some [LinearOrder κ] (k : κ) (f : Option ν → ν) (m : OMap κ ν) :
    ∃ o, find? (alter k f m) k = some (f o) := by
  induction m with
  | nil => exact ⟨none, by simp [alter, find?]⟩
  | cons e rest ih =>
    obtain ⟨k0, v⟩ := e
    simp only [alter]
    split_ifs with h1 h2
    · obtain ⟨o, ho⟩ := ih
      exact ⟨o, by simp [find?, ne_of_lt h1, ho]⟩
    · exact ⟨some v, by simp [find?]⟩
    · exact ⟨none, by simp [find?]⟩

theorem find?_eq_none_of_lt [LinearOrder κ] (k : κ) (m : OMap κ ν)
    (h : ∀ e ∈ m, k < e.1) : find? m k = none := by
  induction m with
  | nil => rfl
  | cons e rest ih =>
    obtain ⟨k0, v⟩ := e
    have h0 : k < k0 := h (k0, v) (List.mem_cons_self _ _)
    simp only [find?, ne_of_gt h0, if_false]
    exact ih (fun e he => h e (List.mem_cons_of_mem _ he))

theorem find?_alter_self [LinearOrder κ] (k : κ) (f : Option ν → ν) (m : OMap κ ν)
    (hm : m.WF) : find? (alter k f m) k = some (f (find? m k)) := by
  induction m with
  | nil => simp [alter, find?]
  | cons e rest ih =>
    obtain ⟨k0, v⟩ := e
    have hrest : WF rest := by
      unfold WF at hm ⊢
      simp only [List.map_cons, List.sorted_cons] at hm
      exact hm.2
    have hlt : ∀ e ∈ rest, k0 < e.1 := by
      unfold WF at hm
      simp only [List.map_cons, List.sorted_cons] at hm
      intro e he
      exact hm.1 e.1 (List.mem_map_of_mem Prod.fst he)
    simp only [alter]
    split_ifs with h1 h2
    · simp [find?, ne_of_lt h1, ih hrest]
    · subst h2
      simp [find?]
    · have hk : k < k0 := lt_of_le_of_ne (not_lt.mp h1) (Ne.symm h2)
      have : find? rest k = none :=
        find?_eq_none_of_lt k rest (fun e he => lt_trans hk (hlt e he))
      simp [find?, h2, this]

theorem key_of_mem_alter [LinearOrder κ] (k : κ) (f : Option ν → ν) (m : OMap κ ν)
    (e : κ × ν) (he : e ∈ alter k f m) : e.1 = k ∨ e.1 ∈ m.map Prod.fst := by
  induction m with
  | nil =>
    simp only [alter, List.mem_singleton] at he
    exact Or.inl (by rw [he])
  | cons e0 rest ih =>
    obtain ⟨k0, v⟩ := e0
    simp only [alter] at he
    split_ifs at he with h1 h2
    · rcases List.mem_cons.mp he with rfl | he
      · exact Or.inr (by simp)
      · rcases ih he with h | h
        · exact Or.inl h
        · exact Or.inr (List.mem_cons_of_mem _ h)
    · rcases List.mem_cons.mp he with rfl | he
      · exact Or.inl rfl
      · exact Or.inr (List.mem_cons_of_mem _ (List.mem_map_of_mem Prod.fst he))
    · rcases List.mem_cons.mp he with rfl | he
      · exact Or.inl rfl
      · exact Or.inr (List.mem_map_of_mem Prod.fst he)

theorem alter_WF [LinearOrder κ] (k : κ) (f : Option ν → ν) (m : OMap κ ν) (hm : m.WF) :
    (alter k f m).WF := by
  induction m with
  | nil => simp [alter, WF]
  | cons e rest ih =>
    obtain ⟨k0, v⟩ := e
    unfold WF at hm ih ⊢
    simp only [List.map_cons, List.sorted_cons] at hm
    simp only [alter]
    split_ifs with h1 h2
    · simp only [List.map_cons, List.sorted_cons]
      refine ⟨?_, ih hm.2⟩
      intro b hb
      obtain ⟨e, he, rfl⟩ := List.mem_map.mp hb
      rcases key_of_mem_alter k f rest e he with h | h
      · rw [h]; exact h1
      · exact hm.1 e.1 h
    · subst h2
      simpa [List.sorted_cons] using hm
    · have hk : k < k0 := lt_of_le_of_ne (not_lt.mp h1) (Ne.symm h2)
      simp only [List.map_cons, List.sorted_cons]
      refine ⟨?_, hm⟩
      intro b hb
      rcases List.mem_cons.mp hb with rfl | hb
      · exact hk
      · exact lt_trans hk (hm.1 b hb)

end OMap
/-! ## The decommission and build queues -/

namespace Timer

theorem findAgent_eq_none (m : Agent) (ags : List Agent) :
    findAgent m ags = none ↔ m ∉ ags := by
  induction ags with
  | nil => simp [findAgent]
  | cons a rest ih =>
    simp only [findAgent]
    split_ifs with h
    · simp [h]
    · simp [ih, Ne.symm h]

theorem count_eraseIdx_findAgent (m : Agent) (ags : List Agent) (i : Nat)
    (h : findAgent m ags = some i) : (ags.eraseIdx i).count m = ags.count m - 1 := by
  induction ags generalizing i with
  | nil => simp [findAgent] at h
  | cons a rest ih =>
    simp only [findAgent] at h
    split_ifs at h with ha
    · cases h
      simp [ha]
    · cases hr : findAgent m rest with
      | none => simp [hr] at h
      | some j =>
        simp only [hr, Option.map_some', Option.some.injEq] at h
        subst h
        simp [List.eraseIdx, List.count_cons, ha, ih j hr]

theorem occurrences_unschedule (m : Agent) (q : OMap Int (List Agent)) :
    occurrences m (unschedule m q) = occurrences m q - 1 := by
  induction q with
  | nil => rfl
  | cons e rest ih =>
    obtain ⟨k, ags⟩ := e
    simp only [unschedule]
    cases hf : findAgent m ags with
    | none =>
      have h0 : ags.count m = 0 := List.count_eq_zero.mpr ((findAgent_eq_none m ags).mp hf)
      simp only [occurrences, List.map_cons, List.sum_cons, h0, zero_add] at ih ⊢
      exact ih
    | some i =>
      have hc := count_eraseIdx_findAgent m ags i hf
      have hpos : 0 < ags.count m := by
        apply List.count_pos_iff.mpr
        by_contra hn
        rw [(findAgent_eq_none m ags).mpr hn] at hf
        cases hf
      simp only [occurrences, List.map_cons, List.sum_cons, hc]
      omega

end Timer

theorem occurrences_push (m a : Agent) (t : Int) (q : OMap Int (List Agent)) :
    occurrences m (OMap.alter t (fun o => o.getD [] ++ [a]) q)
      = occurrences m q + (if a = m then 1 else 0) := by
  induction q with
  | nil => simp [OMap.alter, occurrences, List.count_cons]
  | cons e rest ih =>
    obtain ⟨k, ags⟩ := e
    simp only [OMap.alter]
    by_cases ha : a = m <;> split_ifs with h1 h2 <;>
      simp only [occurrences, List.map_cons, List.sum_cons, Option.getD_some, Option.getD_none,
        List.count_append, List.count_cons, List.count_nil, List.nil_append, beq_iff_eq,
        ha, if_true, if_false] at ih ⊢ <;> omega

theorem count_get_le (m : Agent) (k : Int) (q : OMap Int (List Agent)) :
    (q.get k []).count m ≤ occurrences m q := by
  induction q with
  | nil => simp [OMap.get, OMap.find?]
  | cons e rest ih =>
    obtain ⟨k0, ags⟩ := e
    simp only [OMap.get, OMap.find?, occurrences, List.map_cons, List.sum_cons] at ih ⊢
    split_ifs with h
    · simp
    · omega

theorem count_get_add_le (m : Agent) (k k' : Int) (hk : k ≠ k') (q : OMap Int (List Agent)) :
    (q.get k []).count m + (q.get k' []).count m ≤ occurrences m q := by
  induction q with
  | nil => simp [OMap.get, OMap.find?]
  | cons e rest ih =>
    obtain ⟨k0, ags⟩ := e
    have h1 := count_get_le m k rest
    have h2 := count_get_le m k' rest
    simp only [OMap.get, OMap.find?, occurrences, List.map_cons, List.sum_cons] at ih h1 h2 ⊢
    split_ifs with ha hb hb
    · exact absurd (ha.symm.trans hb) hk
    · simp only [Option.getD_some]; omega
    · simp only [Option.getD_some]; omega
    · omega

theorem mem_get_push (m : Agent) (t : Int) (q : OMap Int (List Agent)) :
    m ∈ (OMap.alter t (fun o => o.getD [] ++ [m]) q).get t [] := by
  obtain ⟨o, ho⟩ := OMap.find?_alter_self_some t (fun o => o.getD [] ++ [m]) q
  simp [OMap.get, ho]

theorem phase_trace (env : Env) (es : List Event) (r : Run) :
    (phase env es r).trace = r.trace ++ es := by
  induction es generalizing r with
  | nil => simp [phase]
  | cons e rest ih =>
    have := ih (callback env e r)
    simp only [phase, List.foldl_cons] at this ⊢
    rw [this]
    simp [callback]

theorem count_decomEvents (env : Env) (t : Int) (m : Agent) (l : List Agent) :
    (l.flatMap (decomEvents env t)).count (Event.Decommission t m) = l.count m := by
  induction l with
  | nil => rfl
  | cons a rest ih =>
    simp only [List.flatMap_cons, List.count_append, ih, List.count_cons]
    unfold decomEvents
    cases env.parent a <;> by_cases h : a = m <;> simp [List.count_cons, h] <;> omega

theorem DoDecom_trace (env : Env) (r : Run) :
    (DoDecom env r).trace
      = r.trace ++ (r.timer.decom_queue_.get r.timer.time_ []).flatMap
          (decomEvents env r.timer.time_) := by
  simp [DoDecom, phase_trace]

/-- C1: an agent `m` that is in no entry of the decommission queue is scheduled at
`t1` and then at `t2`, both not before the current time. Both calls succeed, and
afterwards `m` occurs once in the whole queue, in the entry of `t2`. Hence
`DoDecom`, run at any later moment on a queue with these entries, decommissions
`m` once when the time is `t2` and not at all at any other time (`t1` when
`t1 ≠ t2` in particular). -/
theorem SchedDecom_twice_decommissions_once (s : Timer) (m : Agent) (t1 t2 : Int)
    (hm : ∀ e ∈ s.decom_queue_, m ∉ e.2) (h1 : s.time_ ≤ t1) (h2 : s.time_ ≤ t2) :
    (s.SchedDecom m t1).1 = .ok () ∧
    ((s.SchedDecom m t1).2.SchedDecom m t2).1 = .ok () ∧
    occurrences m ((s.SchedDecom m t1).2.SchedDecom m t2).2.decom_queue_ = 1 ∧
    ((((s.SchedDecom m t1).2.SchedDecom m t2).2.decom_queue_).get t2 []).count m = 1 ∧
    (∀ k, k ≠ t2 → m ∉ (((s.SchedDecom m t1).2.SchedDecom m t2).2.decom_queue_).get k []) ∧
    ∀ (env : Env) (s' : Timer),
      (∀ k, s'.decom_queue_.get k []
        = (((s.SchedDecom m t1).2.SchedDecom m t2).2.decom_queue_).get k []) →
      (DoDecom env ⟨s', []⟩).trace.count (.Decommission s'.time_ m)
        = if s'.time_ = t2 then 1 else 0 := by
  have e1 : s.SchedDecom m t1 = (.ok (), { s with
      decom_queue_ := (Timer.unschedule m s.decom_queue_).alter t1 (fun o => o.getD [] ++ [m]) }) := by
    simp [Timer.SchedDecom, not_lt.mpr h1]
  rw [e1]
  have e2 : ∀ q, Timer.SchedDecom { s with decom_queue_ := q } m t2 = (.ok (), { s with
      decom_queue_ := (Timer.unschedule m q).alter t2 (fun o => o.getD [] ++ [m]) }) := by
    intro q
    simp [Timer.SchedDecom, not_lt.mpr h2]
  rw [e2]
  simp only [true_and]
  have h0 : occurrences m s.decom_queue_ = 0 := by
    unfold occurrences
    apply List.sum_eq_zero
    intro x hx
    obtain ⟨e, he, rfl⟩ := List.mem_map.mp hx
    exact List.count_eq_zero.mpr (hm e he)
  set q2 := OMap.alter t2 (fun o => o.getD [] ++ [m])
    (Timer.unschedule m (OMap.alter t1 (fun o => o.getD [] ++ [m])
      (Timer.unschedule m s.decom_queue_))) with hq2
  have hocc : occurrences m q2 = 1 := by
    rw [hq2, occurrences_push, Timer.occurrences_unschedule, occurrences_push,
      Timer.occurrences_unschedule, h0]
    simp
  have hge : 1 ≤ (q2.get t2 []).count m :=
    List.count_pos_iff.mpr (mem_get_push m t2 _)
  have hle := count_get_le m t2 q2
  have hcnt : (q2.get t2 []).count m = 1 := by omega
  have hother : ∀ k, k ≠ t2 → m ∉ q2.get k [] := by
    intro k hk
    have := count_get_add_le m k t2 hk q2
    exact List.count_eq_zero.mp (by omega)
  refine ⟨hocc, hcnt, hother, ?_⟩
  intro env s' hs'
  rw [DoDecom_trace]
  simp only [List.nil_append, count_decomEvents, hs']
  split_ifs with ht
  · rw [ht]; exact hcnt
  · exact List.count_eq_zero.mpr (hother _ ht)


/-- Scenario of C1: agent 3 is scheduled at 5, then at 7; agent 8 stays queued at 5. -/
theorem SchedDecom_twice_decommissions_once_witness :
    (∀ e ∈ scenarioTimer.decom_queue_, 3 ∉ e.2) ∧ scenarioTimer.time_ ≤ 5 ∧
    scenarioTimer.time_ ≤ 7 ∧
    occurrences 3 ((scenarioTimer.SchedDecom 3 5).2.SchedDecom 3 7).2.decom_queue_ = 1 ∧
    ((((scenarioTimer.SchedDecom 3 5).2.SchedDecom 3 7).2.decom_queue_).get 7 []).count 3 = 1 ∧
    (DoDecom quietEnv ⟨{ ((scenarioTimer.SchedDecom 3 5).2.SchedDecom 3 7).2 with time_ := 5 }, []⟩
      ).trace.count (.Decommission 5 3) = 0 ∧
    (DoDecom quietEnv ⟨{ ((scenarioTimer.SchedDecom 3 5).2.SchedDecom 3 7).2 with time_ := 7 }, []⟩
      ).trace.count (.Decommission 7 3) = 1 := by
  have h := SchedDecom_twice_decommissions_once scenarioTimer 3 5 7 (by decide) (by decide)
    (by decide)
  refine ⟨by decide, by decide, by decide, h.2.2.1, h.2.2.2.1, ?_, ?_⟩
  · exact h.2.2.2.2.2 quietEnv
      { ((scenarioTimer.SchedDecom 3 5).2.SchedDecom 3 7).2 with time_ := 5 } (fun _ => rfl)
  · exact h.2.2.2.2.2 quietEnv
      { ((scenarioTimer.SchedDecom 3 5).2.SchedDecom 3 7).2 with time_ := 7 } (fun _ => rfl)

/-- C6: `SchedBuild(parent, proto, t)` throws `ValueError` exactly when `t` is not
after the current time (the current time itself is rejected). When it throws,
the timer is unchanged. Otherwise it returns normally, the entry of `t` in the
build queue is its former content (empty when there was none) followed by
`(proto, parent)`, every other entry is as before, and nothing but the build
queue changes. The build queue is a map: its keys ascend. -/
theorem SchedBuild_spec (s : Timer) (parent : Option Agent) (proto : String) (t : Int)
    (hq : s.build_queue_.WF) :
    ((s.SchedBuild parent proto t).1 = .error .ValueError ↔ t ≤ s.time_) ∧
    (t ≤ s.time_ → (s.SchedBuild parent proto t).2 = s) ∧
    (s.time_ < t →
      (s.SchedBuild parent proto t).1 = .ok () ∧
      (s.SchedBuild parent proto t).2.build_queue_.find? t
        = some (s.build_queue_.get t [] ++ [(proto, parent)]) ∧
      (∀ k, k ≠ t →
        (s.SchedBuild parent proto t).2.build_queue_.find? k = s.build_queue_.find? k) ∧
      (s.SchedBuild parent proto t).2
        = { s with build_queue_ := (s.SchedBuild parent proto t).2.build_queue_ }) := by
  refine ⟨?_, ?_, ?_⟩
  · unfold Timer.SchedBuild
    split_ifs with h <;> simp [h]
  · intro h
    simp [Timer.SchedBuild, h]
  · intro h
    have h' : ¬ t ≤ s.time_ := not_le.mpr h
    simp only [Timer.SchedBuild, h', if_false, true_and]
    refine ⟨?_, ?_⟩
    · rw [OMap.find?_alter_self t _ _ hq]
      rfl
    · exact ⟨fun k hk => OMap.find?_alter_ne t k _ _ hk, trivial⟩

/-- Scenario of C6: at time 2 a build at 2 is refused, a build at 4 is appended. -/
theorem SchedBuild_spec_witness :
    scenarioTimer.build_queue_.WF ∧
    ((scenarioTimer.SchedBuild (some 8) "mine" 2).1 = .error .ValueError ↔ (2 : Int) ≤ 2) ∧
    (scenarioTimer.SchedBuild (some 8) "mine" 4).2.build_queue_.find? 4
      = some [("reactor", none), ("mine", some 8)] := by
  have hwf : scenarioTimer.build_queue_.WF := by simp [OMap.WF, scenarioTimer]
  refine ⟨hwf, (SchedBuild_spec scenarioTimer (some 8) "mine" 2 hwf).1, ?_⟩
  exact ((SchedBuild_spec scenarioTimer (some 8) "mine" 4 hwf).2.2 (by decide)).2.1

/-- C7: `SchedDecom(agent, t)` throws `ValueError` exactly when `t` is before the
current time (the current time itself is accepted). When it throws, the timer
is unchanged, the decommission queue with every earlier scheduling of the agent
included; otherwise it returns normally. -/
theorem SchedDecom_fails_iff (s : Timer) (m : Agent) (t : Int) :
    ((s.SchedDecom m t).1 = .error .ValueError ↔ t < s.time_) ∧
    ((s.SchedDecom m t).1 = .error .ValueError → (s.SchedDecom m t).2 = s) ∧
    ((s.SchedDecom m t).1 ≠ .error .ValueError → (s.SchedDecom m t).1 = .ok ()) := by
  unfold Timer.SchedDecom
  split_ifs with h <;> simp [h]

/-- Scenario of C7: at time 2 a decommission at 1 is refused and leaves agent 8 queued
at 5; a decommission at 2 is accepted. -/
theorem SchedDecom_fails_iff_witness :
    (scenarioTimer.SchedDecom 8 1).1 = .error .ValueError ∧
    (scenarioTimer.SchedDecom 8 1).2.decom_queue_ = [(5, [8])] ∧
    (scenarioTimer.SchedDecom 8 2).1 = .ok () := by
  have h1 := SchedDecom_fails_iff scenarioTimer 8 1
  have h2 := SchedDecom_fails_iff scenarioTimer 8 2
  have e1 : (scenarioTimer.SchedDecom 8 1).1 = .error .ValueError := h1.1.mpr (by decide)
  refine ⟨e1, ?_, h2.2.2 (fun h => absurd (h2.1.mp h) (by decide))⟩
  rw [h1.2.1 e1]
  rfl

/-! ## The simulation loop -/

theorem runCmd_clock (s : Timer) (c : Cmd) :
    (runCmd s c).time_ = s.time_ ∧ (runCmd s c).si_ = s.si_ := by
  cases c <;> simp only [runCmd, Timer.SchedBuild, Timer.SchedDecom, Timer.KillSim,
    Timer.Snapshot, Timer.RegisterTimeListener, Timer.UnregisterTimeListener]
  · split_ifs <;> simp
  · split_ifs <;> simp
  all_goals simp

theorem foldl_runCmd_clock (cs : List Cmd) (s : Timer) :
    (cs.foldl runCmd s).time_ = s.time_ ∧ (cs.foldl runCmd s).si_ = s.si_ := by
  induction cs generalizing s with
  | nil => simp
  | cons c rest ih =>
    simp only [List.foldl_cons]
    rw [(ih _).1, (ih _).2]
    exact runCmd_clock s c

theorem callback_clock (env : Env) (e : Event) (r : Run) :
    (callback env e r).timer.time_ = r.timer.time_ ∧
    (callback env e r).timer.si_ = r.timer.si_ := by
  simp only [callback]
  exact foldl_runCmd_clock _ _

theorem phase_clock (env : Env) (es : List Event) (r : Run) :
    (phase env es r).timer.time_ = r.timer.time_ ∧
    (phase env es r).timer.si_ = r.timer.si_ := by
  induction es generalizing r with
  | nil => simp [phase]
  | cons e rest ih =>
    have := ih (callback env e r)
    simp only [phase, List.foldl_cons] at this ⊢
    rw [this.1, this.2]
    exact callback_clock env e r

theorem DoSnapshot_step (env : Env) (r : Run) : PhaseStep 0 r (DoSnapshot env r) := by
  unfold DoSnapshot
  split_ifs with h
  · refine ⟨(callback_clock env _ _).1, (callback_clock env _ _).2, [.Snapshot r.timer.time_], ?_, ?_⟩
    · simp [callback]
    · simp [Event.time, Event.rank]
  · exact ⟨rfl, rfl, [], by simp, by simp⟩

theorem DoBuild_step (env : Env) (r : Run) : PhaseStep 1 r (DoBuild env r) := by
  unfold DoBuild
  refine ⟨(phase_clock env _ _).1, (phase_clock env _ _).2, _, phase_trace env _ _, ?_⟩
  intro e he
  obtain ⟨b, -, hb⟩ := List.mem_flatMap.mp he
  unfold buildEvents at hb
  cases hp : b.2 <;> simp [hp] at hb <;> rcases hb with rfl | rfl <;> simp [Event.time, Event.rank]

theorem DoTick_step (env : Env) (r : Run) : PhaseStep 2 r (DoTick env r) := by
  unfold DoTick
  refine ⟨(phase_clock env _ _).1, (phase_clock env _ _).2, _, phase_trace env _ _, ?_⟩
  intro e he
  obtain ⟨kv, -, rfl⟩ := List.mem_map.mp he
  simp [Event.time, Event.rank]

theorem DoTock_step (env : Env) (r : Run) : PhaseStep 5 r (DoTock env r) := by
  unfold DoTock
  refine ⟨(phase_clock env _ _).1, (phase_clock env _ _).2, _, phase_trace env _ _, ?_⟩
  intro e he
  obtain ⟨kv, -, rfl⟩ := List.mem_map.mp he
  simp [Event.time, Event.rank]

theorem DoDecom_step (env : Env) (r : Run) : PhaseStep 6 r (DoDecom env r) := by
  unfold DoDecom
  refine ⟨(phase_clock env _ _).1, (phase_clock env _ _).2, _, phase_trace env _ _, ?_⟩
  intro e he
  obtain ⟨m, -, hm⟩ := List.mem_flatMap.mp he
  unfold decomEvents at hm
  cases hp : env.parent m <;> simp [hp] at hm <;> rcases hm with rfl | rfl <;>
    simp [Event.time, Event.rank]

theorem DoResEx_trace (env : Env) (r : Run) :
    (DoResEx env r).timer.time_ = r.timer.time_ ∧ (DoResEx env r).timer.si_ = r.timer.si_ ∧
    (DoResEx env r).trace
      = r.trace ++ [.ExecMaterial r.timer.time_, .ExecProduct r.timer.time_] := by
  unfold DoResEx
  exact ⟨(phase_clock env _ _).1, (phase_clock env _ _).2, phase_trace env _ _⟩


theorem RunIter_structure (env : Env) (r : Run) :
    (RunIter env r).timer.time_ = r.timer.time_ + 1 ∧
    (RunIter env r).timer.si_ = r.timer.si_ ∧
    ∃ sn bs ts ks ds : List Event,
      (RunIter env r).trace
        = r.trace ++ (sn ++ bs ++ ts
            ++ [.ExecMaterial r.timer.time_, .ExecProduct r.timer.time_] ++ ks ++ ds) ∧
      (∀ e ∈ sn, e.time = r.timer.time_ ∧ e.rank = 0) ∧
      (∀ e ∈ bs, e.time = r.timer.time_ ∧ e.rank = 1) ∧
      (∀ e ∈ ts, e.time = r.timer.time_ ∧ e.rank = 2) ∧
      (∀ e ∈ ks, e.time = r.timer.time_ ∧ e.rank = 5) ∧
      (∀ e ∈ ds, e.time = r.timer.time_ ∧ e.rank = 6) := by
  obtain ⟨c0, i0, sn, h0, p0⟩ := DoSnapshot_step env r
  obtain ⟨c1, i1, bs, h1, p1⟩ := DoBuild_step env (DoSnapshot env r)
  obtain ⟨c2, i2, ts, h2, p2⟩ := DoTick_step env (DoBuild env (DoSnapshot env r))
  obtain ⟨c3, i3, h3⟩ := DoResEx_trace env (DoTick env (DoBuild env (DoSnapshot env r)))
  obtain ⟨c4, i4, ks, h4, p4⟩ :=
    DoTock_step env (DoResEx env (DoTick env (DoBuild env (DoSnapshot env r))))
  obtain ⟨c5, i5, ds, h5, p5⟩ :=
    DoDecom_step env (DoTock env (DoResEx env (DoTick env (DoBuild env (DoSnapshot env r)))))
  have t1 := c1.trans c0
  have t2 := c2.trans t1
  have t3 := c3.trans t2
  have t4 := c4.trans t3
  have t5 := c5.trans t4
  refine ⟨?_, ?_, sn, bs, ts, ks, ds, ?_, p0, ?_, ?_, ?_, ?_⟩
  · simp only [RunIter]
    rw [t5]
  · simp only [RunIter]
    rw [i5, i4, i3, i2, i1, i0]
  · simp only [RunIter]
    rw [h5, h4, h3, h2, h1, h0, t2]
    simp only [List.append_assoc]
  · intro e he; rw [← c0]; exact p1 e he
  · intro e he; rw [← t1]; exact p2 e he
  · intro e he; rw [← t3]; exact p4 e he
  · intro e he; rw [← t4]; exact p5 e he

theorem RunLoop_returns (env : Env) (n : Nat) (r : Run)
    (h : (r.timer.si_.duration - r.timer.time_).toNat ≤ n) : ∃ r', RunLoop env n r = some r' := by
  induction n generalizing r with
  | zero =>
    have : ¬ r.timer.time_ < r.timer.si_.duration := by omega
    exact ⟨r, by simp [RunLoop, this]⟩
  | succ n ih =>
    simp only [RunLoop]
    split_ifs with h1 h2
    · exact ⟨_, rfl⟩
    · apply ih
      obtain ⟨ht, hs, -⟩ := RunIter_structure env r
      rw [ht, hs]
      omega
    · exact ⟨r, rfl⟩

theorem Upto.append {t : Int} {n : Nat} {l : List Event} (h : Upto t n l) (n' : Nat)
    (hn : n ≤ n') (es : List Event) (hes : ∀ e ∈ es, e.time = t ∧ e.rank = n') :
    Upto t n' (l ++ es) := by
  refine ⟨?_, ?_⟩
  · rw [List.pairwise_append]
    refine ⟨h.1, ?_, ?_⟩
    · apply List.Pairwise.imp_of_mem _ (List.pairwise_of_forall (fun _ _ => trivial))
      intro a b ha hb _
      exact Or.inr ⟨(hes a ha).1.trans (hes b hb).1.symm, by rw [(hes a ha).2, (hes b hb).2]⟩
    · intro a ha b hb
      rcases h.2 a ha with hlt | ⟨heq, hr⟩
      · exact Or.inl (by rw [(hes b hb).1]; exact hlt)
      · exact Or.inr ⟨heq.trans (hes b hb).1.symm, by rw [(hes b hb).2]; omega⟩
  · intro e he
    rcases List.mem_append.mp he with he | he
    · rcases h.2 e he with hlt | ⟨heq, hr⟩
      · exact Or.inl hlt
      · exact Or.inr ⟨heq, by omega⟩
    · exact Or.inr ⟨(hes e he).1, by rw [(hes e he).2]⟩

theorem Upto.next {t : Int} {n : Nat} {l : List Event} (h : Upto t n l) (t' : Int) (n' : Nat)
    (ht : t < t') : Upto t' n' l :=
  ⟨h.1, fun e he => Or.inl (by rcases h.2 e he with hlt | ⟨heq, _⟩ <;> omega)⟩

theorem Upto.mono {t : Int} {n : Nat} {l : List Event} (h : Upto t n l) (n' : Nat)
    (hn : n ≤ n') : Upto t n' l := by
  simpa using h.append n' hn [] (by simp)

theorem RunIter_upto (env : Env) (r : Run) (h : Upto (r.timer.time_ - 1) 7 r.trace) :
    Upto ((RunIter env r).timer.time_ - 1) 7 (RunIter env r).trace := by
  obtain ⟨ht, -, sn, bs, ts, ks, ds, htr, p0, p1, p2, p5, p6⟩ := RunIter_structure env r
  rw [htr, ht]
  simp only [← List.append_assoc]
  have a0 := (h.next r.timer.time_ 0 (by omega)).append 0 (le_refl _) sn p0
  have a1 := a0.append 1 (by omega) bs p1
  have a2 := a1.append 2 (by omega) ts p2
  have a3 := a2.append 3 (by omega) [.ExecMaterial r.timer.time_]
    (by simp [Event.time, Event.rank])
  have a4 := a3.append 4 (by omega) [.ExecProduct r.timer.time_]
    (by simp [Event.time, Event.rank])
  simp only [List.append_assoc, List.singleton_append] at a4
  have a5 := a4.append 5 (by omega) ks p5
  have a6 := a5.append 6 (by omega) ds p6
  simp only [List.append_assoc, List.cons_append, List.nil_append] at a6 ⊢
  have e : r.timer.time_ + 1 - 1 = r.timer.time_ := by omega
  rw [e]
  exact a6.mono 7 (by omega)

theorem RunLoop_upto (env : Env) (n : Nat) (r r' : Run)
    (h : Upto (r.timer.time_ - 1) 7 r.trace) (hr : RunLoop env n r = some r') :
    Upto (r'.timer.time_ - 1) 7 r'.trace := by
  induction n generalizing r with
  | zero =>
    simp only [RunLoop] at hr
    split_ifs at hr
    cases hr
    exact h
  | succ n ih =>
    simp only [RunLoop] at hr
    split_ifs at hr with h1 h2
    · cases hr
      exact RunIter_upto env r h
    · exact ih _ (RunIter_upto env r h) hr
    · cases hr
      exact h

/-- C9: the phases of a tick run in a fixed order. (1) One pass through the loop body
at time `t` calls, in this order: the snapshot if one was asked for (rank 0), the
builds of `DoBuild` (rank 1), the ticks of `DoTick` (rank 2), the material
exchange, the product exchange, the tocks of `DoTock` (rank 5) and the
decommissions of `DoDecom` (rank 6); all these calls see the time `t`, and the
pass ends with the time `t + 1`. (2) `RunSim` returns, and in the sequence of all
its calls an earlier one is of an earlier tick, or of the same tick and no later
phase: what belongs to tick `t` precedes what belongs to tick `t + 1`, a build
precedes the ticks of its tick and a decommission follows the tocks. -/
theorem RunSim_phase_order (env : Env) :
    (∀ r : Run,
      (RunIter env r).timer.time_ = r.timer.time_ + 1 ∧
      ∃ sn bs ts ks ds : List Event,
        (RunIter env r).trace
          = r.trace ++ (sn ++ bs ++ ts
              ++ [.ExecMaterial r.timer.time_, .ExecProduct r.timer.time_] ++ ks ++ ds) ∧
        (∀ e ∈ sn, e.time = r.timer.time_ ∧ e.rank = 0) ∧
        (∀ e ∈ bs, e.time = r.timer.time_ ∧ e.rank = 1) ∧
        (∀ e ∈ ts, e.time = r.timer.time_ ∧ e.rank = 2) ∧
        (∀ e ∈ ks, e.time = r.timer.time_ ∧ e.rank = 5) ∧
        (∀ e ∈ ds, e.time = r.timer.time_ ∧ e.rank = 6)) ∧
    (∀ s : Timer, ∃ r, RunSim env s = some r ∧ r.trace.Pairwise Event.before) := by
  refine ⟨fun r => ⟨(RunIter_structure env r).1, (RunIter_structure env r).2.2⟩, ?_⟩
  intro s
  obtain ⟨r', hr'⟩ := RunLoop_returns env (s.si_.duration - s.time_).toNat
    { timer := s, trace := [] } (le_refl _)
  have hup := RunLoop_upto env _ _ r' ⟨List.Pairwise.nil, by simp⟩ hr'
  have hrun : RunSim env s = some (callback env (.Snapshot r'.timer.time_)
      { r' with trace := r'.trace ++ [.Finish r'.timer.want_kill_ (r'.timer.time_ - 1)] }) := by
    simp only [RunSim, hr']
  refine ⟨_, hrun, ?_⟩
  have a1 := hup.append 7 (le_refl _) [.Finish r'.timer.want_kill_ (r'.timer.time_ - 1)]
    (by simp [Event.time, Event.rank])
  have a2 := (a1.next r'.timer.time_ 0 (by omega)).append 0 (le_refl _)
    [.Snapshot r'.timer.time_] (by simp [Event.time, Event.rank])
  simpa [callback] using a2.1


theorem foldl_runCmd_kill (cs : List Cmd) (s : Timer) (hcs : Cmd.KillSim ∉ cs) :
    (cs.foldl runCmd s).want_kill_ = s.want_kill_ := by
  induction cs generalizing s with
  | nil => rfl
  | cons c rest ih =>
    simp only [List.foldl_cons]
    rw [ih _ (fun h => hcs (List.mem_cons_of_mem _ h))]
    have hc : c ≠ Cmd.KillSim := fun h => hcs (h ▸ List.mem_cons_self _ _)
    cases c <;> simp only [runCmd, Timer.SchedBuild, Timer.SchedDecom, Timer.Snapshot,
      Timer.RegisterTimeListener, Timer.UnregisterTimeListener]
    · split_ifs <;> rfl
    · split_ifs <;> rfl
    · exact absurd rfl hc

theorem callback_kill (env : Env) (hk : ∀ e s, Cmd.KillSim ∉ env.react e s) (e : Event)
    (r : Run) : (callback env e r).timer.want_kill_ = r.timer.want_kill_ := by
  simp only [callback]
  exact foldl_runCmd_kill _ _ (fun h => hk e r.timer (List.mem_of_mem_filter h))

theorem phase_kill (env : Env) (hk : ∀ e s, Cmd.KillSim ∉ env.react e s) (es : List Event)
    (r : Run) : (phase env es r).timer.want_kill_ = r.timer.want_kill_ := by
  induction es generalizing r with
  | nil => simp [phase]
  | cons e rest ih =>
    have := ih (callback env e r)
    simp only [phase, List.foldl_cons] at this ⊢
    rw [this]
    exact callback_kill env hk e r

theorem RunIter_kill (env : Env) (hk : ∀ e s, Cmd.KillSim ∉ env.react e s) (r : Run) :
    (RunIter env r).timer.want_kill_ = r.timer.want_kill_ := by
  have h0 : (DoSnapshot env r).timer.want_kill_ = r.timer.want_kill_ := by
    unfold DoSnapshot
    split_ifs
    · rw [callback_kill env hk]
    · rfl
  simp only [RunIter, DoDecom, DoTock, DoResEx, DoTick, DoBuild, phase_kill env hk]
  exact h0

theorem ticksRun_of_rank (l : List Event) (h : ∀ e ∈ l, e.rank ≠ 3) : ticksRun l = [] := by
  induction l with
  | nil => rfl
  | cons e rest ih =>
    have he := h e (List.mem_cons_self _ _)
    have hr := ih (fun e he => h e (List.mem_cons_of_mem _ he))
    unfold ticksRun at hr ⊢
    cases e <;> simp_all [Event.rank]

theorem finishRows_of_rank (l : List Event) (h : ∀ e ∈ l, e.rank ≠ 7) : finishRows l = [] := by
  induction l with
  | nil => rfl
  | cons e rest ih =>
    have he := h e (List.mem_cons_self _ _)
    have hr := ih (fun e he => h e (List.mem_cons_of_mem _ he))
    unfold finishRows at hr ⊢
    cases e <;> simp_all [Event.rank]

theorem ticksRun_append (l l' : List Event) : ticksRun (l ++ l') = ticksRun l ++ ticksRun l' := by
  simp [ticksRun, List.filterMap_append]

theorem finishRows_append (l l' : List Event) :
    finishRows (l ++ l') = finishRows l ++ finishRows l' := by
  simp [finishRows, List.filterMap_append]

theorem RunIter_ticks (env : Env) (r : Run) :
    ticksRun (RunIter env r).trace = ticksRun r.trace ++ [r.timer.time_] ∧
    finishRows (RunIter env r).trace = finishRows r.trace := by
  obtain ⟨-, -, sn, bs, ts, ks, ds, htr, p0, p1, p2, p5, p6⟩ := RunIter_structure env r
  rw [htr]
  constructor
  · simp only [ticksRun_append]
    rw [ticksRun_of_rank sn (fun e he => by rw [(p0 e he).2]; decide),
      ticksRun_of_rank bs (fun e he => by rw [(p1 e he).2]; decide),
      ticksRun_of_rank ts (fun e he => by rw [(p2 e he).2]; decide),
      ticksRun_of_rank ks (fun e he => by rw [(p5 e he).2]; decide),
      ticksRun_of_rank ds (fun e he => by rw [(p6 e he).2]; decide)]
    simp [ticksRun]
  · simp only [finishRows_append]
    rw [finishRows_of_rank sn (fun e he => by rw [(p0 e he).2]; decide),
      finishRows_of_rank bs (fun e he => by rw [(p1 e he).2]; decide),
      finishRows_of_rank ts (fun e he => by rw [(p2 e he).2]; decide),
      finishRows_of_rank ks (fun e he => by rw [(p5 e he).2]; decide),
      finishRows_of_rank ds (fun e he => by rw [(p6 e he).2]; decide)]
    simp [finishRows]

theorem RunLoop_no_kill (env : Env) (hk : ∀ e s, Cmd.KillSim ∉ env.react e s) (n : Nat)
    (r : Run) (hkill : r.timer.want_kill_ = false)
    (hn : r.timer.si_.duration - r.timer.time_ = (n : Int)) :
    ∃ r', RunLoop env n r = some r' ∧ r'.timer.time_ = r.timer.si_.duration ∧
      r'.timer.want_kill_ = false ∧
      ticksRun r'.trace = ticksRun r.trace ++ (List.range n).map (fun (i : Nat) => r.timer.time_ + (i : Int)) ∧
      finishRows r'.trace = finishRows r.trace := by
  induction n generalizing r with
  | zero =>
    have h1 : ¬ r.timer.time_ < r.timer.si_.duration := by omega
    refine ⟨r, by simp [RunLoop, h1], by omega, hkill, by simp, rfl⟩
  | succ n ih =>
    have h1 : r.timer.time_ < r.timer.si_.duration := by omega
    obtain ⟨ht, hs, -⟩ := RunIter_structure env r
    have hk1 : (RunIter env r).timer.want_kill_ = false := by
      rw [RunIter_kill env hk, hkill]
    obtain ⟨r', hr', e1, e2, e3, e4⟩ := ih (RunIter env r) hk1 (by rw [ht, hs]; omega)
    refine ⟨r', ?_, by rw [e1, hs], e2, ?_, by rw [e4, (RunIter_ticks env r).2]⟩
    · simp only [RunLoop, h1, if_true, hk1]
      exact hr'
    · rw [e3, (RunIter_ticks env r).1, ht, List.range_succ_eq_map]
      simp [List.map_map, Function.comp_def, add_assoc, add_comm]
      intro a _
      omega

/-- C10: the timer is initialised with a valid month, no branch time and a duration
`d ≥ 0`, and no callee sets the kill flag. Then `RunSim` returns; it has run
`d` ticks, at the times `0, 1, ..., d - 1` in this order; the time at the end is
`d`; and one `Finish` row was recorded, with `EarlyTerm = false` and
`EndTime = d - 1`. -/
theorem RunSim_runs_every_tick (env : Env) (s0 : Timer) (si : SimInfo)
    (hm0 : 1 ≤ si.m0 ∧ si.m0 ≤ 12) (hb : si.branch_time = -1) (hd : 0 ≤ si.duration)
    (hk : ∀ e s, Cmd.KillSim ∉ env.react e s) :
    (s0.Initialize si).1 = .ok () ∧
    ∃ r, RunSim env (s0.Initialize si).2 = some r ∧
      ticksRun r.trace = (List.range si.duration.toNat).map (fun (i : Nat) => (i : Int)) ∧
      r.timer.time_ = si.duration ∧
      finishRows r.trace = [(false, si.duration - 1)] := by
  have hinit : s0.Initialize si
      = (.ok (), { s0 with want_kill_ := false, time_ := 0, si_ := si }) := by
    have h1 : ¬ (si.m0 < 1 ∨ si.m0 > 12) := by omega
    simp [Timer.Initialize, h1, hb]
  rw [hinit]
  refine ⟨rfl, ?_⟩
  obtain ⟨r', hr', e1, e2, e3, e4⟩ := RunLoop_no_kill env hk si.duration.toNat
    { timer := { s0 with want_kill_ := false, time_ := 0, si_ := si }, trace := [] } rfl
    (by simp only [sub_zero]; omega)
  simp only [ticksRun, finishRows, List.filterMap_nil, List.nil_append, zero_add] at e3 e4
  have hrun : RunSim env { s0 with want_kill_ := false, time_ := 0, si_ := si }
      = some (callback env (.Snapshot r'.timer.time_)
          { r' with trace := r'.trace ++ [.Finish r'.timer.want_kill_ (r'.timer.time_ - 1)] }) := by
    simp only [RunSim, sub_zero, hr']
  refine ⟨_, hrun, ?_, ?_, ?_⟩
  · simp only [callback, ticksRun, List.filterMap_append]
    simpa [ticksRun] using e3
  · rw [(callback_clock env _ _).1]
    exact e1
  · simp only [callback, finishRows, List.filterMap_append]
    rw [e4, e2, e1]
    simp


/-- Scenario of C10: duration 3, no callee calls back. -/
theorem RunSim_runs_every_tick_witness :
    ((1 : Int) ≤ 1 ∧ (1 : Int) ≤ 12) ∧ (∀ e s, Cmd.KillSim ∉ quietEnv.react e s) ∧
    ∃ r, RunSim quietEnv (scenarioTimer.Initialize ⟨3, 1, -1⟩).2 = some r ∧
      ticksRun r.trace = [0, 1, 2] ∧ r.timer.time_ = 3 ∧
      finishRows r.trace = [(false, 2)] :=
  ⟨by decide, by simp [quietEnv],
    (RunSim_runs_every_tick quietEnv scenarioTimer ⟨3, 1, -1⟩ (by decide) rfl (by decide)
      (by simp [quietEnv])).2⟩

/-! ## Request portfolios -/

namespace RequestPortfolio

theorem AddRequest_first (p : RequestPortfolio) (addr : Nat) (target : Resource)
    (requester : Option Trader) (commodity : String) (preference : ℚ) (exclusive : Bool)
    (h1 : p.requester_ = none) (h2 : p.qty_ = -1) :
    p.AddRequest addr target requester commodity preference exclusive
      = (.ok ⟨addr, target, requester, p.self, commodity, preference, exclusive⟩,
         { p with
           requester_ := requester, qty_ := target.quantity,
           requests_ := p.requests_ ++
             [⟨addr, target, requester, p.self, commodity, preference, exclusive⟩],
           default_constr_coeffs_ :=
             p.default_constr_coeffs_.alter addr (fun _ => .finite 1) }) := by
  simp [AddRequest, VerifyRequester_, VerifyQty_, h1, h2]

theorem AddRequest_other_requester (p : RequestPortfolio) (addr : Nat) (target : Resource)
    (requester : Option Trader) (commodity : String) (preference : ℚ) (exclusive : Bool)
    (h1 : p.requester_ ≠ none) (h2 : p.requester_ ≠ requester) :
    p.AddRequest addr target requester commodity preference exclusive
      = (.error .KeyError, p) := by
  simp [AddRequest, VerifyRequester_, VerifyQty_, h1, h2]

theorem AddRequest_other_qty (p : RequestPortfolio) (addr : Nat) (target : Resource)
    (requester : Option Trader) (commodity : String) (preference : ℚ) (exclusive : Bool)
    (h1 : p.requester_ ≠ none) (h2 : p.requester_ = requester) (h3 : p.qty_ ≠ -1)
    (h4 : p.qty_ ≠ target.quantity) :
    p.AddRequest addr target requester commodity preference exclusive
      = (.error .KeyError, p) := by
  subst h2
  simp [AddRequest, VerifyRequester_, VerifyQty_, h1, h3, h4]

theorem AddRequest_same (p : RequestPortfolio) (addr : Nat) (target : Resource)
    (requester : Option Trader) (commodity : String) (preference : ℚ) (exclusive : Bool)
    (h1 : p.requester_ ≠ none) (h2 : p.requester_ = requester) (h3 : p.qty_ ≠ -1)
    (h4 : p.qty_ = target.quantity) :
    p.AddRequest addr target requester commodity preference exclusive
      = (.ok ⟨addr, target, requester, p.self, commodity, preference, exclusive⟩,
         { p with
           requests_ := p.requests_ ++
             [⟨addr, target, requester, p.self, commodity, preference, exclusive⟩],
           default_constr_coeffs_ :=
             p.default_constr_coeffs_.alter addr (fun _ => .finite 1) }) := by
  subst h2
  have h5 : target.quantity ≠ -1 := h4 ▸ h3
  simp [AddRequest, VerifyRequester_, VerifyQty_, h1, h4, h5]

theorem Inv_new (self : Nat) : Inv (RequestPortfolio.new self) := by
  simp [Inv, RequestPortfolio.new]

theorem Inv_AddRequest (p : RequestPortfolio) (hp : Inv p) (addr : Nat) (target : Resource)
    (requester : Trader) (commodity : String) (preference : ℚ) (exclusive : Bool)
    (hq : 0 < target.quantity) :
    Inv (p.AddRequest addr target (some requester) commodity preference exclusive).2 := by
  obtain ⟨h1, h2, h3⟩ := hp
  by_cases hempty : p.requests_ = []
  · obtain ⟨e1, e2⟩ := h2 hempty
    rw [AddRequest_first p _ _ _ _ _ _ e1 e2]
    simp [Inv, hempty, hq]
  · obtain ⟨n1, n2⟩ := h3 hempty
    have hne : p.qty_ ≠ -1 := by
      intro h
      rw [h] at n2
      norm_num at n2
    by_cases hr : p.requester_ = some requester
    · by_cases hqq : p.qty_ = target.quantity
      · rw [AddRequest_same p _ _ _ _ _ _ n1 hr hne hqq]
        refine ⟨?_, by simp, fun _ => ⟨n1, n2⟩⟩
        intro r hr'
        simp only [List.mem_append, List.mem_singleton] at hr'
        rcases hr' with hr' | rfl
        · exact h1 r hr'
        · exact ⟨hr.symm, hqq.symm⟩
      · rw [AddRequest_other_qty p _ _ _ _ _ _ n1 hr hne hqq]
        exact ⟨h1, h2, h3⟩
    · rw [AddRequest_other_requester p _ _ _ _ _ _ n1 hr]
      exact ⟨h1, h2, h3⟩

theorem Reachable.inv {p : RequestPortfolio} (hp : Reachable p) : Inv p := by
  induction hp with
  | new self => exact Inv_new self
  | add p _ addr target requester commodity preference exclusive hq ih =>
    exact Inv_AddRequest p ih addr target requester commodity preference exclusive hq

end RequestPortfolio

/-- C2: in every portfolio that calls of `AddRequest`, successful or failing, with
requesters that are not null and positive target quantities lead to from a new
portfolio, every stored request has the requester of the portfolio and a target
quantity equal to the quantity of the portfolio. -/
theorem RequestPortfolio_requests_share_requester_and_qty (p : RequestPortfolio)
    (hp : p.Reachable) :
    ∀ r ∈ p.requests, r.requester = p.requester ∧ r.target.quantity = p.qty :=
  hp.inv.1

/-- C8: on a portfolio that holds a request (one that calls of `AddRequest` with
requesters that are not null and positive quantities lead to), `AddRequest`
throws `KeyError` exactly when the requester of the new request is not the
requester of the portfolio or its target quantity is not the quantity of the
portfolio; on a portfolio without requests `AddRequest` does not throw, whatever
the request; and a call that does not throw `KeyError` returns the new request. -/
theorem AddRequest_throws_iff (p : RequestPortfolio) (hp : p.Reachable)
    (addr : Nat) (target : Resource) (requester : Option Trader)
    (commodity : String) (preference : ℚ) (exclusive : Bool) :
    (p.requests ≠ [] →
      ((p.AddRequest addr target requester commodity preference exclusive).1 = .error .KeyError
        ↔ (requester ≠ p.requester ∨ target.quantity ≠ p.qty))) ∧
    (p.requests = [] →
      (p.AddRequest addr target requester commodity preference exclusive).1
        ≠ .error .KeyError) ∧
    ((p.AddRequest addr target requester commodity preference exclusive).1 ≠ .error .KeyError →
      (p.AddRequest addr target requester commodity preference exclusive).1
        = .ok ⟨addr, target, requester, p.self, commodity, preference, exclusive⟩) := by
  obtain ⟨-, h2, h3⟩ := hp.inv
  by_cases hne : p.requests_ = []
  · obtain ⟨e1, e2⟩ := h2 hne
    rw [RequestPortfolio.AddRequest_first p _ _ _ _ _ _ e1 e2]
    exact ⟨fun h => absurd hne h, fun _ => by simp, fun _ => rfl⟩
  · obtain ⟨n1, n2⟩ := h3 hne
    have hq1 : p.qty_ ≠ -1 := by
      intro h
      rw [h] at n2
      norm_num at n2
    by_cases hr : p.requester_ = requester
    · by_cases hqq : p.qty_ = target.quantity
      · rw [RequestPortfolio.AddRequest_same p _ _ _ _ _ _ n1 hr hq1 hqq]
        exact ⟨fun _ => by simp [RequestPortfolio.requester, RequestPortfolio.qty, hr, hqq],
          fun h => absurd h hne, fun _ => rfl⟩
      · rw [RequestPortfolio.AddRequest_other_qty p _ _ _ _ _ _ n1 hr hq1 hqq]
        exact ⟨fun _ => by
            simp [RequestPortfolio.requester, RequestPortfolio.qty, hr, Ne.symm hqq],
          fun h => absurd h hne, fun h => absurd rfl h⟩
    · rw [RequestPortfolio.AddRequest_other_requester p _ _ _ _ _ _ n1 hr]
      exact ⟨fun _ => by simp [RequestPortfolio.requester, RequestPortfolio.qty, Ne.symm hr],
        fun h => absurd h hne, fun h => absurd rfl h⟩


theorem fuelPortfolio_eq : fuelPortfolio =
    { self := 0,
      requests_ := [⟨1, ⟨10⟩, some 7, 0, "fuelA", 0, false⟩, ⟨2, ⟨10⟩, some 7, 0, "fuelB", 0, false⟩],
      default_constr_coeffs_ := [(1, .finite 1), (2, .finite 1)],
      constraints_ := [], qty_ := 10, requester_ := some 7 } := by
  simp [fuelPortfolio, RequestPortfolio.AddRequest, RequestPortfolio.VerifyRequester_,
    RequestPortfolio.VerifyQty_, RequestPortfolio.new, OMap.alter]

/-- Scenario of C2: two requests accepted, a third one refused. -/
theorem RequestPortfolio_requests_share_requester_and_qty_witness :
    fuelPortfolio.Reachable ∧ fuelPortfolio.requests.length = 2 ∧
    ∀ r ∈ fuelPortfolio.requests,
      r.requester = fuelPortfolio.requester ∧ r.target.quantity = fuelPortfolio.qty := by
  have h : fuelPortfolio.Reachable :=
    .add _ (.add _ (.add _ (.new 0) 1 ⟨10⟩ 7 "fuelA" 0 false (by norm_num))
      2 ⟨10⟩ 7 "fuelB" 0 false (by norm_num)) 3 ⟨10⟩ 9 "fuelB" 0 false (by norm_num)
  exact ⟨h, by rw [fuelPortfolio_eq]; rfl,
    RequestPortfolio_requests_share_requester_and_qty fuelPortfolio h⟩

/-- Scenario of C8: on a portfolio of quantity 10 a request of 11 is refused, a request
of 10 by the same trader is returned. -/
theorem AddRequest_throws_iff_witness :
    fuelPortfolio.Reachable ∧ fuelPortfolio.requests ≠ [] ∧
    (fuelPortfolio.AddRequest 4 ⟨11⟩ (some 7) "fuelA" 0 false).1 = .error .KeyError ∧
    (fuelPortfolio.AddRequest 4 ⟨10⟩ (some 7) "fuelA" 0 false).1
      = .ok ⟨4, ⟨10⟩, some 7, fuelPortfolio.self, "fuelA", 0, false⟩ := by
  have h : fuelPortfolio.Reachable :=
    .add _ (.add _ (.add _ (.new 0) 1 ⟨10⟩ 7 "fuelA" 0 false (by norm_num))
      2 ⟨10⟩ 7 "fuelB" 0 false (by norm_num)) 3 ⟨10⟩ 9 "fuelB" 0 false (by norm_num)
  have hne : fuelPortfolio.requests ≠ [] := by
    rw [fuelPortfolio_eq]; simp [RequestPortfolio.requests]
  have hq : fuelPortfolio.qty = 10 := by rw [fuelPortfolio_eq]; rfl
  have hr : fuelPortfolio.requester = some 7 := by rw [fuelPortfolio_eq]; rfl
  refine ⟨h, hne, ?_, ?_⟩
  · apply ((AddRequest_throws_iff fuelPortfolio h 4 ⟨11⟩ (some 7) "fuelA" 0 false).1 hne).mpr
    right
    rw [hq]
    norm_num
  · apply (AddRequest_throws_iff fuelPortfolio h 4 ⟨10⟩ (some 7) "fuelA" 0 false).2.2
    intro hc
    rcases ((AddRequest_throws_iff fuelPortfolio h 4 ⟨10⟩ (some 7) "fuelA" 0 false).1 hne).mp hc
      with h1 | h1
    · exact h1 hr.symm
    · exact h1 hq.symm


theorem truncate_intCast (n : Int) : truncate (n : ℚ) = n := by
  simp [truncate]

theorem halfPortfolio_eq : halfPortfolio =
    { self := 0,
      requests_ := [⟨1, ⟨3 / 2⟩, some 7, 0, "fuelA", 0, false⟩,
        ⟨2, ⟨3 / 2⟩, some 7, 0, "fuelB", 0, false⟩],
      default_constr_coeffs_ := [(1, .finite 1), (2, .finite 1)],
      constraints_ := [], qty_ := 3 / 2, requester_ := some 7 } := by
  have h : (3 / 2 : ℚ) ≠ -1 := by norm_num
  simp [halfPortfolio, RequestPortfolio.AddRequest, RequestPortfolio.VerifyRequester_,
    RequestPortfolio.VerifyQty_, RequestPortfolio.new, OMap.alter, h]

theorem accumulate_halves :
    accumulate [⟨1, ⟨3 / 2⟩, some 7, 0, "fuelA", 0, false⟩,
      ⟨2, ⟨3 / 2⟩, some 7, 0, "fuelB", 0, false⟩] = 2 := by
  have h1 : truncate (3 / 2) = 1 := by
    have hn : (3 / 2 : ℚ).num = 3 := by norm_num
    have hd : (3 / 2 : ℚ).den = 2 := by norm_num
    simp only [truncate, hn, hd]
    rfl
  have h2 : truncate (5 / 2) = 2 := by
    have hn : (5 / 2 : ℚ).num = 5 := by norm_num
    have hd : (5 / 2 : ℚ).den = 2 := by norm_num
    simp only [truncate, hn, hd]
    rfl
  have e1 : ((0 : Int) : ℚ) + 3 / 2 = 3 / 2 := by norm_num
  have e2 : ((1 : Int) : ℚ) + 3 / 2 = 5 / 2 := by norm_num
  simp only [accumulate, List.foldl_cons, List.foldl_nil, Sum, truncate_intCast, e1, h1, e2, h2]

/-- C3, the code on two requests of quantity 3/2: their mean is 3/2, so that the
coefficient `quantity / mean` is 1 for both; `AddMutualReqs` accumulates the
quantities in an `int` (0, 1, 2) and divides by the size as integers, which
gives the normalisation constant 1 and the coefficient 3/2 for both. -/
theorem AddMutualReqs_truncates_the_mean :
    meanQuantity halfPortfolio.requests = 3 / 2 ∧
    (∀ r ∈ halfPortfolio.requests,
      Double.div r.target.quantity (meanQuantity halfPortfolio.requests) = .finite 1) ∧
    RequestPortfolio.normConst halfPortfolio.requests = some 1 ∧
    (halfPortfolio.AddMutualReqs halfPortfolio.requests).map
        (fun p => p.default_constr_coeffs_)
      = some [(1, .finite (3 / 2)), (2, .finite (3 / 2))] := by
  have hm : meanQuantity halfPortfolio.requests = 3 / 2 := by
    rw [halfPortfolio_eq]
    simp only [meanQuantity, RequestPortfolio.requests, List.map_cons, List.map_nil,
      List.sum_cons, List.sum_nil, List.length_cons, List.length_nil]
    norm_num
  have hn : RequestPortfolio.normConst halfPortfolio.requests = some 1 := by
    rw [halfPortfolio_eq]
    simp only [RequestPortfolio.normConst, RequestPortfolio.requests, accumulate_halves]
    rfl
  refine ⟨hm, ?_, hn, ?_⟩
  · rw [hm, halfPortfolio_eq]
    intro r hr
    simp only [RequestPortfolio.requests, List.mem_cons, List.mem_singleton, List.not_mem_nil,
      or_false] at hr
    rcases hr with rfl | rfl <;> simp [Double.div]
  · simp only [RequestPortfolio.AddMutualReqs, hn, Option.map_some']
    rw [halfPortfolio_eq]
    simp [RequestPortfolio.requests, OMap.alter, Double.div]


/-- C4, the code when one constraint is added twice: `CapacityConstraint(5)` is built
with id 0. The first `AddConstraint` stores a copy, which has the id 1 and is
equal (`operator==`) to the constraint. The second `AddConstraint` compares ids
only, finds none equal to 0, and stores a second copy: the portfolio holds two
constraints. -/
theorem AddConstraint_twice_stores_two :
    CapacityConstraint.ofCapacity 5 0 = some (fiveCap, 1) ∧
    ∃ p1 p2 : RequestPortfolio,
      (RequestPortfolio.new 0).AddConstraint fiveCap 1 = some (p1, 2) ∧
      p1.constraints.length = 1 ∧ (∀ e ∈ p1.constraints, e.eq fiveCap = true) ∧
      p1.AddConstraint fiveCap 2 = some (p2, 3) ∧ p2.constraints.length = 2 := by
  have h5 : (5 : ℚ) > 0 := by norm_num
  refine ⟨by simp [CapacityConstraint.ofCapacity, fiveCap], ?_⟩
  refine ⟨{ RequestPortfolio.new 0 with constraints_ := [{ fiveCap with id_ := 1 }] },
    { RequestPortfolio.new 0 with
      constraints_ := [{ fiveCap with id_ := 2 }, { fiveCap with id_ := 1 }] }, ?_, ?_, ?_, ?_, ?_⟩
  · simp [RequestPortfolio.AddConstraint, setInsert, CapacityConstraint.copy, fiveCap,
      RequestPortfolio.new]
  · rfl
  · intro e he
    simp only [RequestPortfolio.constraints, List.mem_singleton] at he
    subst he
    simp [CapacityConstraint.eq, Converter.eq, fiveCap]
  · simp [RequestPortfolio.AddConstraint, setInsert, CapacityConstraint.copy, fiveCap,
      RequestPortfolio.new, CapacityConstraint.lt]
  · rfl

/-- C5, the code: `operator==` between two default coefficient converters is false
whatever their coefficient maps, equal maps and one and the same converter
included. -/
theorem DefaultCoeffConverter_eq_false (a b : OMap Nat Double) :
    (Converter.DefaultCoeff a).eq (Converter.DefaultCoeff b) = false ∧
    (Converter.DefaultCoeff a).eq (Converter.DefaultCoeff a) = false :=
  ⟨rfl, rfl⟩

/-! ## The maps of the timer stay maps -/

theorem OMap.key_of_mem_erase {κ ν : Type} [DecidableEq κ] (k : κ) (m : OMap κ ν) (e : κ × ν)
    (he : e ∈ OMap.erase k m) : e ∈ m := by
  induction m with
  | nil => simp [OMap.erase] at he
  | cons e0 rest ih =>
    obtain ⟨k0, v⟩ := e0
    simp only [OMap.erase] at he
    split_ifs at he with h
    · exact List.mem_cons_of_mem _ he
    · rcases List.mem_cons.mp he with rfl | he
      · exact List.mem_cons_self _ _
      · exact List.mem_cons_of_mem _ (ih he)

theorem OMap.erase_WF {κ ν : Type} [LinearOrder κ] (k : κ) (m : OMap κ ν) (hm : m.WF) :
    (OMap.erase k m).WF := by
  induction m with
  | nil => simpa [OMap.erase] using hm
  | cons e0 rest ih =>
    obtain ⟨k0, v⟩ := e0
    unfold OMap.WF at hm ih ⊢
    simp only [List.map_cons, List.sorted_cons] at hm
    simp only [OMap.erase]
    split_ifs with h
    · exact hm.2
    · simp only [List.map_cons, List.sorted_cons]
      refine ⟨?_, ih hm.2⟩
      intro b hb
      obtain ⟨e, he, rfl⟩ := List.mem_map.mp hb
      exact hm.1 e.1 (List.mem_map_of_mem Prod.fst (OMap.key_of_mem_erase k rest e he))

theorem Timer.keys_unschedule (m : Agent) (q : OMap Int (List Agent)) :
    (Timer.unschedule m q).map Prod.fst = q.map Prod.fst := by
  induction q with
  | nil => rfl
  | cons e rest ih =>
    obtain ⟨k, ags⟩ := e
    simp only [Timer.unschedule]
    cases Timer.findAgent m ags <;> simp [ih]

/-- Every call a callee can make on the timer keeps its maps maps. -/
theorem Timer.WF_runCmd (s : Timer) (c : Cmd) (hs : s.WF) : (runCmd s c).WF := by
  obtain ⟨h1, h2, h3⟩ := hs
  cases c <;> simp only [runCmd, Timer.SchedBuild, Timer.SchedDecom, Timer.KillSim,
    Timer.Snapshot, Timer.RegisterTimeListener, Timer.UnregisterTimeListener]
  · split_ifs
    · exact ⟨h1, h2, h3⟩
    · exact ⟨h1, OMap.alter_WF _ _ _ h2, h3⟩
  · split_ifs
    · exact ⟨h1, h2, h3⟩
    · refine ⟨h1, h2, OMap.alter_WF _ _ _ ?_⟩
      unfold OMap.WF
      rw [Timer.keys_unschedule]
      exact h3
  · exact ⟨h1, h2, h3⟩
  · exact ⟨h1, h2, h3⟩
  · exact ⟨OMap.alter_WF _ _ _ h1, h2, h3⟩
  · exact ⟨OMap.erase_WF _ _ h1, h2, h3⟩

/-! ## Initialisation of the timer -/

/-- C13: `Initialize(ctx, si)` throws `ValueError` exactly when `si.m0 < 1` or
`si.m0 > 12`; when it throws, the timer (its time, its kill flag and its stored
configuration among the rest) is unchanged; otherwise it returns normally. -/
theorem Initialize_fails_iff (s : Timer) (si : SimInfo) :
    ((s.Initialize si).1 = .error .ValueError ↔ (si.m0 < 1 ∨ si.m0 > 12)) ∧
    ((s.Initialize si).1 = .error .ValueError → (s.Initialize si).2 = s) ∧
    ((s.Initialize si).1 ≠ .error .ValueError → (s.Initialize si).1 = .ok ()) := by
  unfold Timer.Initialize
  split_ifs with h <;> simp [h]

/-- Scenario of C13: month 0 is refused and leaves the timer as it was, month 12 is
accepted. -/
theorem Initialize_fails_iff_witness :
    (scenarioTimer.Initialize ⟨3, 0, -1⟩).1 = .error .ValueError ∧
    (scenarioTimer.Initialize ⟨3, 0, -1⟩).2 = scenarioTimer ∧
    (scenarioTimer.Initialize ⟨3, 12, -1⟩).1 = .ok () := by
  have h0 := Initialize_fails_iff scenarioTimer ⟨3, 0, -1⟩
  have h12 := Initialize_fails_iff scenarioTimer ⟨3, 12, -1⟩
  have e0 : (scenarioTimer.Initialize ⟨3, 0, -1⟩).1 = .error .ValueError :=
    h0.1.mpr (Or.inl (by decide))
  exact ⟨e0, h0.2.1 e0, h12.2.2 (fun h => absurd (h12.1.mp h) (by decide))⟩

/-- C14: after an `Initialize(ctx, si)` that returned normally, the time is
`si.branch_time` when that is `≥ 0` and `0` otherwise, the kill flag is false,
and `dur()` returns `si.duration`. -/
theorem Initialize_sets_time (s : Timer) (si : SimInfo)
    (h : (s.Initialize si).1 = .ok ()) :
    (s.Initialize si).2.time = (if si.branch_time ≥ 0 then si.branch_time else 0) ∧
    (s.Initialize si).2.want_kill_ = false ∧
    (s.Initialize si).2.dur = si.duration := by
  have h1 : ¬ (si.m0 < 1 ∨ si.m0 > 12) := by
    intro hc
    simp [Timer.Initialize, hc] at h
  by_cases hb : si.branch_time ≥ 0
  · have hb' : si.branch_time > -1 := by omega
    simp [Timer.Initialize, Timer.time, Timer.dur, h1, hb, hb']
  · have hb' : ¬ si.branch_time > -1 := by omega
    simp [Timer.Initialize, Timer.time, Timer.dur, h1, hb, hb']

/-- Scenario of C14: a timer that had its kill flag set is initialised with branch
time 4, and with no branch time. -/
theorem Initialize_sets_time_witness :
    (scenarioTimer.KillSim.Initialize ⟨9, 6, 4⟩).1 = .ok () ∧
    (scenarioTimer.KillSim.Initialize ⟨9, 6, 4⟩).2.time = 4 ∧
    (scenarioTimer.KillSim.Initialize ⟨9, 6, 4⟩).2.want_kill_ = false ∧
    (scenarioTimer.KillSim.Initialize ⟨9, 6, 4⟩).2.dur = 9 ∧
    (scenarioTimer.KillSim.Initialize ⟨9, 6, -1⟩).2.time = 0 := by
  have h := Initialize_sets_time scenarioTimer.KillSim ⟨9, 6, 4⟩ rfl
  have h' := Initialize_sets_time scenarioTimer.KillSim ⟨9, 6, -1⟩ rfl
  exact ⟨rfl, h.1, h.2.1, h.2.2, h'.1⟩

/-! ## The kill flag -/

theorem foldl_runCmd_kill_mono (cs : List Cmd) (s : Timer) (h : s.want_kill_ = true) :
    (cs.foldl runCmd s).want_kill_ = true := by
  induction cs generalizing s with
  | nil => exact h
  | cons c rest ih =>
    simp only [List.foldl_cons]
    apply ih
    cases c <;> simp only [runCmd, Timer.SchedBuild, Timer.SchedDecom, Timer.KillSim,
      Timer.Snapshot, Timer.RegisterTimeListener, Timer.UnregisterTimeListener]
    · split_ifs <;> exact h
    · split_ifs <;> exact h
    all_goals exact h

theorem phase_kill_mono (env : Env) (es : List Event) (r : Run)
    (h : r.timer.want_kill_ = true) : (phase env es r).timer.want_kill_ = true := by
  induction es generalizing r with
  | nil => simpa [phase] using h
  | cons e rest ih =>
    have := ih (callback env e r) (by simp only [callback]; exact foldl_runCmd_kill_mono _ _ h)
    simpa [phase] using this

theorem RunIter_kill_mono (env : Env) (r : Run) (h : r.timer.want_kill_ = true) :
    (RunIter env r).timer.want_kill_ = true := by
  have h0 : (DoSnapshot env r).timer.want_kill_ = true := by
    unfold DoSnapshot
    split_ifs
    · simp only [callback]
      exact foldl_runCmd_kill_mono _ _ h
    · exact h
  simp only [RunIter, DoDecom, DoTock, DoResEx, DoTick, DoBuild]
  exact phase_kill_mono _ _ _ (phase_kill_mono _ _ _ (phase_kill_mono _ _ _
    (phase_kill_mono _ _ _ (phase_kill_mono _ _ _ h0))))

theorem iterate_RunIter_clock (env : Env) (k : Nat) (r : Run) :
    ((RunIter env)^[k] r).timer.time_ = r.timer.time_ + k ∧
    ((RunIter env)^[k] r).timer.si_ = r.timer.si_ := by
  induction k generalizing r with
  | zero => simp
  | succ k ih =>
    rw [Function.iterate_succ_apply, (ih _).1, (ih _).2, (RunIter_structure env r).1,
      (RunIter_structure env r).2.1]
    exact ⟨by push_cast; ring, rfl⟩

theorem iterate_RunIter_kill (env : Env) (j k : Nat) (r : Run) (hjk : j ≤ k)
    (h : ((RunIter env)^[k] r).timer.want_kill_ = false) :
    ((RunIter env)^[j] r).timer.want_kill_ = false := by
  induction k with
  | zero =>
    have : j = 0 := by omega
    subst this
    exact h
  | succ k ih =>
    rcases Nat.lt_or_ge j (k + 1) with hlt | hge
    · apply ih (by omega)
      rw [Function.iterate_succ_apply'] at h
      by_contra hc
      rw [RunIter_kill_mono env _ (by simpa using hc)] at h
      cases h
    · have : j = k + 1 := by omega
      subst this
      exact h

theorem iterate_RunIter_ticks (env : Env) (k : Nat) (r : Run) :
    ticksRun ((RunIter env)^[k] r).trace
      = ticksRun r.trace ++ (List.range k).map (fun (i : Nat) => r.timer.time_ + (i : Int)) ∧
    finishRows ((RunIter env)^[k] r).trace = finishRows r.trace := by
  induction k with
  | zero => simp
  | succ k ih =>
    rw [Function.iterate_succ_apply', (RunIter_ticks env _).1, (RunIter_ticks env _).2, ih.1,
      ih.2, (iterate_RunIter_clock env k r).1, List.range_succ]
    simp

theorem iterate_RunIter_upto (env : Env) (k : Nat) (r : Run)
    (h : Upto (r.timer.time_ - 1) 7 r.trace) :
    Upto (((RunIter env)^[k] r).timer.time_ - 1) 7 ((RunIter env)^[k] r).trace := by
  induction k with
  | zero => exact h
  | succ k ih =>
    rw [Function.iterate_succ_apply']
    exact RunIter_upto env _ ih

theorem RunLoop_iterate (env : Env) (k n : Nat) (r : Run)
    (hlt : r.timer.time_ + k ≤ r.timer.si_.duration)
    (hk : ((RunIter env)^[k] r).timer.want_kill_ = false) :
    RunLoop env (n + k) r = RunLoop env n ((RunIter env)^[k] r) := by
  induction k generalizing r with
  | zero => rfl
  | succ k ih =>
    have h1 : r.timer.time_ < r.timer.si_.duration := by push_cast at hlt; omega
    have hk1 : (RunIter env r).timer.want_kill_ = false := by
      have := iterate_RunIter_kill env 1 (k + 1) r (by omega) hk
      simpa using this
    obtain ⟨ht, hs, -⟩ := RunIter_structure env r
    rw [Function.iterate_succ_apply] at hk ⊢
    rw [← ih (RunIter env r) (by rw [ht, hs]; push_cast at hlt; omega) hk]
    show RunLoop env (n + k + 1) r = _
    simp only [RunLoop, h1, if_true, hk1]
    rfl


/-- The calls of one pass of the loop body, phase by phase: each phase is read off
the timer as the phases before it have left it. -/
theorem RunIter_trace (env : Env) (r : Run) :
    (RunIter env r).trace = r.trace
      ++ (if r.timer.want_snapshot_ then [Event.Snapshot r.timer.time_] else [])
      ++ ((DoSnapshot env r).timer.build_queue_.get r.timer.time_ []).flatMap
          (buildEvents r.timer.time_)
      ++ (DoBuild env (DoSnapshot env r)).timer.tickers_.map
          (fun kv => Event.Tick r.timer.time_ kv.2)
      ++ [.ExecMaterial r.timer.time_, .ExecProduct r.timer.time_]
      ++ (DoResEx env (DoTick env (DoBuild env (DoSnapshot env r)))).timer.tickers_.map
          (fun kv => Event.Tock r.timer.time_ kv.2)
      ++ ((DoTock env (DoResEx env (DoTick env (DoBuild env
            (DoSnapshot env r))))).timer.decom_queue_.get r.timer.time_ []).flatMap
          (decomEvents env r.timer.time_) := by
  have c0 := (DoSnapshot_step env r).1
  have c1 := (DoBuild_step env (DoSnapshot env r)).1.trans c0
  have c2 := (DoTick_step env (DoBuild env (DoSnapshot env r))).1.trans c1
  have c3 := (DoResEx_trace env (DoTick env (DoBuild env (DoSnapshot env r)))).1.trans c2
  have c4 := (DoTock_step env
    (DoResEx env (DoTick env (DoBuild env (DoSnapshot env r))))).1.trans c3
  have h0 : (DoSnapshot env r).trace
      = r.trace ++ (if r.timer.want_snapshot_ then [Event.Snapshot r.timer.time_] else []) := by
    unfold DoSnapshot
    split_ifs <;> simp [callback]
  have h1 : ∀ q : Run, (DoBuild env q).trace
      = q.trace ++ (q.timer.build_queue_.get q.timer.time_ []).flatMap
          (buildEvents q.timer.time_) := fun q => by simp [DoBuild, phase_trace]
  have h2 : ∀ q : Run, (DoTick env q).trace
      = q.trace ++ q.timer.tickers_.map (fun kv => Event.Tick q.timer.time_ kv.2) :=
    fun q => by simp [DoTick, phase_trace]
  have h4 : ∀ q : Run, (DoTock env q).trace
      = q.trace ++ q.timer.tickers_.map (fun kv => Event.Tock q.timer.time_ kv.2) :=
    fun q => by simp [DoTock, phase_trace]
  show (DoDecom env _).trace = _
  rw [DoDecom_trace, h4, (DoResEx_trace env _).2.2, h2, h1, h0, c4, c3, c2, c1, c0]

/-- C11: the kill flag is not set at the head of tick `t = time_ + k`, a tick that
`RunSim` reaches (`t < duration`), and is set at its end, whichever callee of
tick `t` has set it. Then `RunSim` returns, and its calls are those of the ticks
before `t`, then every phase of tick `t` in full, then the `Finish` row with
`EarlyTerm = true` and `EndTime = t` and the final snapshot. The phases of tick
`t` are: the snapshot if asked for, the builds queued for `t`, a `Tick` of every
registered listener, the two exchanges, a `Tock` of every listener registered
when the exchanges are done, and the decommission (with the notice to its
parent) of every agent queued for `t` when the tocks are done; each is read off
the timer as the phases before it have left it. The run ends with the time
`t + 1`, the ticks run are `time_, ..., t`, and no call made in the loop belongs
to a later tick. -/
theorem RunSim_kill_ends_after_the_tick (env : Env) (s : Timer) (k : Nat)
    (hlt : s.time_ + k < s.si_.duration)
    (h0 : ((RunIter env)^[k] ⟨s, []⟩).timer.want_kill_ = false)
    (h1 : (RunIter env ((RunIter env)^[k] ⟨s, []⟩)).timer.want_kill_ = true) :
    ∃ r, RunSim env s = some r ∧
      r.trace = ((RunIter env)^[k] ⟨s, []⟩).trace
        ++ (if ((RunIter env)^[k] ⟨s, []⟩).timer.want_snapshot_
              then [Event.Snapshot (s.time_ + k)] else [])
        ++ ((DoSnapshot env ((RunIter env)^[k] ⟨s, []⟩)).timer.build_queue_.get
              (s.time_ + k) []).flatMap (buildEvents (s.time_ + k))
        ++ (DoBuild env (DoSnapshot env ((RunIter env)^[k] ⟨s, []⟩))).timer.tickers_.map
              (fun kv => Event.Tick (s.time_ + k) kv.2)
        ++ [.ExecMaterial (s.time_ + k), .ExecProduct (s.time_ + k)]
        ++ (DoResEx env (DoTick env (DoBuild env
              (DoSnapshot env ((RunIter env)^[k] ⟨s, []⟩))))).timer.tickers_.map
              (fun kv => Event.Tock (s.time_ + k) kv.2)
        ++ ((DoTock env (DoResEx env (DoTick env (DoBuild env
              (DoSnapshot env ((RunIter env)^[k] ⟨s, []⟩)))))).timer.decom_queue_.get
              (s.time_ + k) []).flatMap (decomEvents env (s.time_ + k))
        ++ [.Finish true (s.time_ + k), .Snapshot (s.time_ + k + 1)] ∧
      (∀ e ∈ ((RunIter env)^[k] ⟨s, []⟩).trace, e.time < s.time_ + k) ∧
      r.timer.time_ = s.time_ + k + 1 ∧
      ticksRun r.trace = (List.range (k + 1)).map (fun (i : Nat) => s.time_ + (i : Int)) ∧
      finishRows r.trace = [(true, s.time_ + k)] ∧
      (∀ e ∈ (RunIter env ((RunIter env)^[k] ⟨s, []⟩)).trace, e.time ≤ s.time_ + k) := by
  obtain ⟨ck, sk⟩ := iterate_RunIter_clock env k ⟨s, []⟩
  simp only at ck sk
  have ht := (RunIter_structure env ((RunIter env)^[k] ⟨s, []⟩)).1
  have htr := RunIter_trace env ((RunIter env)^[k] ⟨s, []⟩)
  rw [ck] at ht htr
  have hfuel : (s.si_.duration - s.time_).toNat
      = ((s.si_.duration - s.time_).toNat - (k + 1)) + 1 + k := by omega
  have hloop : RunLoop env (s.si_.duration - s.time_).toNat ⟨s, []⟩
      = some (RunIter env ((RunIter env)^[k] ⟨s, []⟩)) := by
    rw [hfuel, RunLoop_iterate env k _ ⟨s, []⟩ (by simp only; omega) h0]
    have hc : ((RunIter env)^[k] ⟨s, []⟩).timer.time_
        < ((RunIter env)^[k] ⟨s, []⟩).timer.si_.duration := by rw [ck, sk]; exact hlt
    simp only [RunLoop, hc, if_true, h1]
  have hrun : RunSim env s = some (callback env (.Snapshot (s.time_ + k + 1))
      { RunIter env ((RunIter env)^[k] ⟨s, []⟩) with
        trace := (RunIter env ((RunIter env)^[k] ⟨s, []⟩)).trace
          ++ [.Finish true (s.time_ + k)] }) := by
    simp only [RunSim, hloop, h1, ht]
    have e : s.time_ + ↑k + 1 - 1 = s.time_ + ↑k := by omega
    rw [e]
  have hticks := (iterate_RunIter_ticks env (k + 1) ⟨s, []⟩)
  rw [Function.iterate_succ_apply'] at hticks
  simp only [ticksRun, finishRows, List.filterMap_nil, List.nil_append] at hticks
  have hup := iterate_RunIter_upto env (k + 1) ⟨s, []⟩ ⟨List.Pairwise.nil, by simp⟩
  rw [Function.iterate_succ_apply', ht] at hup
  have hup0 := iterate_RunIter_upto env k ⟨s, []⟩ ⟨List.Pairwise.nil, by simp⟩
  rw [ck] at hup0
  refine ⟨_, hrun, ?_, ?_, ?_, ?_, ?_, ?_⟩
  · simp only [callback, htr, List.append_assoc, List.singleton_append]
  · intro e he
    rcases hup0.2 e he with h | ⟨h, -⟩ <;> omega
  · rw [(callback_clock env _ _).1]
    exact ht
  · simp only [callback, ticksRun, List.filterMap_append]
    simpa [ticksRun] using hticks.1
  · simp only [callback, finishRows, List.filterMap_append]
    simpa [finishRows] using hticks.2
  · intro e he
    rcases hup.2 e he with h | ⟨h, -⟩ <;> omega

/-- Scenario of C11: from time 2 with duration 10, the material exchange of tick 3
sets the kill flag; the product exchange, the tock of listener 1 and the
decommission of agent 8 of tick 3 still run, and nothing of tick 4. -/
theorem RunSim_kill_ends_after_the_tick_witness :
    killTimer.time_ + (1 : Nat) < killTimer.si_.duration ∧
    ∃ r, RunSim killEnv killTimer = some r ∧
      r.trace = [.Tick 2 ⟨100, 1⟩, .ExecMaterial 2, .ExecProduct 2, .Tock 2 ⟨100, 1⟩,
        .Tick 3 ⟨100, 1⟩, .ExecMaterial 3, .ExecProduct 3, .Tock 3 ⟨100, 1⟩,
        .Decommission 3 8, .Finish true 3, .Snapshot 4] ∧
      ticksRun r.trace = [2, 3] ∧ finishRows r.trace = [(true, 3)] ∧
      r.timer.time_ = 4 := by
  obtain ⟨r, hr, htr, -, ht, hk, hf, -⟩ :=
    RunSim_kill_ends_after_the_tick killEnv killTimer 1 (by decide) (by decide) (by decide)
  exact ⟨by decide, r, hr, htr.trans (by decide), hk, hf, ht⟩

/-! ## The registry of time listeners -/

theorem OMap.find?_erase_ne {κ ν : Type} [DecidableEq κ] (k k' : κ) (m : OMap κ ν)
    (h : k' ≠ k) : OMap.find? (OMap.erase k m) k' = OMap.find? m k' := by
  induction m with
  | nil => rfl
  | cons e rest ih =>
    obtain ⟨k0, v⟩ := e
    simp only [OMap.erase]
    split_ifs with h0
    · subst h0
      simp [OMap.find?, Ne.symm h]
    · simp [OMap.find?, ih]

theorem OMap.find?_erase_self {κ ν : Type} [LinearOrder κ] (k : κ) (m : OMap κ ν)
    (hm : m.WF) : OMap.find? (OMap.erase k m) k = none := by
  induction m with
  | nil => rfl
  | cons e rest ih =>
    obtain ⟨k0, v⟩ := e
    unfold OMap.WF at hm ih
    simp only [List.map_cons, List.sorted_cons] at hm
    simp only [OMap.erase]
    split_ifs with h0
    · subst h0
      apply OMap.find?_eq_none_of_lt
      intro e he
      exact hm.1 e.1 (List.mem_map_of_mem Prod.fst he)
    · simp [OMap.find?, h0, ih hm.2]

theorem OMap.mem_of_find? {κ ν : Type} [DecidableEq κ] (k : κ) (v : ν) (m : OMap κ ν)
    (h : OMap.find? m k = some v) : (k, v) ∈ m := by
  induction m with
  | nil => simp [OMap.find?] at h
  | cons e rest ih =>
    obtain ⟨k0, v0⟩ := e
    simp only [OMap.find?] at h
    split_ifs at h with h0
    · cases h
      subst h0
      exact List.mem_cons_self _ _
    · exact List.mem_cons_of_mem _ (ih h)

theorem OMap.alter_comm {ν : Type} (k1 k2 : Int) (h : k1 ≠ k2) (f g : Option ν → ν)
    (m : OMap Int ν) :
    OMap.alter k1 f (OMap.alter k2 g m) = OMap.alter k2 g (OMap.alter k1 f m) := by
  induction m with
  | nil =>
    simp only [OMap.alter]
    split_ifs <;> first | rfl | omega
  | cons e rest ih =>
    obtain ⟨k0, v⟩ := e
    simp only [OMap.alter]
    split_ifs <;> simp only [OMap.alter] <;> split_ifs <;>
      first | rfl | omega | (rw [ih])

theorem OMap.mem_alter_cases {κ ν : Type} [LinearOrder κ] (k : κ) (f : Option ν → ν)
    (m : OMap κ ν) (e : κ × ν) (he : e ∈ OMap.alter k f m) :
    (∃ o, e = (k, f o)) ∨ e ∈ m := by
  induction m with
  | nil =>
    simp only [OMap.alter, List.mem_singleton] at he
    exact Or.inl ⟨none, he⟩
  | cons e0 rest ih =>
    obtain ⟨k0, v⟩ := e0
    simp only [OMap.alter] at he
    split_ifs at he with h1 h2
    · rcases List.mem_cons.mp he with rfl | he
      · exact Or.inr (List.mem_cons_self _ _)
      · rcases ih he with h | h
        · exact Or.inl h
        · exact Or.inr (List.mem_cons_of_mem _ h)
    · rcases List.mem_cons.mp he with rfl | he
      · exact Or.inl ⟨some v, rfl⟩
      · exact Or.inr (List.mem_cons_of_mem _ he)
    · rcases List.mem_cons.mp he with rfl | he
      · exact Or.inl ⟨none, rfl⟩
      · exact Or.inr he

theorem tick_events_nodup (t : Int) (m : OMap Int TimeListener)
    (h : (m.map (fun kv => kv.2.id)).Sorted (· < ·)) :
    (m.map (fun kv => Event.Tick t kv.2)).Nodup ∧ (m.map (fun kv => Event.Tock t kv.2)).Nodup := by
  have hn : (m.map (fun kv => kv.2.id)).Nodup := h.nodup
  constructor
  · apply List.Nodup.of_map (fun e => match e with
      | Event.Tick _ l => l.id
      | _ => 0)
    simpa [List.map_map, Function.comp_def] using hn
  · apply List.Nodup.of_map (fun e => match e with
      | Event.Tock _ l => l.id
      | _ => 0)
    simpa [List.map_map, Function.comp_def] using hn

/-- C12: the registry `tickers_` is a map whose entries stand under the id of their
listener. `RegisterTimeListener(l)` makes `l` the listener found under `l.id()`,
the only entry with that key, whatever was registered under it before, and
leaves every other key as it was; `UnregisterTimeListener(l)` leaves no entry
under `l.id()` and every other key as it was; both keep the registry a map keyed
by id. `DoTick` and `DoTock` call the listeners of the entries, each entry once,
in the order of the map, in which the ids strictly ascend; and registering two
listeners of different ids in either order gives the same registry. -/
theorem listeners_keyed_by_id (s : Timer) (hwf : s.tickers_.WF)
    (hkey : ∀ e ∈ s.tickers_, e.2.id = e.1) (l : TimeListener) :
    ((s.RegisterTimeListener l).tickers_.find? l.id = some l ∧
      ((s.RegisterTimeListener l).tickers_.map Prod.fst).count l.id = 1 ∧
      (∀ k, k ≠ l.id → (s.RegisterTimeListener l).tickers_.find? k = s.tickers_.find? k) ∧
      (s.RegisterTimeListener l).tickers_.WF ∧
      (∀ e ∈ (s.RegisterTimeListener l).tickers_, e.2.id = e.1)) ∧
    ((s.UnregisterTimeListener l).tickers_.find? l.id = none ∧
      (∀ k, k ≠ l.id → (s.UnregisterTimeListener l).tickers_.find? k = s.tickers_.find? k) ∧
      (s.UnregisterTimeListener l).tickers_.WF ∧
      (∀ e ∈ (s.UnregisterTimeListener l).tickers_, e.2.id = e.1)) ∧
    (∀ (env : Env) (trace : List Event),
      (DoTick env ⟨s, trace⟩).trace
        = trace ++ s.tickers_.map (fun kv => Event.Tick s.time_ kv.2) ∧
      (DoTock env ⟨s, trace⟩).trace
        = trace ++ s.tickers_.map (fun kv => Event.Tock s.time_ kv.2)) ∧
    ((s.tickers_.map (fun kv => kv.2.id)).Sorted (· < ·) ∧
      (∀ e ∈ s.tickers_,
        (s.tickers_.map (fun kv => Event.Tick s.time_ kv.2)).count (.Tick s.time_ e.2) = 1 ∧
        (s.tickers_.map (fun kv => Event.Tock s.time_ kv.2)).count (.Tock s.time_ e.2) = 1)) ∧
    (∀ l1 l2 : TimeListener, l1.id ≠ l2.id →
      (s.RegisterTimeListener l1).RegisterTimeListener l2
        = (s.RegisterTimeListener l2).RegisterTimeListener l1) := by
  have hids : (s.tickers_.map (fun kv => kv.2.id)).Sorted (· < ·) := by
    have e : s.tickers_.map (fun kv => kv.2.id) = s.tickers_.map Prod.fst :=
      List.map_congr_left (fun e he => hkey e he)
    rw [e]
    exact hwf
  refine ⟨⟨?_, ?_, ?_, ?_, ?_⟩, ⟨?_, ?_, ?_, ?_⟩, ?_, ⟨hids, ?_⟩, ?_⟩
  · simp only [Timer.RegisterTimeListener]
    rw [OMap.find?_alter_self _ _ _ hwf]
  · have hw : (OMap.alter l.id (fun _ => l) s.tickers_).WF := OMap.alter_WF _ _ _ hwf
    have hmem : l.id ∈ (OMap.alter l.id (fun _ => l) s.tickers_).map Prod.fst := by
      have := OMap.mem_of_find? l.id l _ (OMap.find?_alter_self _ (fun _ => l) _ hwf)
      exact List.mem_map_of_mem Prod.fst this
    exact List.count_eq_one_of_mem (List.Sorted.nodup hw) hmem
  · intro k hk
    exact OMap.find?_alter_ne _ _ _ _ hk
  · exact OMap.alter_WF _ _ _ hwf
  · intro e he
    rcases OMap.mem_alter_cases l.id (fun _ => l) s.tickers_ e he with ⟨o, rfl⟩ | h
    · rfl
    · exact hkey e h
  · exact OMap.find?_erase_self _ _ hwf
  · intro k hk
    exact OMap.find?_erase_ne _ _ _ hk
  · exact OMap.erase_WF _ _ hwf
  · intro e he
    exact hkey e (OMap.key_of_mem_erase _ _ e he)
  · intro env trace
    exact ⟨by simp [DoTick, phase_trace], by simp [DoTock, phase_trace]⟩
  · intro e he
    obtain ⟨n1, n2⟩ := tick_events_nodup s.time_ s.tickers_ hids
    exact ⟨List.count_eq_one_of_mem n1 (List.mem_map_of_mem _ he),
      List.count_eq_one_of_mem n2 (List.mem_map_of_mem _ he)⟩
  · intro l1 l2 h12
    simp only [Timer.RegisterTimeListener]
    rw [OMap.alter_comm l2.id l1.id (Ne.symm h12)]

/-- Scenario of C12: listeners 5 and 3 are registered, in this order, next to listener
1; listener 1 is replaced by another object with the same id; a tick calls the
three in the order 1, 3, 5. -/
theorem listeners_keyed_by_id_witness :
    ((scenarioTimer.RegisterTimeListener ⟨105, 5⟩).RegisterTimeListener ⟨103, 3⟩).tickers_.WF ∧
    (∀ e ∈ ((scenarioTimer.RegisterTimeListener ⟨105, 5⟩).RegisterTimeListener
        ⟨103, 3⟩).tickers_, e.2.id = e.1) ∧
    (((scenarioTimer.RegisterTimeListener ⟨105, 5⟩).RegisterTimeListener
        ⟨103, 3⟩).RegisterTimeListener ⟨200, 1⟩).tickers_.find? 1 = some ⟨200, 1⟩ ∧
    (((scenarioTimer.RegisterTimeListener ⟨105, 5⟩).RegisterTimeListener
        ⟨103, 3⟩).UnregisterTimeListener ⟨200, 1⟩).tickers_.find? 1 = none ∧
    (DoTick quietEnv ⟨(scenarioTimer.RegisterTimeListener ⟨105, 5⟩).RegisterTimeListener
        ⟨103, 3⟩, []⟩).trace = [.Tick 2 ⟨100, 1⟩, .Tick 2 ⟨103, 3⟩, .Tick 2 ⟨105, 5⟩] := by
  have hwf : ((scenarioTimer.RegisterTimeListener ⟨105, 5⟩).RegisterTimeListener
      ⟨103, 3⟩).tickers_.WF := by
    unfold OMap.WF
    decide
  have hkey : ∀ e ∈ ((scenarioTimer.RegisterTimeListener ⟨105, 5⟩).RegisterTimeListener
      ⟨103, 3⟩).tickers_, e.2.id = e.1 := by decide
  have h := listeners_keyed_by_id _ hwf hkey ⟨200, 1⟩
  exact ⟨hwf, hkey, h.1.1, h.2.1.1, (h.2.2.1 quietEnv []).1⟩

/-! ## Requests and default constraints of a portfolio -/

namespace RequestPortfolio

theorem VerifyRequester_frame (p p1 : RequestPortfolio) (r : Request)
    (h : p.VerifyRequester_ r = .ok p1) :
    p1.requests_ = p.requests_ ∧ p1.default_constr_coeffs_ = p.default_constr_coeffs_ ∧
    p1.constraints_ = p.constraints_ ∧ p1.self = p.self := by
  unfold VerifyRequester_ at h
  split_ifs at h <;> cases h <;> exact ⟨rfl, rfl, rfl, rfl⟩

theorem VerifyQty_frame (p p1 : RequestPortfolio) (r : Request)
    (h : p.VerifyQty_ r = .ok p1) :
    p1.requests_ = p.requests_ ∧ p1.default_constr_coeffs_ = p.default_constr_coeffs_ ∧
    p1.constraints_ = p.constraints_ ∧ p1.self = p.self := by
  unfold VerifyQty_ at h
  simp only at h
  split_ifs at h <;> cases h <;> exact ⟨rfl, rfl, rfl, rfl⟩

theorem AddRequest_constraints (p : RequestPortfolio) (addr : Nat) (target : Resource)
    (requester : Option Trader) (commodity : String) (preference : ℚ) (exclusive : Bool) :
    (p.AddRequest addr target requester commodity preference exclusive).2.constraints_
      = p.constraints_ := by
  unfold AddRequest
  simp only
  cases h1 : p.VerifyRequester_ ⟨addr, target, requester, p.self, commodity, preference,
      exclusive⟩ with
  | error e => rfl
  | ok p1 =>
    simp only
    cases h2 : p1.VerifyQty_ ⟨addr, target, requester, p.self, commodity, preference,
        exclusive⟩ with
    | error e => exact (VerifyRequester_frame p p1 _ h1).2.2.1
    | ok p2 =>
      simp only
      rw [(VerifyQty_frame p1 p2 _ h2).2.2.1, (VerifyRequester_frame p p1 _ h1).2.2.1]

theorem AddMutualReqs_constraints (p p' : RequestPortfolio) (rs : List Request)
    (h : p.AddMutualReqs rs = some p') : p'.constraints_ = p.constraints_ := by
  unfold AddMutualReqs at h
  cases hn : normConst rs with
  | none => simp [hn] at h
  | some c =>
    simp only [hn, Option.map_some', Option.some.injEq] at h
    subst h
    generalize hf : (fun (p : RequestPortfolio) (r : Request) => { p with
      default_constr_coeffs_ :=
        p.default_constr_coeffs_.alter r.addr (fun _ => Double.div r.target.quantity c) }) = f
    have hstep : ∀ (q : RequestPortfolio) (r : Request), (f q r).constraints_ = q.constraints_ := by
      intro q r
      rw [← hf]
    clear hf hn
    induction rs generalizing p with
    | nil => rfl
    | cons r rest ih =>
      simp only [List.foldl_cons]
      rw [ih, hstep]

theorem AddRequest_ok (p : RequestPortfolio) (addr : Nat) (target : Resource)
    (requester : Option Trader) (commodity : String) (preference : ℚ) (exclusive : Bool)
    (r : Request)
    (h : (p.AddRequest addr target requester commodity preference exclusive).1 = .ok r) :
    ∃ p2 : RequestPortfolio,
      r = ⟨addr, target, requester, p.self, commodity, preference, exclusive⟩ ∧
      p2.requests_ = p.requests_ ∧ p2.default_constr_coeffs_ = p.default_constr_coeffs_ ∧
      (p.AddRequest addr target requester commodity preference exclusive).2
        = { p2 with
            requests_ := p2.requests_ ++
              [⟨addr, target, requester, p.self, commodity, preference, exclusive⟩],
            default_constr_coeffs_ :=
              p2.default_constr_coeffs_.alter addr (fun _ => .finite 1) } := by
  unfold AddRequest at h ⊢
  simp only at h ⊢
  cases h1 : p.VerifyRequester_ ⟨addr, target, requester, p.self, commodity, preference,
      exclusive⟩ with
  | error e => simp [h1] at h
  | ok p1 =>
    simp only [h1] at h ⊢
    cases h2 : p1.VerifyQty_ ⟨addr, target, requester, p.self, commodity, preference,
        exclusive⟩ with
    | error e => simp [h2] at h
    | ok p2 =>
      simp only [h2, Except.ok.injEq] at h ⊢
      obtain ⟨a1, a2, -, -⟩ := VerifyRequester_frame p p1 _ h1
      obtain ⟨b1, b2, -, -⟩ := VerifyQty_frame p1 p2 _ h2
      exact ⟨p2, h.symm, b1.trans a1, b2.trans a2, rfl⟩

end RequestPortfolio

/-- C19: an `AddRequest` that returns normally returns the request built from its
arguments; the requests of the portfolio are the former ones, in their order,
followed by this request; the coefficient of this request is 1, the coefficient
of every other request is as before, and the constraints are as before. -/
theorem AddRequest_appends (p : RequestPortfolio) (addr : Nat) (target : Resource)
    (requester : Option Trader) (commodity : String) (preference : ℚ) (exclusive : Bool)
    (r : Request)
    (h : (p.AddRequest addr target requester commodity preference exclusive).1 = .ok r) :
    r = ⟨addr, target, requester, p.self, commodity, preference, exclusive⟩ ∧
    (p.AddRequest addr target requester commodity preference exclusive).2.requests
      = p.requests ++ [r] ∧
    (p.AddRequest addr target requester commodity preference
      exclusive).2.default_constr_coeffs_.find? r.addr = some (.finite 1) ∧
    (∀ k, k ≠ r.addr →
      (p.AddRequest addr target requester commodity preference
        exclusive).2.default_constr_coeffs_.find? k = p.default_constr_coeffs_.find? k) ∧
    (p.AddRequest addr target requester commodity preference exclusive).2.constraints
      = p.constraints := by
  obtain ⟨p2, hr, e1, e2, heq⟩ :=
    RequestPortfolio.AddRequest_ok p addr target requester commodity preference exclusive r h
  subst hr
  refine ⟨rfl, ?_, ?_, ?_, RequestPortfolio.AddRequest_constraints p _ _ _ _ _ _⟩
  · rw [heq]
    simp only [RequestPortfolio.requests, e1]
  · rw [heq]
    obtain ⟨o, ho⟩ := OMap.find?_alter_self_some addr (fun _ => Double.finite 1)
      p2.default_constr_coeffs_
    exact ho
  · intro k hk
    rw [heq]
    simp only
    rw [OMap.find?_alter_ne _ _ _ _ hk, e2]

/-- Scenario of C19: a third request of quantity 10 by trader 7 is added to the
portfolio of two. -/
theorem AddRequest_appends_witness :
    (fuelPortfolio.AddRequest 4 ⟨10⟩ (some 7) "fuelA" 0 false).1
      = .ok ⟨4, ⟨10⟩, some 7, 0, "fuelA", 0, false⟩ ∧
    (fuelPortfolio.AddRequest 4 ⟨10⟩ (some 7) "fuelA" 0 false).2.requests
      = fuelPortfolio.requests ++ [⟨4, ⟨10⟩, some 7, 0, "fuelA", 0, false⟩] ∧
    (fuelPortfolio.AddRequest 4 ⟨10⟩ (some 7) "fuelA" 0 false).2.default_constr_coeffs_.find? 4
      = some (.finite 1) := by
  have h0 : (fuelPortfolio.AddRequest 4 ⟨10⟩ (some 7) "fuelA" 0 false).1
      = .ok ⟨4, ⟨10⟩, some 7, 0, "fuelA", 0, false⟩ := by
    rw [fuelPortfolio_eq]
    have h : (10 : ℚ) ≠ -1 := by norm_num
    simp [RequestPortfolio.AddRequest, RequestPortfolio.VerifyRequester_,
      RequestPortfolio.VerifyQty_, h]
  have h := AddRequest_appends fuelPortfolio 4 ⟨10⟩ (some 7) "fuelA" 0 false _ h0
  exact ⟨h0, h.2.1, h.2.2.1⟩

theorem setInsert_of_new_id (c : CapacityConstraint) (s : List CapacityConstraint) (n : Int)
    (h : ∀ e ∈ s, e.id_ < c.id_) :
    setInsert c s n = (c.copy n).map (fun cn => (s ++ [cn.1], cn.2)) := by
  induction s with
  | nil => rfl
  | cons e rest ih =>
    have he : e.lt c = true := by
      simp [CapacityConstraint.lt, h e (List.mem_cons_self _ _)]
    simp only [setInsert, he, if_true, ih (fun e he => h e (List.mem_cons_of_mem _ he))]
    cases c.copy n <;> rfl

/-- C15, on a portfolio without requests: its quantity is `-1`, the constructor of the
constraint fails its assertion `capacity_ > 0`, and `AddDefaultConstraint`
inserts nothing. -/
theorem AddDefaultConstraint_of_new_portfolio :
    (RequestPortfolio.new 0).qty = -1 ∧
    (RequestPortfolio.new 0).AddDefaultConstraint 0 = none := by
  refine ⟨rfl, ?_⟩
  have h : ¬ ((-1 : ℚ) > 0) := by norm_num
  simp [RequestPortfolio.AddDefaultConstraint, RequestPortfolio.new,
    CapacityConstraint.withConverter, h]

/-- C15, amended: on a portfolio whose quantity is positive (a request was added),
`AddDefaultConstraint` adds one constraint to the constraints it holds; its
capacity is the quantity of the portfolio, its category is `NONE`, and its
converter is a default coefficient converter with the coefficients the portfolio
has at the call. That constraint, its coefficients included, stays as it is in
the constraints of the portfolio through every later `AddRequest` and
`AddMutualReqs`. The static counter of ids is ahead of the ids of the
constraints held. -/
theorem AddDefaultConstraint_spec (p : RequestPortfolio) (next_id_ : Int)
    (hq : 0 < p.qty) (hid : ∀ e ∈ p.constraints, e.id_ < next_id_) :
    ∃ (c : CapacityConstraint) (p' : RequestPortfolio),
      p.AddDefaultConstraint next_id_ = some (p', next_id_ + 2) ∧
      p'.constraints = p.constraints ++ [c] ∧
      c.capacity_ = p.qty ∧ c.cap_type_ = NONE ∧
      c.converter_ = .DefaultCoeff p.default_constr_coeffs_ ∧
      p'.requests = p.requests ∧ p'.default_constr_coeffs_ = p.default_constr_coeffs_ ∧
      (∀ (addr : Nat) (target : Resource) (requester : Option Trader) (commodity : String)
          (preference : ℚ) (exclusive : Bool),
        (p'.AddRequest addr target requester commodity preference exclusive).2.constraints
          = p.constraints ++ [c]) ∧
      (∀ (rs : List Request) (p'' : RequestPortfolio),
        p'.AddMutualReqs rs = some p'' → p''.constraints = p.constraints ++ [c]) := by
  have hq' : p.qty_ > 0 := hq
  refine ⟨CapacityConstraint.mk p.qty_ NONE (.DefaultCoeff p.default_constr_coeffs_)
      (next_id_ + 1),
    RequestPortfolio.mk p.self p.requests_ p.default_constr_coeffs_
      (p.constraints_ ++ [CapacityConstraint.mk p.qty_ NONE
        (.DefaultCoeff p.default_constr_coeffs_) (next_id_ + 1)]) p.qty_ p.requester_,
    ?_, rfl, rfl, rfl, rfl, rfl, rfl, ?_, ?_⟩
  · simp only [RequestPortfolio.AddDefaultConstraint, CapacityConstraint.withConverter, hq',
      if_true]
    rw [setInsert_of_new_id (CapacityConstraint.mk p.qty_ NONE
      (.DefaultCoeff p.default_constr_coeffs_) next_id_) p.constraints_ (next_id_ + 1)
      (fun e he => hid e he)]
    simp only [CapacityConstraint.copy, hq', if_true, Option.map_some']
    have e : next_id_ + 1 + 1 = next_id_ + 2 := by ring
    rw [e]
  · intro addr target requester commodity preference exclusive
    simp only [RequestPortfolio.constraints]
    rw [RequestPortfolio.AddRequest_constraints]
  · intro rs p'' h
    simp only [RequestPortfolio.constraints]
    rw [RequestPortfolio.AddMutualReqs_constraints _ _ _ h]

/-- Scenario of C15 (and of S4): the portfolio of two requests of quantity 10 gets the
default constraint of capacity 10. -/
theorem AddDefaultConstraint_spec_witness :
    0 < fuelPortfolio.qty ∧ (∀ e ∈ fuelPortfolio.constraints, e.id_ < 0) ∧
    ∃ (c : CapacityConstraint) (p' : RequestPortfolio),
      fuelPortfolio.AddDefaultConstraint 0 = some (p', 2) ∧
      p'.constraints = [c] ∧ c.capacity_ = 10 ∧
      c.converter_ = .DefaultCoeff [(1, .finite 1), (2, .finite 1)] := by
  have hq : 0 < fuelPortfolio.qty := by
    rw [fuelPortfolio_eq]
    simp [RequestPortfolio.qty]
  have hid : ∀ e ∈ fuelPortfolio.constraints, e.id_ < 0 := by
    rw [fuelPortfolio_eq]
    simp [RequestPortfolio.constraints]
  obtain ⟨c, p', h1, h2, h3, -, h5, -⟩ := AddDefaultConstraint_spec fuelPortfolio 0 hq hid
  refine ⟨hq, hid, c, p', h1, ?_, ?_, ?_⟩
  · rw [h2, fuelPortfolio_eq]
    rfl
  · rw [h3, fuelPortfolio_eq]
    rfl
  · rw [h5, fuelPortfolio_eq]

/-! ## The ids of constraints -/

theorem construct_made (k : Construction) (cs : List CapacityConstraint) (n0 : Int)
    (c : CapacityConstraint) (n1 : Int)
    (h : (match k with
      | .withConverter capacity converter =>
        CapacityConstraint.withConverter capacity converter n0
      | .ofCapacity capacity => CapacityConstraint.ofCapacity capacity n0
      | .copy i =>
        match cs.get? i with
        | some other => other.copy n0
        | none => none) = some (c, n1)) :
    c.id_ = n0 ∧ n1 = n0 + 1 ∧
    ∀ i, k = .copy i → ∃ o, cs.get? i = some o ∧ c.capacity_ = o.capacity_ ∧
      c.converter_ = o.converter_ ∧ c.cap_type_ = o.cap_type_ := by
  cases k with
  | withConverter capacity converter =>
    simp only [CapacityConstraint.withConverter] at h
    split_ifs at h
    cases h
    exact ⟨rfl, rfl, fun i hi => by cases hi⟩
  | ofCapacity capacity =>
    simp only [CapacityConstraint.ofCapacity] at h
    split_ifs at h
    cases h
    exact ⟨rfl, rfl, fun i hi => by cases hi⟩
  | copy i =>
    change (match cs.get? i with
      | some other => other.copy n0
      | none => none) = some (c, n1) at h
    cases ho : cs.get? i with
    | none =>
      rw [ho] at h
      cases h
    | some o =>
      rw [ho] at h
      simp only [CapacityConstraint.copy] at h
      split_ifs at h
      cases h
      refine ⟨rfl, rfl, fun i' hi => ?_⟩
      cases hi
      exact ⟨o, ho, rfl, rfl, rfl⟩

theorem construct_spec (ks : List Construction) (cs0 : List CapacityConstraint) (n0 : Int)
    (cs : List CapacityConstraint) (n : Int) (h : construct ks (cs0, n0) = some (cs, n)) :
    ∃ made : List CapacityConstraint, cs = cs0 ++ made ∧ made.length = ks.length ∧
      n = n0 + ks.length ∧
      made.map (fun c => c.id_) = (List.range ks.length).map (fun (j : Nat) => n0 + (j : Int)) ∧
      ∀ i j, ks.get? j = some (.copy i) → ∃ o c, cs.get? i = some o ∧ made.get? j = some c ∧
        i < cs0.length + j ∧ c.capacity_ = o.capacity_ ∧ c.converter_ = o.converter_ ∧
        c.cap_type_ = o.cap_type_ := by
  induction ks generalizing cs0 n0 with
  | nil =>
    simp only [construct, Option.some.injEq, Prod.mk.injEq] at h
    exact ⟨[], by simp [h.1], rfl, by simp [h.2], rfl, fun i j hj => by simp at hj⟩
  | cons k rest ih =>
    simp only [construct] at h
    split at h
    · rename_i c n1 hmade
      obtain ⟨hid, hn1, hcopy⟩ := construct_made k cs0 n0 c n1 hmade
      obtain ⟨made, e1, e2, e3, e4, e5⟩ := ih (cs0 ++ [c]) n1 h
      refine ⟨c :: made, by simp [e1], by simp [e2], ?_, ?_, ?_⟩
      · rw [e3, hn1]
        simp only [List.length_cons]
        push_cast
        ring
      · simp only [List.length_cons]
        rw [List.map_cons, e4, hid, hn1, List.range_succ_eq_map]
        simp only [List.map_cons, List.map_map, Function.comp_def, Nat.cast_zero, add_zero,
          Nat.cast_succ, List.cons.injEq, true_and]
        apply List.map_congr_left
        intro a _
        ring
      · intro i j hj
        cases j with
        | zero =>
          simp only [List.get?_cons_zero, Option.some.injEq] at hj
          obtain ⟨o, ho, f1, f2, f3⟩ := hcopy i hj
          have hi : i < cs0.length := by
            rcases Nat.lt_or_ge i cs0.length with hlt | hge
            · exact hlt
            · rw [List.get?_eq_none.mpr hge] at ho
              cases ho
          refine ⟨o, c, ?_, rfl, by omega, f1, f2, f3⟩
          rw [e1, List.append_assoc, List.get?_eq_getElem?, List.getElem?_append_left hi,
            ← List.get?_eq_getElem?]
          exact ho
        | succ j =>
          simp only [List.get?_cons_succ] at hj
          obtain ⟨o, c', g1, g2, g3, g4⟩ := e5 i j hj
          refine ⟨o, c', g1, by simpa using g2, ?_, g4⟩
          simp only [List.length_append, List.length_singleton] at g3
          omega
    · cases h

/-- C20: the constructions of a program run in order, by either constructor or by
copy, while the assertions hold and the counter stays within `int`. The
constraints constructed have the ids `0, 1, 2, ...` in the order of
construction: the ids strictly increase and are pairwise distinct. A copy has
the capacity, the converter and the category of its original, which was
constructed before it, and another id. -/
theorem construct_ids_unique (ks : List Construction) (cs : List CapacityConstraint) (n : Int)
    (h : construct ks ([], 0) = some (cs, n)) :
    cs.length = ks.length ∧ n = ks.length ∧
    cs.map (fun c => c.id_) = (List.range ks.length).map (fun (j : Nat) => (j : Int)) ∧
    (cs.map (fun c => c.id_)).Sorted (· < ·) ∧
    (cs.map (fun c => c.id_)).Nodup ∧
    ∀ i j, ks.get? j = some (.copy i) → ∃ o c, cs.get? i = some o ∧ cs.get? j = some c ∧
      i < j ∧ c.capacity_ = o.capacity_ ∧ c.converter_ = o.converter_ ∧
      c.cap_type_ = o.cap_type_ ∧ o.id_ < c.id_ ∧ c.id_ ≠ o.id_ := by
  obtain ⟨made, e1, e2, e3, e4, e5⟩ := construct_spec ks [] 0 cs n h
  simp only [List.nil_append] at e1
  subst e1
  simp only [zero_add] at e3 e4
  have hsorted : (cs.map (fun c => c.id_)).Sorted (· < ·) := by
    rw [e4]
    apply List.Pairwise.map (R := (· < ·)) _ _ (List.pairwise_lt_range _)
    intro a b hab
    exact_mod_cast hab
  have hid : ∀ j c, cs.get? j = some c → c.id_ = (j : Int) := by
    intro j c hj
    have hlt : j < ks.length := by
      rw [← e2]
      exact (List.get?_eq_some.mp hj).1
    have h1 : (cs.map (fun c => c.id_)).get? j = some c.id_ := by
      rw [List.get?_eq_getElem?, List.getElem?_map, ← List.get?_eq_getElem?, hj]
      rfl
    rw [e4, List.get?_eq_getElem?, List.getElem?_map, List.getElem?_range hlt] at h1
    simpa using h1.symm
  refine ⟨e2, e3, e4, hsorted, hsorted.nodup, ?_⟩
  intro i j hj
  obtain ⟨o, c, g1, g2, g3, g4, g5, g6⟩ := e5 i j hj
  have hij : i < j := by simpa using g3
  have ho := hid i o g1
  have hc := hid j c g2
  have hlt : o.id_ < c.id_ := by rw [ho, hc]; exact_mod_cast hij
  exact ⟨o, c, g1, g2, hij, g4, g5, g6, hlt, ne_of_gt hlt⟩

/-- Scenario of C20: a constraint of capacity 5, a constraint with a coefficient
converter, and a copy of the first. -/
theorem construct_ids_unique_witness :
    ∃ cs n, construct [.ofCapacity 5, .withConverter 3 (.DefaultCoeff []), .copy 0] ([], 0)
        = some (cs, n) ∧
      cs.map (fun c => c.id_) = [0, 1, 2] ∧ n = 3 := by
  have h5 : (5 : ℚ) > 0 := by norm_num
  have h3 : (3 : ℚ) > 0 := by norm_num
  have h : construct [.ofCapacity 5, .withConverter 3 (.DefaultCoeff []), .copy 0] ([], 0)
      = some ([⟨5, NONE, .Trivial, 0⟩, ⟨3, NONE, .DefaultCoeff [], 1⟩, ⟨5, NONE, .Trivial, 2⟩],
        3) := by
    simp [construct, CapacityConstraint.ofCapacity, CapacityConstraint.withConverter,
      CapacityConstraint.copy, h5, h3]
  have hw := construct_ids_unique _ _ _ h
  exact ⟨_, _, h, hw.2.2.1, hw.2.1⟩

/-! ## The default coefficient converter -/

/-- C16: `DefaultCoeffConverter::convert(offer, arc, ctx)`, called with an arc and a
context. When `ctx.node_to_request` holds the u-node of the arc, and the
coefficients hold the request found there, the result is `offer.quantity()`
times the coefficient of that request. When `ctx.node_to_request` does not hold
the u-node, the call throws `std::out_of_range` and returns no value; so it does
when the coefficients do not hold the request. -/
theorem DefaultCoeffConverter_convert (coeffs : OMap Nat Double) (offer : Resource) (a : Arc)
    (ctx : ExchangeTranslationContext) :
    (∀ (r : Request) (c : Double), ctx.node_to_request.find? a.unode = some r →
      coeffs.find? r.addr = some c →
      (Converter.DefaultCoeff coeffs).convert offer (some a) (some ctx)
        = some (.ok (Double.mul offer.quantity c))) ∧
    (ctx.node_to_request.find? a.unode = none →
      (Converter.DefaultCoeff coeffs).convert offer (some a) (some ctx)
        = some (.error .out_of_range)) ∧
    (∀ r : Request, ctx.node_to_request.find? a.unode = some r →
      coeffs.find? r.addr = none →
      (Converter.DefaultCoeff coeffs).convert offer (some a) (some ctx)
        = some (.error .out_of_range)) := by
  refine ⟨?_, ?_, ?_⟩
  · intro r c h1 h2
    simp [Converter.convert, OMap.at, h1, h2]
  · intro h1
    simp [Converter.convert, OMap.at, h1]
  · intro r h1 h2
    simp [Converter.convert, OMap.at, h1, h2]

/-- Scenario of C16: the request at node 50 has the coefficient 3/2, and an offer of 4
converts to 6 on an arc from node 50; on an arc from node 51, which the context
does not know, the call throws. -/
theorem DefaultCoeffConverter_convert_witness :
    (Converter.DefaultCoeff [(1, .finite (3 / 2))]).convert ⟨4⟩ (some ⟨50, 60⟩)
        (some oneNodeContext) = some (.ok (.finite 6)) ∧
    (Converter.DefaultCoeff [(1, .finite (3 / 2))]).convert ⟨4⟩ (some ⟨51, 60⟩)
        (some oneNodeContext) = some (.error .out_of_range) := by
  have h := DefaultCoeffConverter_convert [(1, .finite (3 / 2))] ⟨4⟩ ⟨50, 60⟩ oneNodeContext
  have h' := DefaultCoeffConverter_convert [(1, .finite (3 / 2))] ⟨4⟩ ⟨51, 60⟩ oneNodeContext
  refine ⟨?_, h'.2.1 (by decide)⟩
  have e := h.1 ⟨1, ⟨10⟩, some 7, 0, "fuelA", 0, false⟩ (.finite (3 / 2)) (by decide) rfl
  rw [e]
  have : (4 : ℚ) * (3 / 2) = 6 := by norm_num
  simp [Double.mul, this]

/-! ## The exchange context -/

theorem mem_ptrSetInsert (a x : Nat) (s : List Nat) :
    x ∈ ptrSetInsert a s ↔ x = a ∨ x ∈ s := by
  induction s with
  | nil => simp [ptrSetInsert]
  | cons b rest ih =>
    simp only [ptrSetInsert]
    split_ifs with h1 h2
    · simp only [List.mem_cons, ih]
      tauto
    · subst h2
      simp only [List.mem_cons]
      tauto
    · simp only [List.mem_cons]

theorem find?_alter_self_String {ν : Type} (k : String) (f : Option ν → ν)
    (m : OMap String ν) (hm : m.WF) :
    OMap.find? (OMap.alter k f m) k = some (f (OMap.find? m k)) := by
  have e : instDecidableEqString = (fun a b => instDecidableEq_mathlib a b) :=
    Subsingleton.elim _ _
  rw [e]
  exact OMap.find?_alter_self k f m hm

theorem find?_alter_ne_String {ν : Type} (k k' : String) (f : Option ν → ν)
    (m : OMap String ν) (h : k' ≠ k) :
    OMap.find? (OMap.alter k f m) k' = OMap.find? m k' := by
  have e : instDecidableEqString = (fun a b => instDecidableEq_mathlib a b) :=
    Subsingleton.elim _ _
  rw [e]
  exact OMap.find?_alter_ne k k' f m h

namespace ExchangeContext

theorem foldlM_AddRequest (rs : List Request) (ctx : ExchangeContext)
    (hreq : ∀ r ∈ rs, r.requester ≠ none) (hwf : ctx.commod_requests.WF) :
    ∃ ctx', rs.foldlM AddRequest ctx = some ctx' ∧
      ctx'.requests = ctx.requests ∧
      (∀ t, t ∈ ctx'.requesters ↔ (t ∈ ctx.requesters ∨ ∃ r ∈ rs, r.requester = some t)) ∧
      (∀ c, ctx'.commod_requests.get c []
        = ctx.commod_requests.get c [] ++ rs.filter (fun r => r.commodity = c)) ∧
      ctx'.commod_requests.WF ∧
      ctx'.bids = ctx.bids ∧ ctx'.bidders = ctx.bidders ∧
      ctx'.bids_by_request = ctx.bids_by_request ∧ ctx'.trader_prefs = ctx.trader_prefs := by
  induction rs generalizing ctx with
  | nil =>
    exact ⟨ctx, rfl, rfl, by simp, by simp, hwf, rfl, rfl, rfl, rfl⟩
  | cons r rest ih =>
    have hr := hreq r (List.mem_cons_self _ _)
    obtain ⟨t, ht⟩ := Option.ne_none_iff_exists'.mp hr
    have hstep : ctx.AddRequest r = some { ctx with
        requesters := ptrSetInsert t ctx.requesters,
        commod_requests := ctx.commod_requests.alter r.commodity (fun o => o.getD [] ++ [r]) } := by
      simp [AddRequest, ht]
    obtain ⟨ctx', h1, h2, h3, h4, h5, h6, h7, h8, h9⟩ := ih
      { ctx with
        requesters := ptrSetInsert t ctx.requesters,
        commod_requests := ctx.commod_requests.alter r.commodity (fun o => o.getD [] ++ [r]) }
      (fun r' hr' => hreq r' (List.mem_cons_of_mem _ hr'))
      (OMap.alter_WF r.commodity (fun o => o.getD [] ++ [r]) _ hwf)
    refine ⟨ctx', ?_, h2, ?_, ?_, h5, h6, h7, h8, h9⟩
    · rw [List.foldlM_cons, hstep]
      exact h1
    · intro x
      rw [h3 x]
      simp only [mem_ptrSetInsert, List.mem_cons, exists_eq_or_imp, ht, Option.some.injEq]
      constructor
      · rintro ((rfl | h) | h)
        · exact Or.inr (Or.inl rfl)
        · exact Or.inl h
        · exact Or.inr (Or.inr h)
      · rintro (h | rfl | h)
        · exact Or.inl (Or.inr h)
        · exact Or.inl (Or.inl rfl)
        · exact Or.inr h
    · intro c
      rw [h4 c]
      simp only [OMap.get]
      by_cases hc : r.commodity = c
      · subst hc
        rw [find?_alter_self_String _ _ _ hwf]
        simp [List.filter_cons]
      · rw [find?_alter_ne_String _ _ _ _ (Ne.symm hc)]
        simp [List.filter_cons, hc]

end ExchangeContext

/-- C18: `AddRequestPortfolio(p)` on a context, for a portfolio whose requests have a
requester that is not null: the call returns; `p` is the last element of
`requests`; `requesters` holds what it held and the requesters of the requests
of `p`, those in particular; for every commodity `c`, `commod_requests[c]` is
its former value followed by the requests of `p` of commodity `c`, in the order
of the portfolio; and `bids`, `bidders`, `bids_by_request` and `trader_prefs`
are as before. `commod_requests` is a map: its keys ascend. -/
theorem AddRequestPortfolio_spec (ctx : ExchangeContext) (p : RequestPortfolio)
    (hreq : ∀ r ∈ p.requests, r.requester ≠ none) (hwf : ctx.commod_requests.WF) :
    ∃ ctx', ctx.AddRequestPortfolio p = some ctx' ∧
      ctx'.requests = ctx.requests ++ [p] ∧
      (∀ r ∈ p.requests, ∀ t, r.requester = some t → t ∈ ctx'.requesters) ∧
      (∀ t, t ∈ ctx'.requesters ↔
        (t ∈ ctx.requesters ∨ ∃ r ∈ p.requests, r.requester = some t)) ∧
      (∀ c, ctx'.commod_requests.get c []
        = ctx.commod_requests.get c [] ++ p.requests.filter (fun r => r.commodity = c)) ∧
      ctx'.bids = ctx.bids ∧ ctx'.bidders = ctx.bidders ∧
      ctx'.bids_by_request = ctx.bids_by_request ∧ ctx'.trader_prefs = ctx.trader_prefs := by
  obtain ⟨ctx', h1, h2, h3, h4, -, h6, h7, h8, h9⟩ :=
    ExchangeContext.foldlM_AddRequest p.requests { ctx with requests := ctx.requests ++ [p] }
      hreq hwf
  exact ⟨ctx', h1, h2, fun r hr t ht => (h3 t).mpr (Or.inr ⟨r, hr, ht⟩), h3, h4, h6, h7, h8, h9⟩


theorem OMap.mem_alter_origin {κ ν : Type} [LinearOrder κ] (k : κ) (f : Option ν → ν)
    (m : OMap κ ν) (e : κ × ν) (he : e ∈ OMap.alter k f m) :
    e = (k, f none) ∨ (∃ v, (k, v) ∈ m ∧ e = (k, f (some v))) ∨ e ∈ m := by
  induction m with
  | nil =>
    simp only [OMap.alter, List.mem_singleton] at he
    exact Or.inl he
  | cons e0 rest ih =>
    obtain ⟨k0, v⟩ := e0
    simp only [OMap.alter] at he
    split_ifs at he with h1 h2
    · rcases List.mem_cons.mp he with rfl | he
      · exact Or.inr (Or.inr (List.mem_cons_self _ _))
      · rcases ih he with h | ⟨w, hw, h⟩ | h
        · exact Or.inl h
        · exact Or.inr (Or.inl ⟨w, List.mem_cons_of_mem _ hw, h⟩)
        · exact Or.inr (Or.inr (List.mem_cons_of_mem _ h))
    · rcases List.mem_cons.mp he with rfl | he
      · subst h2
        exact Or.inr (Or.inl ⟨v, List.mem_cons_self _ _, rfl⟩)
      · exact Or.inr (Or.inr (List.mem_cons_of_mem _ he))
    · rcases List.mem_cons.mp he with rfl | he
      · exact Or.inl rfl
      · exact Or.inr (Or.inr he)

theorem OMap.WF_nil {κ ν : Type} [LinearOrder κ] : OMap.WF ([] : OMap κ ν) := by
  simp [OMap.WF]

theorem PrefsWF_seed (m : OMap Nat (OMap Nat (OMap Nat ℚ))) (hm : PrefsWF m) (k1 k2 k3 : Nat)
    (v : ℚ) :
    PrefsWF (OMap.alter k1 (fun (byRequest : Option (OMap Nat (OMap Nat ℚ))) =>
      OMap.alter k2 (fun (byBid : Option (OMap Nat ℚ)) => OMap.touch k3 v (byBid.getD []))
        (byRequest.getD [])) m) := by
  obtain ⟨h1, h2⟩ := hm
  have inner : ∀ m1 : OMap Nat (OMap Nat ℚ), (m1.WF ∧ ∀ e' ∈ m1, OMap.WF e'.2) →
      ((OMap.alter k2 (fun (byBid : Option (OMap Nat ℚ)) => OMap.touch k3 v (byBid.getD []))
          m1).WF ∧
        ∀ e' ∈ OMap.alter k2
            (fun (byBid : Option (OMap Nat ℚ)) => OMap.touch k3 v (byBid.getD [])) m1,
          OMap.WF e'.2) := by
    intro m1 hm1
    refine ⟨OMap.alter_WF _ _ _ hm1.1, ?_⟩
    intro e' he'
    rcases OMap.mem_alter_origin _ _ _ _ he' with h | ⟨w, hw, h⟩ | h
    · rw [h]
      exact OMap.alter_WF _ _ _ OMap.WF_nil
    · rw [h]
      exact OMap.alter_WF _ _ _ (hm1.2 _ hw)
    · exact hm1.2 _ h
  refine ⟨OMap.alter_WF _ _ _ h1, ?_⟩
  intro e he
  rcases OMap.mem_alter_origin _ _ _ _ he with h | ⟨w, hw, h⟩ | h
  · rw [h]
    exact inner [] ⟨OMap.WF_nil, by simp⟩
  · rw [h]
    exact inner w (h2 _ hw)
  · exact h2 _ h

theorem touch_find? (k3 k : Nat) (v : ℚ) (m : OMap Nat ℚ) (hm : m.WF) :
    OMap.find? (OMap.touch k3 v m) k
      = if k = k3 then some ((OMap.find? m k3).getD v) else OMap.find? m k := by
  unfold OMap.touch
  split_ifs with h
  · subst h
    rw [OMap.find?_alter_self _ _ _ hm]
  · rw [OMap.find?_alter_ne _ _ _ _ h]

theorem prefLookup_seed (m : OMap Nat (OMap Nat (OMap Nat ℚ))) (hm : PrefsWF m)
    (k1 k2 k3 : Nat) (v : ℚ) (a b c : Nat) :
    prefLookup (OMap.alter k1 (fun (byRequest : Option (OMap Nat (OMap Nat ℚ))) =>
        OMap.alter k2 (fun (byBid : Option (OMap Nat ℚ)) => OMap.touch k3 v (byBid.getD []))
          (byRequest.getD [])) m) a b c
      = if a = k1 ∧ b = k2 ∧ c = k3 then some ((prefLookup m k1 k2 k3).getD v)
        else prefLookup m a b c := by
  obtain ⟨h1, h2⟩ := hm
  unfold prefLookup
  by_cases ha : a = k1
  · subst ha
    rw [OMap.find?_alter_self _ _ _ h1]
    have hm1 : ((OMap.find? m a).getD []).WF ∧
        ∀ e' ∈ (OMap.find? m a).getD [], OMap.WF e'.2 := by
      cases hf : OMap.find? m a with
      | none => exact ⟨OMap.WF_nil, by simp⟩
      | some m1 => exact h2 _ (OMap.mem_of_find? _ _ _ hf)
    simp only [Option.some_bind]
    by_cases hb : b = k2
    · subst hb
      rw [OMap.find?_alter_self _ _ _ hm1.1]
      have hm2 : ((OMap.find? ((OMap.find? m a).getD []) b).getD []).WF := by
        cases hf : OMap.find? ((OMap.find? m a).getD []) b with
        | none => exact OMap.WF_nil
        | some m2 => exact hm1.2 _ (OMap.mem_of_find? _ _ _ hf)
      simp only [Option.some_bind]
      rw [touch_find? _ _ _ _ hm2]
      by_cases hc : c = k3
      · subst hc
        simp only [and_self, if_true]
        cases hf : OMap.find? m a with
        | none => simp [OMap.find?]
        | some m1 =>
          simp only [Option.getD_some, Option.some_bind]
          cases hg : OMap.find? m1 b with
          | none => simp [OMap.find?]
          | some m2 => simp
      · simp only [hc, and_false, if_false]
        cases hf : OMap.find? m a with
        | none => simp [OMap.find?]
        | some m1 =>
          simp only [Option.getD_some, Option.some_bind]
          cases hg : OMap.find? m1 b with
          | none => simp [OMap.find?]
          | some m2 => simp
    · simp only [hb, false_and, and_false, if_false]
      rw [OMap.find?_alter_ne _ _ _ _ hb]
      cases hf : OMap.find? m a with
      | none => simp [OMap.find?]
      | some m1 => simp
  · simp only [ha, false_and, if_false]
    rw [OMap.find?_alter_ne _ _ _ _ ha]


namespace ExchangeContext

theorem AddBid_eq (ctx : ExchangeContext) (b : Bid) (t : Trader) (ht : b.bidder = some t) :
    ctx.AddBid b = some { ctx with
      bidders := ptrSetInsert t ctx.bidders,
      bids_by_request := ctx.bids_by_request.alter b.request.addr (fun o => o.getD [] ++ [b]),
      trader_prefs := ctx.trader_prefs.alter (ptrKey b.request.requester)
        (fun (byRequest : Option (OMap Nat (OMap Nat ℚ))) =>
          OMap.alter b.request.addr
            (fun (byBid : Option (OMap Nat ℚ)) =>
              OMap.touch b.addr b.request.preference (byBid.getD []))
            (byRequest.getD [])) } := by
  simp [AddBid, ht]

theorem foldlM_AddBid (bs : List Bid) (ctx : ExchangeContext)
    (hbid : ∀ b ∈ bs, b.bidder ≠ none) (hnd : (bs.map (fun b => b.addr)).Nodup)
    (hwf1 : ctx.bids_by_request.WF) (hwf2 : PrefsWF ctx.trader_prefs) :
    ∃ ctx', bs.foldlM AddBid ctx = some ctx' ∧
      ctx'.bids = ctx.bids ∧
      (∀ t, t ∈ ctx'.bidders ↔ (t ∈ ctx.bidders ∨ ∃ b ∈ bs, b.bidder = some t)) ∧
      (∀ a, ctx'.bids_by_request.get a []
        = ctx.bids_by_request.get a [] ++ bs.filter (fun b => b.request.addr = a)) ∧
      (∀ b ∈ bs,
        prefLookup ctx'.trader_prefs (ptrKey b.request.requester) b.request.addr b.addr
          = some ((prefLookup ctx.trader_prefs (ptrKey b.request.requester) b.request.addr
              b.addr).getD b.request.preference)) ∧
      (∀ k1 k2 k3, (∀ b ∈ bs, b.addr ≠ k3) →
        prefLookup ctx'.trader_prefs k1 k2 k3 = prefLookup ctx.trader_prefs k1 k2 k3) ∧
      ctx'.bids_by_request.WF ∧ PrefsWF ctx'.trader_prefs ∧
      ctx'.requests = ctx.requests ∧ ctx'.requesters = ctx.requesters ∧
      ctx'.commod_requests = ctx.commod_requests := by
  induction bs generalizing ctx with
  | nil =>
    exact ⟨ctx, rfl, rfl, by simp, by simp, by simp, fun _ _ _ _ => rfl, hwf1, hwf2, rfl, rfl,
      rfl⟩
  | cons b rest ih =>
    have hb := hbid b (List.mem_cons_self _ _)
    obtain ⟨t, ht⟩ := Option.ne_none_iff_exists'.mp hb
    have hstep := AddBid_eq ctx b t ht
    simp only [List.map_cons, List.nodup_cons, List.mem_map, not_exists, not_and] at hnd
    obtain ⟨ctx', h1, h2, h3, h4, h5, h6, h7, h8, h9, h10, h11⟩ := ih
      { ctx with
        bidders := ptrSetInsert t ctx.bidders,
        bids_by_request :=
          ctx.bids_by_request.alter b.request.addr (fun o => o.getD [] ++ [b]),
        trader_prefs := ctx.trader_prefs.alter (ptrKey b.request.requester)
          (fun (byRequest : Option (OMap Nat (OMap Nat ℚ))) =>
            OMap.alter b.request.addr
              (fun (byBid : Option (OMap Nat ℚ)) =>
                OMap.touch b.addr b.request.preference (byBid.getD []))
              (byRequest.getD [])) }
      (fun b' hb' => hbid b' (List.mem_cons_of_mem _ hb')) hnd.2
      (OMap.alter_WF _ _ _ hwf1) (PrefsWF_seed _ hwf2 _ _ _ _)
    refine ⟨ctx', ?_, h2, ?_, ?_, ?_, ?_, h7, h8, h9, h10, h11⟩
    · rw [List.foldlM_cons, hstep]
      exact h1
    · intro x
      rw [h3 x]
      simp only [mem_ptrSetInsert, List.mem_cons, exists_eq_or_imp, ht, Option.some.injEq]
      constructor
      · rintro ((rfl | h) | h)
        · exact Or.inr (Or.inl rfl)
        · exact Or.inl h
        · exact Or.inr (Or.inr h)
      · rintro (h | rfl | h)
        · exact Or.inl (Or.inr h)
        · exact Or.inl (Or.inl rfl)
        · exact Or.inr h
    · intro a
      rw [h4 a]
      simp only [OMap.get]
      by_cases hc : b.request.addr = a
      · subst hc
        rw [OMap.find?_alter_self _ _ _ hwf1]
        simp [List.filter_cons]
      · rw [OMap.find?_alter_ne _ _ _ _ (Ne.symm hc)]
        simp [List.filter_cons, hc]
    · intro b' hb'
      rcases List.mem_cons.mp hb' with rfl | hb'
      · rw [h6 _ _ _ (fun b'' hb'' h => hnd.1 b'' hb'' h)]
        simp only
        rw [prefLookup_seed _ hwf2]
        simp
      · rw [h5 b' hb']
        simp only
        rw [prefLookup_seed _ hwf2]
        have : ¬ (b'.addr = b.addr) := fun h => hnd.1 b' hb' h
        simp [this]
    · intro k1 k2 k3 hk
      rw [h6 k1 k2 k3 (fun b' hb' => hk b' (List.mem_cons_of_mem _ hb'))]
      simp only
      rw [prefLookup_seed _ hwf2]
      have : ¬ (k3 = b.addr) := fun h => hk b (List.mem_cons_self _ _) h.symm
      simp [this]

end ExchangeContext

/-- C17, on a context that already has a preference for the bid: the portfolio of bid
30 is added to a context in which trader 7 has the preference 5 for that bid on
its request; `AddBid` enters the preference with `insert`, which leaves the entry
as it is, so that afterwards the preference is 5 and not the preference 2 of the
request. -/
theorem AddBidPortfolio_keeps_a_preference :
    ∃ ctx', adjustedContext.AddBidPortfolio bidPortfolio90 = some ctx' ∧
      ctx'.pref (some 7) 1 30 = some 5 ∧
      ∃ b ∈ bidPortfolio90.bids,
        ctx'.pref b.request.requester b.request.addr b.addr ≠ some b.request.preference := by
  refine ⟨{ adjustedContext with
      bids := [bidPortfolio90, bidPortfolio90],
      bids_by_request := [(1, [bid30, bid30])] }, ?_, ?_, bid30, ?_, ?_⟩
  · simp [ExchangeContext.AddBidPortfolio, ExchangeContext.AddBid, adjustedContext,
      bidPortfolio90, BidPortfolio.bids, bid30, ptrSetInsert, OMap.alter, OMap.touch, ptrKey]
  · simp [ExchangeContext.pref, prefLookup, adjustedContext, OMap.find?, ptrKey]
  · simp [bidPortfolio90, BidPortfolio.bids]
  · simp [ExchangeContext.pref, prefLookup, adjustedContext, OMap.find?, ptrKey, bid30]

/-- C17, amended: `AddBidPortfolio(p)` on a context, for a portfolio whose bids have a
bidder that is not null: the call returns; `p` is the last element of `bids`;
the bidder of every bid of `p` is in `bidders`; for every request,
`bids_by_request` of it is its former value followed by the bids of `p` on that
request, in the order of the set; and for every bid `b` of `p` on a request `r`,
`trader_prefs[r.requester][r][b]` is the entry the context had there, and
`r.preference` when it had none. `requests`, `requesters` and `commod_requests`
are as before. The maps of the context are maps, and the bids of `p` are a set
of pointers: their addresses ascend. -/
theorem AddBidPortfolio_spec (ctx : ExchangeContext) (p : BidPortfolio)
    (hbid : ∀ b ∈ p.bids, b.bidder ≠ none)
    (hset : (p.bids.map (fun b => b.addr)).Sorted (· < ·)) (hwf : ctx.WF) :
    ∃ ctx', ctx.AddBidPortfolio p = some ctx' ∧
      ctx'.bids = ctx.bids ++ [p] ∧
      (∀ b ∈ p.bids, ∀ t, b.bidder = some t → t ∈ ctx'.bidders) ∧
      (∀ a, ctx'.bids_by_request.get a []
        = ctx.bids_by_request.get a [] ++ p.bids.filter (fun b => b.request.addr = a)) ∧
      (∀ b ∈ p.bids, b ∈ ctx'.bids_by_request.get b.request.addr []) ∧
      (∀ b ∈ p.bids,
        ctx'.pref b.request.requester b.request.addr b.addr
          = some ((ctx.pref b.request.requester b.request.addr b.addr).getD
              b.request.preference)) ∧
      (∀ b ∈ p.bids, ctx.pref b.request.requester b.request.addr b.addr = none →
        ctx'.pref b.request.requester b.request.addr b.addr = some b.request.preference) ∧
      ctx'.requests = ctx.requests ∧ ctx'.requesters = ctx.requesters ∧
      ctx'.commod_requests = ctx.commod_requests := by
  obtain ⟨-, hw1, hw2⟩ := hwf
  obtain ⟨ctx', h1, h2, h3, h4, h5, -, -, -, h9, h10, h11⟩ :=
    ExchangeContext.foldlM_AddBid p.bids { ctx with bids := ctx.bids ++ [p] } hbid hset.nodup
      hw1 hw2
  refine ⟨ctx', h1, h2, fun b hb t ht => (h3 t).mpr (Or.inr ⟨b, hb, ht⟩), h4, ?_, h5, ?_, h9,
    h10, h11⟩
  · intro b hb
    rw [h4]
    exact List.mem_append_right _ (List.mem_filter.mpr ⟨hb, by simp⟩)
  · intro b hb hnone
    have := h5 b hb
    simp only [ExchangeContext.pref] at hnone ⊢
    rw [this, hnone]
    rfl

/-- Scenario of C17: the portfolio of bid 30 is added to a context in which nothing was
entered. -/
theorem AddBidPortfolio_spec_witness :
    (∀ b ∈ bidPortfolio90.bids, b.bidder ≠ none) ∧ emptyContext.WF ∧
    ∃ ctx', emptyContext.AddBidPortfolio bidPortfolio90 = some ctx' ∧
      ctx'.bids = [bidPortfolio90] ∧ 8 ∈ ctx'.bidders ∧
      ctx'.bids_by_request.get 1 [] = [bid30] ∧
      ctx'.pref (some 7) 1 30 = some 2 := by
  have hbid : ∀ b ∈ bidPortfolio90.bids, b.bidder ≠ none := by
    simp [bidPortfolio90, BidPortfolio.bids, bid30]
  have hset : (bidPortfolio90.bids.map (fun b => b.addr)).Sorted (· < ·) := by
    simp [bidPortfolio90, BidPortfolio.bids]
  have hwf : emptyContext.WF := by
    simp [ExchangeContext.WF, PrefsWF, OMap.WF, emptyContext]
  obtain ⟨ctx', h1, h2, h3, h4, -, -, h7, -⟩ :=
    AddBidPortfolio_spec emptyContext bidPortfolio90 hbid hset hwf
  refine ⟨hbid, hwf, ctx', h1, h2, h3 bid30 (by simp [bidPortfolio90, BidPortfolio.bids]) 8 rfl,
    ?_, ?_⟩
  · rw [h4]
    simp [emptyContext, OMap.get, OMap.find?, bidPortfolio90, BidPortfolio.bids, bid30]
  · exact h7 bid30 (by simp [bidPortfolio90, BidPortfolio.bids]) rfl

/-- Scenario of C18: the portfolio of two requests of trader 7, one for each fuel, is
added to a context in which nothing was entered. -/
theorem AddRequestPortfolio_spec_witness :
    (∀ r ∈ fuelPortfolio.requests, r.requester ≠ none) ∧ emptyContext.commod_requests.WF ∧
    ∃ ctx', emptyContext.AddRequestPortfolio fuelPortfolio = some ctx' ∧
      ctx'.requests = [fuelPortfolio] ∧ 7 ∈ ctx'.requesters ∧
      ctx'.commod_requests.get "fuelB" [] = [⟨2, ⟨10⟩, some 7, 0, "fuelB", 0, false⟩] := by
  have hreq : ∀ r ∈ fuelPortfolio.requests, r.requester ≠ none := by
    rw [fuelPortfolio_eq]
    simp [RequestPortfolio.requests]
  have hwf : emptyContext.commod_requests.WF := OMap.WF_nil
  obtain ⟨ctx', h1, h2, h3, -, h5, -⟩ := AddRequestPortfolio_spec emptyContext fuelPortfolio hreq hwf
  refine ⟨hreq, hwf, ctx', h1, h2, ?_, ?_⟩
  · apply h3 ⟨1, ⟨10⟩, some 7, 0, "fuelA", 0, false⟩ _ 7 rfl
    rw [fuelPortfolio_eq]
    simp [RequestPortfolio.requests]
  · rw [h5, fuelPortfolio_eq]
    simp [emptyContext, OMap.get, OMap.find?, RequestPortfolio.requests, List.filter_cons]

/-! ## The trivial converter -/

/-- C21: for every resource `x`, every arc and every translation context, absent ones
(null pointers) included, `TrivialConverter::convert(x, arc, ctx)` is
`x.quantity()`; and a constraint built by `CapacityConstraint(capacity)`
converts `x` to `x.quantity()`. -/
theorem TrivialConverter_convert (x : Resource) (a : Option Arc)
    (ctx : Option ExchangeTranslationContext) :
    Converter.Trivial.convert x a ctx = some (.ok (.finite x.quantity)) ∧
    ∀ (capacity : ℚ) (next_id_ : Int) (c : CapacityConstraint) (n : Int),
      CapacityConstraint.ofCapacity capacity next_id_ = some (c, n) →
      c.convert x a ctx = some (.ok (.finite x.quantity)) := by
  refine ⟨rfl, ?_⟩
  intro capacity next_id_ c n h
  simp only [CapacityConstraint.ofCapacity] at h
  split_ifs at h
  cases h
  rfl

/-- Scenario of C21: the constraint of capacity 5 converts an offer of 20 to 20, with
no arc and no context, and with an arc and a context. -/
theorem TrivialConverter_convert_witness :
    CapacityConstraint.ofCapacity 5 0 = some (fiveCap, 1) ∧
    fiveCap.convert ⟨20⟩ none none = some (.ok (.finite 20)) ∧
    fiveCap.convert ⟨20⟩ (some ⟨50, 60⟩) (some oneNodeContext) = some (.ok (.finite 20)) := by
  have h : CapacityConstraint.ofCapacity 5 0 = some (fiveCap, 1) := by
    have h5 : (5 : ℚ) > 0 := by norm_num
    simp [CapacityConstraint.ofCapacity, fiveCap, h5]
  exact ⟨h, (TrivialConverter_convert ⟨20⟩ none none).2 5 0 fiveCap 1 h,
    (TrivialConverter_convert ⟨20⟩ (some ⟨50, 60⟩) (some oneNodeContext)).2 5 0 fiveCap 1 h⟩

/-! ## What `SchedDecom` leaves as it is -/

theorem findAgent_get (m : Agent) (ags : List Agent) (i : Nat)
    (h : Timer.findAgent m ags = some i) :
    (ags.eraseIdx i).filter (fun a => a ≠ m) = ags.filter (fun a => a ≠ m) ∧
    ∀ a, a ≠ m → (ags.eraseIdx i).count a = ags.count a := by
  induction ags generalizing i with
  | nil => simp [Timer.findAgent] at h
  | cons b rest ih =>
    simp only [Timer.findAgent] at h
    split_ifs at h with hb
    · cases h
      subst hb
      refine ⟨by simp, ?_⟩
      intro a ha
      simp [List.count_cons, Ne.symm ha]
    · cases hr : Timer.findAgent m rest with
      | none => simp [hr] at h
      | some j =>
        simp only [hr, Option.map_some', Option.some.injEq] at h
        subst h
        obtain ⟨h1, h2⟩ := ih j hr
        refine ⟨by simp only [List.eraseIdx, List.filter_cons, h1], ?_⟩
        intro a ha
        simp [List.eraseIdx, List.count_cons, h2 a ha]

theorem get_unschedule_filter (m : Agent) (k : Int) (q : OMap Int (List Agent)) :
    ((Timer.unschedule m q).get k []).filter (fun a => a ≠ m)
      = (q.get k []).filter (fun a => a ≠ m) := by
  induction q with
  | nil => rfl
  | cons e rest ih =>
    obtain ⟨k0, ags⟩ := e
    simp only [Timer.unschedule]
    cases hf : Timer.findAgent m ags with
    | none =>
      simp only [OMap.get, OMap.find?] at ih ⊢
      split_ifs
      · rfl
      · exact ih
    | some i =>
      simp only [OMap.get, OMap.find?]
      split_ifs
      · simp only [Option.getD_some]
        exact (findAgent_get m ags i hf).1
      · rfl

theorem occurrences_unschedule_ne (m a : Agent) (ha : a ≠ m) (q : OMap Int (List Agent)) :
    occurrences a (Timer.unschedule m q) = occurrences a q := by
  induction q with
  | nil => rfl
  | cons e rest ih =>
    obtain ⟨k0, ags⟩ := e
    simp only [Timer.unschedule]
    cases hf : Timer.findAgent m ags with
    | none =>
      simp only [occurrences, List.map_cons, List.sum_cons] at ih ⊢
      rw [ih]
    | some i =>
      simp only [occurrences, List.map_cons, List.sum_cons, (findAgent_get m ags i hf).2 a ha]

theorem get_unschedule (m : Agent) (k : Int) (q : OMap Int (List Agent))
    (hm : occurrences m q ≤ 1) :
    (Timer.unschedule m q).get k [] = (q.get k []).filter (fun a => a ≠ m) := by
  rw [← get_unschedule_filter]
  have h0 : ((Timer.unschedule m q).get k []).count m = 0 := by
    have h1 := count_get_le m k (Timer.unschedule m q)
    rw [Timer.occurrences_unschedule] at h1
    omega
  symm
  apply List.filter_eq_self.mpr
  intro a ha
  simp only [ne_eq, decide_not, Bool.not_eq_true', decide_eq_false_iff_not]
  rintro rfl
  exact List.count_eq_zero.mp h0 ha

/-- C24: in a timer whose decommission queue holds each agent at most once, a
`SchedDecom(m, t)` that returns normally leaves a queue that holds each agent at
most once. The entry of every time `k` is its former content without `m`, in the
former order, followed by `m` when `k = t`: the agents other than `m` stand
under the times they stood under, in the order they stood in. The queue is a
map: its keys ascend. -/
theorem SchedDecom_frame (s : Timer) (m : Agent) (t : Int) (hwf : s.decom_queue_.WF)
    (hu : ∀ a, occurrences a s.decom_queue_ ≤ 1)
    (hok : (s.SchedDecom m t).1 = .ok ()) :
    (∀ a, occurrences a (s.SchedDecom m t).2.decom_queue_ ≤ 1) ∧
    (∀ k, (s.SchedDecom m t).2.decom_queue_.get k []
      = if k = t then (s.decom_queue_.get k []).filter (fun a => a ≠ m) ++ [m]
        else (s.decom_queue_.get k []).filter (fun a => a ≠ m)) ∧
    (∀ k, ((s.SchedDecom m t).2.decom_queue_.get k []).filter (fun a => a ≠ m)
      = (s.decom_queue_.get k []).filter (fun a => a ≠ m)) ∧
    (∀ a, a ≠ m → ∀ k,
      (a ∈ (s.SchedDecom m t).2.decom_queue_.get k [] ↔ a ∈ s.decom_queue_.get k [])) ∧
    (s.SchedDecom m t).2.decom_queue_.WF := by
  have ht : ¬ t < s.time_ := by
    intro hc
    simp [Timer.SchedDecom, hc] at hok
  have e : (s.SchedDecom m t).2.decom_queue_
      = (Timer.unschedule m s.decom_queue_).alter t (fun o => o.getD [] ++ [m]) := by
    simp [Timer.SchedDecom, ht]
  rw [e]
  have hwf1 : (Timer.unschedule m s.decom_queue_).WF := by
    unfold OMap.WF
    rw [Timer.keys_unschedule]
    exact hwf
  have hget : ∀ k, ((Timer.unschedule m s.decom_queue_).alter t
      (fun o => o.getD [] ++ [m])).get k []
      = if k = t then (s.decom_queue_.get k []).filter (fun a => a ≠ m) ++ [m]
        else (s.decom_queue_.get k []).filter (fun a => a ≠ m) := by
    intro k
    split_ifs with hk
    · subst hk
      simp only [OMap.get]
      rw [OMap.find?_alter_self _ _ _ hwf1]
      simp only [Option.getD_some]
      have := get_unschedule m k s.decom_queue_ (hu m)
      simp only [OMap.get] at this
      rw [this]
    · have := get_unschedule m k s.decom_queue_ (hu m)
      simp only [OMap.get] at this ⊢
      rw [OMap.find?_alter_ne _ _ _ _ hk, this]
  have hfilter : ∀ k, (((Timer.unschedule m s.decom_queue_).alter t
      (fun o => o.getD [] ++ [m])).get k []).filter (fun a => a ≠ m)
      = (s.decom_queue_.get k []).filter (fun a => a ≠ m) := by
    intro k
    rw [hget k]
    split_ifs <;> simp [List.filter_filter]
  refine ⟨?_, hget, hfilter, ?_, OMap.alter_WF _ _ _ hwf1⟩
  · intro a
    rw [occurrences_push]
    by_cases ha : m = a
    · subst ha
      rw [Timer.occurrences_unschedule]
      have := hu m
      simp only [if_true]
      omega
    · rw [occurrences_unschedule_ne m a (Ne.symm ha)]
      simp only [ha, if_false, add_zero]
      exact hu a
  · intro a ha k
    have h1 : a ∈ (((Timer.unschedule m s.decom_queue_).alter t
        (fun o => o.getD [] ++ [m])).get k []).filter (fun a => a ≠ m)
        ↔ a ∈ (s.decom_queue_.get k []).filter (fun a => a ≠ m) := by rw [hfilter k]
    simpa [List.mem_filter, ha] using h1

/-- Scenario of C24: agent 3 is moved from 5 to 7; agents 8 and 9 stay where they
are. -/
theorem SchedDecom_frame_witness :
    busyTimer.decom_queue_.WF ∧ (∀ a, occurrences a busyTimer.decom_queue_ ≤ 1) ∧
    (busyTimer.SchedDecom 3 7).1 = .ok () ∧
    (busyTimer.SchedDecom 3 7).2.decom_queue_.get 5 [] = [8] ∧
    (busyTimer.SchedDecom 3 7).2.decom_queue_.get 7 [] = [9, 3] ∧
    (∀ a, occurrences a (busyTimer.SchedDecom 3 7).2.decom_queue_ ≤ 1) := by
  have hwf : busyTimer.decom_queue_.WF := by
    unfold OMap.WF
    decide
  have hu : ∀ a : Nat, occurrences a busyTimer.decom_queue_ ≤ 1 := by
    intro a
    show (([((5 : Int), ([3, 8] : List Nat)), (7, [9])] : List (Int × List Nat)).map
      (fun e => e.2.count (a : Nat))).sum ≤ 1
    simp only [List.map_cons, List.map_nil, List.sum_cons, List.sum_nil, List.count_cons,
      List.count_nil, beq_iff_eq]
    split_ifs <;> omega
  have h := SchedDecom_frame busyTimer 3 7 hwf hu rfl
  refine ⟨hwf, hu, rfl, ?_, ?_, h.1⟩
  · rw [h.2.1 5]
    decide
  · rw [h.2.1 7]
    decide

/-! ## The normalisation constant of `AddMutualReqs` -/

theorem crumbPortfolio_eq : crumbPortfolio =
    { self := 0,
      requests_ := [⟨1, ⟨1 / 2⟩, some 7, 0, "fuelA", 0, false⟩,
        ⟨2, ⟨1 / 2⟩, some 7, 0, "fuelB", 0, false⟩],
      default_constr_coeffs_ := [(1, .finite 1), (2, .finite 1)],
      constraints_ := [], qty_ := 1 / 2, requester_ := some 7 } := by
  have h : (1 / 2 : ℚ) ≠ -1 := by norm_num
  have h' : (2⁻¹ : ℚ) ≠ -1 := by norm_num
  simp [crumbPortfolio, RequestPortfolio.AddRequest, RequestPortfolio.VerifyRequester_,
    RequestPortfolio.VerifyQty_, RequestPortfolio.new, OMap.alter, h, h']

theorem accumulate_crumbs :
    accumulate [⟨1, ⟨1 / 2⟩, some 7, 0, "fuelA", 0, false⟩,
      ⟨2, ⟨1 / 2⟩, some 7, 0, "fuelB", 0, false⟩] = 0 := by
  have h1 : truncate (1 / 2) = 0 := by
    have hn : (1 / 2 : ℚ).num = 1 := by norm_num
    have hd : (1 / 2 : ℚ).den = 2 := by norm_num
    simp only [truncate, hn, hd]
    rfl
  have e1 : ((0 : Int) : ℚ) + 1 / 2 = 1 / 2 := by norm_num
  simp only [accumulate, List.foldl_cons, List.foldl_nil, Sum, truncate_intCast, e1, h1]

/-- C23, the code on two requests of the positive quantity 1/2: the `int` accumulator
of `std::accumulate` stays at 0 (each sum 0 + 1/2 is cut to 0), the
normalisation constant is 0 / 2 = 0, and both coefficients are 1/2 divided by
zero, which is no finite number. -/
theorem AddMutualReqs_divides_by_zero :
    crumbPortfolio.requests ≠ [] ∧
    (∀ r ∈ crumbPortfolio.requests, 0 < r.target.quantity) ∧
    RequestPortfolio.normConst crumbPortfolio.requests = some 0 ∧
    (crumbPortfolio.AddMutualReqs crumbPortfolio.requests).map
        (fun p => p.default_constr_coeffs_)
      = some [(1, .nonfinite), (2, .nonfinite)] := by
  have hn : RequestPortfolio.normConst crumbPortfolio.requests = some 0 := by
    rw [crumbPortfolio_eq]
    simp only [RequestPortfolio.normConst, RequestPortfolio.requests, accumulate_crumbs]
    rfl
  refine ⟨?_, ?_, hn, ?_⟩
  · rw [crumbPortfolio_eq]
    simp [RequestPortfolio.requests]
  · rw [crumbPortfolio_eq]
    intro r hr
    simp only [RequestPortfolio.requests, List.mem_cons, List.mem_singleton, List.not_mem_nil,
      or_false] at hr
    rcases hr with rfl | rfl <;> norm_num
  · simp only [RequestPortfolio.AddMutualReqs, hn, Option.map_some']
    rw [crumbPortfolio_eq]
    simp [RequestPortfolio.requests, OMap.alter, Double.div]

/-! ## The exchange graph: arcs at a node -/

namespace ExchangeGraph

/-- One `AddArc` extends the entry of a node by the arc once for each end of the arc
that is the node. -/
theorem get_AddArc (g : ExchangeGraph) (hwf : g.node_arc_map_.WF) (a : Arc) (n : Nat) :
    (g.AddArc a).node_arc_map_.get n [] =
      g.node_arc_map_.get n [] ++ (if a.unode = n then [a] else []) ++
        (if a.vnode = n then [a] else []) := by
  have hwf1 := OMap.alter_WF a.unode (fun o => o.getD [] ++ [a]) g.node_arc_map_ hwf
  unfold AddArc OMap.get
  by_cases hv : a.vnode = n
  · subst hv
    rw [OMap.find?_alter_self _ _ _ hwf1]
    by_cases hu : a.unode = a.vnode
    · rw [hu] at hwf1 ⊢
      rw [OMap.find?_alter_self _ _ _ hwf]
      simp
    · rw [OMap.find?_alter_ne _ _ _ _ (Ne.symm hu)]
      simp [hu]
  · rw [OMap.find?_alter_ne _ _ _ _ (Ne.symm hv)]
    by_cases hu : a.unode = n
    · subst hu
      rw [OMap.find?_alter_self _ _ _ hwf]
      simp [hv]
    · rw [OMap.find?_alter_ne _ _ _ _ (Ne.symm hu)]
      simp [hu, hv]

theorem AddArc_WF (g : ExchangeGraph) (hwf : g.node_arc_map_.WF) (a : Arc) :
    (g.AddArc a).node_arc_map_.WF :=
  OMap.alter_WF _ _ _ (OMap.alter_WF _ _ _ hwf)

/-- A node is without entry after `AddArc` when it had none and is no end of the
arc. -/
theorem find?_AddArc_none (g : ExchangeGraph) (a : Arc) (n : Nat) :
    (g.AddArc a).node_arc_map_.find? n = none ↔
      g.node_arc_map_.find? n = none ∧ a.unode ≠ n ∧ a.vnode ≠ n := by
  unfold AddArc
  by_cases hv : a.vnode = n
  · subst hv
    obtain ⟨o, ho⟩ := OMap.find?_alter_self_some a.vnode (fun o => o.getD [] ++ [a])
      (g.node_arc_map_.alter a.unode (fun o => o.getD [] ++ [a]))
    simp [ho]
  · rw [OMap.find?_alter_ne _ _ _ _ (Ne.symm hv)]
    by_cases hu : a.unode = n
    · subst hu
      obtain ⟨o, ho⟩ := OMap.find?_alter_self_some a.unode (fun o => o.getD [] ++ [a])
        g.node_arc_map_
      simp [ho]
    · rw [OMap.find?_alter_ne _ _ _ _ (Ne.symm hu)]
      simp [hu, hv]

/-- The arcs added to a graph, from any graph on: the list of arcs grows by them, and
the entry of a node by those of them that have the node as an end, in the order
of the calls, when no arc has one node as both ends. -/
theorem foldl_AddArc (as : List Arc) (hd : ∀ a ∈ as, a.unode ≠ a.vnode) (n : Nat) :
    ∀ g : ExchangeGraph, g.node_arc_map_.WF →
      (as.foldl AddArc g).arcs_ = g.arcs_ ++ as ∧
      (as.foldl AddArc g).node_arc_map_.WF ∧
      (as.foldl AddArc g).node_arc_map_.get n [] =
        g.node_arc_map_.get n [] ++ as.filter (fun a => a.unode = n ∨ a.vnode = n) ∧
      ((as.foldl AddArc g).node_arc_map_.find? n = none ↔
        g.node_arc_map_.find? n = none ∧ ∀ a ∈ as, a.unode ≠ n ∧ a.vnode ≠ n) := by
  induction as with
  | nil => intro g hwf; simp [hwf]
  | cons a rest ih =>
    intro g hwf
    have hda : a.unode ≠ a.vnode := hd a (List.mem_cons_self _ _)
    obtain ⟨h1, h2, h3, h4⟩ :=
      ih (fun b hb => hd b (List.mem_cons_of_mem _ hb)) (g.AddArc a) (AddArc_WF g hwf a)
    refine ⟨?_, h2, ?_, ?_⟩
    · rw [List.foldl_cons, h1]
      simp [AddArc]
    · rw [List.foldl_cons, h3, get_AddArc g hwf a n]
      by_cases hu : a.unode = n
      · have hv : a.vnode ≠ n := fun h => hda (hu.trans h.symm)
        simp [hu, hv, List.filter_cons]
      · by_cases hv : a.vnode = n
        · simp [hu, hv, List.filter_cons]
        · simp [hu, hv, List.filter_cons]
    · rw [List.foldl_cons, h4, find?_AddArc_none]
      simp only [List.mem_cons, forall_eq_or_imp]
      tauto

end ExchangeGraph

/-- The modelled `AddArc` on an arc with one node as both ends: the entry of that
node is extended twice. -/
theorem AddArc_same_node :
    (ExchangeGraph.new.AddArc ⟨10, 10⟩).node_arc_map.get 10 [] = [⟨10, 10⟩, ⟨10, 10⟩] := by
  decide

/-- C22, on the exchange graph as modelled from the spec (`exchange_graph.h` is not
part of the sources): after any sequence of `AddArc` calls on a new graph, with
arcs that join two different nodes (the request node `unode` and the supply node
`vnode`), the entry of `node_arc_map` at every node `n` is exactly the list of the
added arcs that have `n` as `unode` or as `vnode`, in the order of the calls; the
node has an entry exactly when some added arc has it as an end; the list of arcs
is the list of the added arcs. -/
theorem AddArc_node_arc_map (as : List Arc) (n : Nat)
    (hd : ∀ a ∈ as, a.unode ≠ a.vnode) :
    (as.foldl ExchangeGraph.AddArc ExchangeGraph.new).node_arc_map.get n [] =
        as.filter (fun a => a.unode = n ∨ a.vnode = n) ∧
    ((as.foldl ExchangeGraph.AddArc ExchangeGraph.new).node_arc_map.find? n =
        if as.filter (fun a => a.unode = n ∨ a.vnode = n) = [] then none
        else some (as.filter (fun a => a.unode = n ∨ a.vnode = n))) ∧
    (as.foldl ExchangeGraph.AddArc ExchangeGraph.new).arcs_ = as := by
  obtain ⟨h1, _, h3, h4⟩ :=
    ExchangeGraph.foldl_AddArc as hd n ExchangeGraph.new (by simp [ExchangeGraph.new, OMap.WF])
  have h3' : (as.foldl ExchangeGraph.AddArc ExchangeGraph.new).node_arc_map_.get n [] =
      as.filter (fun a => a.unode = n ∨ a.vnode = n) := by
    rw [h3]; simp [ExchangeGraph.new, OMap.get, OMap.find?]
  refine ⟨h3', ?_, by rw [h1]; simp [ExchangeGraph.new]⟩
  unfold ExchangeGraph.node_arc_map
  by_cases he : as.filter (fun a => a.unode = n ∨ a.vnode = n) = []
  · rw [if_pos he, h4]
    refine ⟨by simp [ExchangeGraph.new, OMap.find?], ?_⟩
    intro a ha
    have := List.filter_eq_nil_iff.mp he a ha
    simpa [not_or] using this
  · rw [if_neg he]
    cases hf : (as.foldl ExchangeGraph.AddArc ExchangeGraph.new).node_arc_map_.find? n with
    | none =>
      exfalso
      apply he
      rw [← h3']
      simp [OMap.get, hf]
    | some l =>
      rw [← h3']
      simp [OMap.get, hf]

/-- C22 on the arcs `(u, v)`, `(u, w)`, `(x, w)` of the test `AddArc2`: `u` has the
first two arcs, `v` the first, `w` the last two, `x` the last. -/
theorem AddArc_node_arc_map_witness :
    (∀ a ∈ testArcs, a.unode ≠ a.vnode) ∧
    (testArcs.foldl ExchangeGraph.AddArc ExchangeGraph.new).node_arc_map.get 10 [] =
      [⟨10, 20⟩, ⟨10, 30⟩] ∧
    (testArcs.foldl ExchangeGraph.AddArc ExchangeGraph.new).node_arc_map.get 20 [] =
      [⟨10, 20⟩] ∧
    (testArcs.foldl ExchangeGraph.AddArc ExchangeGraph.new).node_arc_map.get 30 [] =
      [⟨10, 30⟩, ⟨40, 30⟩] ∧
    (testArcs.foldl ExchangeGraph.AddArc ExchangeGraph.new).node_arc_map.get 40 [] =
      [⟨40, 30⟩] :=
  ⟨by decide,
    (AddArc_node_arc_map testArcs 10 (by decide)).1,
    (AddArc_node_arc_map testArcs 20 (by decide)).1,
    (AddArc_node_arc_map testArcs 30 (by decide)).1,
    (AddArc_node_arc_map testArcs 40 (by decide)).1⟩

end cyclus
